import Mathlib

/-!
# modules/codec/ffmpeg/video.c — a shallow embedding

The video decoder module of VLC (`video.c`, revision 1.24) drives an external
codec library and an external video output.  The functions of the file are
embedded below as Lean functions over an explicit record of the decoder thread
(`vdec_thread_t`).  Everything the file calls but does not define (the clock,
the codec, the video output, the packet fifo, the allocator) is an oracle of
the environment record `Env`; the thread record carries one cursor per oracle,
so that the n-th call of `mdate()` reads `env.mdate n`.

C `int` and `mtime_t` values are integers (`Int`); signed overflow is undefined
behaviour in C and is not modelled.  The one place where the source computes
in `uint64_t` (the date extrapolation) wraps modulo `2^64` explicitly.
-/

namespace FfmpegVideo

/-! ## Memory -/

/-- A byte region addressed by offset from its base pointer. -/
abbrev Mem := Int → Nat

/-- C `memcpy( dst + d, src + s, n )`; also `memmove` when `dst` and `src` are
the same region, since the source bytes are read before any is written.
A non-positive `n` copies nothing. -/
def memcpy (dst : Mem) (d : Int) (src : Mem) (s : Int) (n : Int) : Mem :=
  fun a => if d ≤ a ∧ a < d + n then src (a - d + s) else dst a

/-- C `memset( dst + d, c, n )`. -/
def memset (dst : Mem) (d : Int) (c : Nat) (n : Int) : Mem :=
  fun a => if d ≤ a ∧ a < d + n then c else dst a

/-- The first `n` bytes of a region, as a list. -/
def bytes (m : Mem) (n : Int) : List Nat :=
  (List.range n.toNat).map (fun (i : Nat) => m (i : Int))

/-- Conversion of a C integer to `uint64_t`. -/
def toUInt64 (x : Int) : Nat := (x % (2 ^ 64 : Int)).toNat

/-- Conversion of a `uint64_t` value to `int64_t` (two's complement). -/
def toInt64 (n : Nat) : Int :=
  if n % 2 ^ 64 < 2 ^ 63 then ((n % 2 ^ 64 : Nat) : Int) else ((n % 2 ^ 64 : Nat) : Int) - 2 ^ 64

/-! ## Data -/

/-- The ffmpeg pixel formats `video.c` names; every other enumerator is `other`. -/
inductive PixFmt where
  | YUV420P
  | YUV422
  | RGB24
  | BGR24
  | YUV422P
  | YUV444P
  | YUV410P
  | YUV411P
  | other (n : Nat)
  deriving DecidableEq, Repr

/-- The macro `VLC_FOURCC` of the VLC headers: four characters packed into a
32-bit code, first character in the low byte. -/
def VLC_FOURCC (a b c d : Char) : Nat :=
  a.toNat + b.toNat * 2 ^ 8 + c.toNat * 2 ^ 16 + d.toNat * 2 ^ 24

/-- A demultiplexed packet: `i_pts` is zero when the packet carries no
timestamp, `i_pes_size` is the announced payload size, `payload` the bytes
held by its data packets. -/
structure pes_packet_t where
  i_pts : Int
  i_pes_size : Int
  payload : List Nat

/-- One plane of a video output picture. -/
structure plane_t where
  p_pixels : Mem
  i_pitch : Int
  i_lines : Int

/-- A picture of the video output; `id` names the picture in the output heap. -/
structure picture_t where
  id : Nat
  p : Nat → plane_t
  i_planes : Int

/-- The codec frame: `data` holds the plane pointers (`none` is `NULL`),
`opaque_pic` is the `void *` user field, which in direct rendering points to
the output picture. -/
structure AVFrame where
  data : Nat → Option Mem
  linesize : Nat → Int
  opaque_pic : Option picture_t
  reference : Int
  user_type : Bool
  age : Int

/-- The fields of the codec context that `video.c` reads or writes. -/
structure AVCodecContext where
  width : Int
  height : Int
  pix_fmt : PixFmt
  frame_rate : Int
  hurry_up : Int
  draw_horiz_band : Bool

/-- What `video.c` touches of the video output thread. -/
structure vout_thread_t where
  render_i_chroma : Nat
  b_allow_modify_pics : Bool

/-- The outcome of one `avcodec_decode_video` call: the return value, the
`got_picture` flag, the frame left in `p_ff_pic`, and the stream parameters
the codec wrote into the context. -/
structure DecodeResult where
  i_used : Int
  b_gotpicture : Bool
  frame : AVFrame
  width : Int
  height : Int
  pix_fmt : PixFmt
  frame_rate : Int

/-- The decoder thread: the fields of `vdec_thread_t` used by `video.c`, the
fifo it reads (`fifo`, `b_error`), the link counts of the output pictures, and
the cursors of the environment oracles. -/
structure vdec_thread_t where
  p_context : AVCodecContext
  p_ff_pic : AVFrame
  b_hurry_up : Bool
  i_frame_late : Int
  i_frame_late_start : Int
  i_frame_error : Int
  i_frame_count : Int
  pts : Int
  p_buffer : Mem
  i_buffer : Int
  i_buffer_size : Int
  b_direct_rendering : Bool
  p_vout : Option vout_thread_t
  pp_mode : Bool
  pp_context : Bool
  i_pp_mode : Int
  b_error : Bool
  fifo : List pes_packet_t
  i_refcount : Nat → Int
  n_mdate : Nat
  n_decode : Nat
  n_vout : Nat
  n_pic : Nat

/-- Everything `video.c` calls or includes without defining it.  The build
switches and constants come from the ffmpeg and VLC headers; the functions are
oracles indexed by the number of earlier calls. -/
structure Env where
  LIBAVCODEC_PP : Bool
  LIBAVCODEC_BUILD : Nat
  DEFAULT_FRAME_RATE_BASE : Nat
  FRAME_RATE_BASE : Nat
  DEFAULT_PTS_DELAY : Int
  mdate : Nat → Int
  malloc : Int → Mem
  avcodec_decode_video : Nat → AVCodecContext → Mem → Int → DecodeResult
  vout_Request : Nat → Int → Int → Nat → Option vout_thread_t
  vout_CreatePicture : Nat → Option picture_t
  b_die : Nat → Bool
  pp_get_context : Nat → Bool
  pp_postprocess : AVFrame → picture_t → Int → Int → picture_t
  img_convert : picture_t → AVFrame → PixFmt → Int → Int → picture_t
  pf_postprocess : picture_t → AVFrame → Int → picture_t

/-- What a call of `DecodeThread_Video` does that is visible outside it or is
a write of the late counter: fifo operations, codec calls, late-counter writes
and pictures handed to the video output. -/
inductive Event where
  | extractPES (p_pes : Option pes_packet_t)
  | skipPES
  | deletePES (p_pes : pes_packet_t)
  | decode (i_frame_size : Int) (hurry_up : Int) (i_used : Int) (b_gotpicture : Bool)
  | lateDrop (old new : Int)
  | lateUpdate (pts now old new : Int)
  | display (p_pic : picture_t) (i_pts : Int)

/-! ## Local functions -/

/-- `ffmpeg_PixFmtToChroma` (lines 81-102). -/
def ffmpeg_PixFmtToChroma (i_ff_chroma : PixFmt) : Nat :=
  match i_ff_chroma with
  | PixFmt.YUV420P => VLC_FOURCC 'I' '4' '2' '0'
  | PixFmt.YUV422 => VLC_FOURCC 'I' '4' '2' '0'
  | PixFmt.RGB24 => VLC_FOURCC 'R' 'V' '2' '4'
  | PixFmt.YUV422P => VLC_FOURCC 'I' '4' '2' '2'
  | PixFmt.YUV444P => VLC_FOURCC 'I' '4' '4' '4'
  | PixFmt.YUV410P => 0
  | PixFmt.YUV411P => 0
  | PixFmt.BGR24 => 0
  | PixFmt.other _ => 0

/-- `ffmpeg_CreateVout` (lines 105-175): no output without a display size;
otherwise the output is requested with the chroma of the pixel format (I420
when the format has none), and with libavcodec post-processing a context is
created the first time a mode is set.  The aspect ratio, a floating point
value handed to `vout_Request`, is left out. -/
def ffmpeg_CreateVout (env : Env) (s : vdec_thread_t) : vdec_thread_t × Option vout_thread_t :=
  let i_chroma := ffmpeg_PixFmtToChroma s.p_context.pix_fmt
  if s.p_context.width = 0 ∨ s.p_context.height = 0 then
    (s, none)
  else
    let i_chroma := if i_chroma = 0 then VLC_FOURCC 'I' '4' '2' '0' else i_chroma
    let p_vout := env.vout_Request s.n_vout s.p_context.width s.p_context.height i_chroma
    let s1 := { s with n_vout := s.n_vout + 1 }
    let s2 :=
      if env.LIBAVCODEC_PP = true ∧ s1.pp_mode = true ∧ s1.pp_context = false then
        { s1 with pp_context := env.pp_get_context s.n_vout }
      else s1
    (s2, p_vout)

/-- The wait loop around `vout_CreatePicture` (lines 600-607 and 823-830): it
retries until a picture is returned, and gives up when the thread is asked to
die or the fifo is in error.  `none` is a loop that has not ended within
`fuel` attempts. -/
def waitPicture (env : Env) : Nat → vdec_thread_t → Option (vdec_thread_t × Option picture_t)
  | 0, _ => none
  | fuel + 1, s =>
    match env.vout_CreatePicture s.n_pic with
    | some p_pic => some ({ s with n_pic := s.n_pic + 1 }, some p_pic)
    | none =>
      if env.b_die s.n_pic = true ∨ s.b_error = true then
        some ({ s with n_pic := s.n_pic + 1 }, none)
      else
        waitPicture env fuel { s with n_pic := s.n_pic + 1 }

/-- The row loop of `ffmpeg_CopyPicture` (lines 761-766): `i_lines` times, copy
`i_size` bytes and advance both pointers by their stride. -/
def copyLines (i_size i_src_stride i_dst_stride : Int) (p_src : Mem) :
    Nat → Int → Int → Mem → Mem
  | 0, _, _, p_dst => p_dst
  | n + 1, src_off, dst_off, p_dst =>
    copyLines i_size i_src_stride i_dst_stride p_src n
      (src_off + i_src_stride) (dst_off + i_dst_stride)
      (memcpy p_dst dst_off p_src src_off i_size)

/-- The plane loop of `ffmpeg_CopyPicture` (lines 753-767), planes
`i_plane, ..., i_plane + n - 1`.  A `NULL` source plane cannot be read; the
plane is then left as it is. -/
def copyPlanes (p_ff_pic : AVFrame) : Nat → Nat → (Nat → plane_t) → (Nat → plane_t)
  | 0, _, p => p
  | n + 1, i_plane, p =>
    let dst := p i_plane
    let i_src_stride := p_ff_pic.linesize i_plane
    let i_dst_stride := dst.i_pitch
    let i_size := min i_src_stride i_dst_stride
    let pixels :=
      match p_ff_pic.data i_plane with
      | some p_src =>
        copyLines i_size i_src_stride i_dst_stride p_src dst.i_lines.toNat 0 0 dst.p_pixels
      | none => dst.p_pixels
    copyPlanes p_ff_pic n (i_plane + 1)
      (fun j => if j = i_plane then { dst with p_pixels := pixels } else p j)

/-- `ffmpeg_CopyPicture` (lines 714-800): a natively supported format is
post-processed by libavcodec when a mode and a context exist and copied row by
row otherwise; YUV410P and YUV411P are converted to I420; any other format
sets the error flag of the fifo. -/
def ffmpeg_CopyPicture (env : Env) (p_pic : picture_t) (p_ff_pic : AVFrame)
    (s : vdec_thread_t) : vdec_thread_t × picture_t :=
  if ffmpeg_PixFmtToChroma s.p_context.pix_fmt ≠ 0 then
    if env.LIBAVCODEC_PP = true ∧ s.pp_mode = true ∧ s.pp_context = true then
      (s, env.pp_postprocess p_ff_pic p_pic s.p_context.width s.p_context.height)
    else
      (s, { p_pic with p := copyPlanes p_ff_pic p_pic.i_planes.toNat 0 p_pic.p })
  else
    match s.p_context.pix_fmt with
    | PixFmt.YUV410P =>
      (s, env.img_convert p_pic p_ff_pic s.p_context.pix_fmt s.p_context.width s.p_context.height)
    | PixFmt.YUV411P =>
      (s, env.img_convert p_pic p_ff_pic s.p_context.pix_fmt s.p_context.width s.p_context.height)
    | _ => ({ s with b_error := true }, p_pic)

/-! ## Direct rendering callbacks -/

/-- Modelled from the spec: `vout_LinkPicture` is defined in the video output,
not in `video.c`; it increments the reference count of the picture. -/
def vout_LinkPicture (s : vdec_thread_t) (p_pic : picture_t) : vdec_thread_t :=
  { s with i_refcount := fun j => if j = p_pic.id then s.i_refcount j + 1 else s.i_refcount j }

/-- Modelled from the spec: `vout_UnlinkPicture` is defined in the video
output, not in `video.c`; it decrements the reference count of the picture. -/
def vout_UnlinkPicture (s : vdec_thread_t) (p_pic : picture_t) : vdec_thread_t :=
  { s with i_refcount := fun j => if j = p_pic.id then s.i_refcount j - 1 else s.i_refcount j }

/-- `ffmpeg_GetFrameBuf` (lines 806-853): the `get_buffer` callback.  The
result is the thread, the frame as the callback leaves it and the return
value; `none` is a wait loop that has not ended within `fuel` attempts. -/
def ffmpeg_GetFrameBuf (env : Env) (fuel : Nat) (s : vdec_thread_t) (p_ff_pic : AVFrame) :
    Option (vdec_thread_t × AVFrame × Int) :=
  let (s1, p_vout) := ffmpeg_CreateVout env s
  match p_vout with
  | none => some ({ s1 with p_vout := none, b_error := true }, p_ff_pic, -1)
  | some vout =>
    let s2 := { s1 with p_vout := some { vout with b_allow_modify_pics := false } }
    match waitPicture env fuel s2 with
    | none => none
    | some (s3, none) => some (s3, p_ff_pic, -1)
    | some (s3, some p_pic) =>
      let s4 := { s3 with p_context := { s3.p_context with draw_horiz_band := false } }
      let frame : AVFrame :=
        { p_ff_pic with
          opaque_pic := some p_pic
          user_type := true
          data := fun i =>
            if i = 0 then some (p_pic.p 0).p_pixels
            else if i = 1 then some (p_pic.p 1).p_pixels
            else if i = 2 then some (p_pic.p 2).p_pixels
            else if i = 3 then none
            else p_ff_pic.data i
          linesize := fun i =>
            if i = 0 then (p_pic.p 0).i_pitch
            else if i = 1 then (p_pic.p 1).i_pitch
            else if i = 2 then (p_pic.p 2).i_pitch
            else if i = 3 then 0
            else p_ff_pic.linesize i }
      let s5 := if p_ff_pic.reference ≠ 0 then vout_LinkPicture s4 p_pic else s4
      some (s5, { frame with age := 256 * 256 * 256 * 64 }, 0)

/-- `ffmpeg_ReleaseFrameBuf` (lines 855-870): the `release_buffer` callback.
The four plane pointers are cleared and the picture the frame points to is
unlinked, whatever the reference flag of the frame.  A frame without a picture
in its user field cannot be unlinked; the counts are then left as they are. -/
def ffmpeg_ReleaseFrameBuf (s : vdec_thread_t) (p_ff_pic : AVFrame) : vdec_thread_t × AVFrame :=
  let frame : AVFrame :=
    { p_ff_pic with data := fun i => if i < 4 then none else p_ff_pic.data i }
  match p_ff_pic.opaque_pic with
  | some p_pic => (vout_UnlinkPicture s p_pic, frame)
  | none => (s, frame)

/-! ## DecodeThread_Video -/

/-- Modelled from the spec: `E_( GetPESData )` is defined in `ffmpeg.c`, not in
`video.c`.  It copies the payload of the packet, at most `i_max` bytes, to
`p_buf + off` and returns the number of bytes copied. -/
def GetPESData (p_buf : Mem) (off : Int) (i_max : Int) (p_pes : pes_packet_t) : Mem × Int :=
  let data := p_pes.payload.take i_max.toNat
  (fun a => if off ≤ a ∧ a < off + data.length then data.getD (a - off).toNat 0 else p_buf a,
   data.length)

/-- The append of one packet (lines 498-523), entered when `i_pes_size > 0`:
the buffer is replaced by a fresh one of exactly the needed size when it is
too small, the bytes kept from the last call are copied over, the payload is
written after them and sixteen zero bytes after the payload.  The result is
the thread and the number of payload bytes written. -/
def appendPES (env : Env) (s : vdec_thread_t) (p_pes : pes_packet_t) : vdec_thread_t × Int :=
  let i_frame_size := p_pes.i_pes_size
  let i_need := i_frame_size + 16 + s.i_buffer
  let s1 :=
    if s.i_buffer_size < i_need then
      let p_last := s.p_buffer
      let p_new := env.malloc i_need
      { s with
        p_buffer := if s.i_buffer > 0 then memcpy p_new 0 p_last 0 s.i_buffer else p_new
        i_buffer_size := i_need }
    else s
  let r := GetPESData s1.p_buffer s1.i_buffer i_frame_size p_pes
  ({ s1 with p_buffer := memset r.1 (s1.i_buffer + r.2) 0 16 }, r.2)

/-- One packet of the packet loop (lines 490-523): a packet with a timestamp
sets the anchor and resets the frame counter, and a packet with a positive
size is appended.  The result is the thread and the frame size. -/
def readPES (env : Env) (s : vdec_thread_t) (p_pes : pes_packet_t) : vdec_thread_t × Int :=
  let s1 := if p_pes.i_pts ≠ 0 then { s with pts := p_pes.i_pts, i_frame_count := 0 } else s
  if p_pes.i_pes_size > 0 then appendPES env s1 p_pes else (s1, p_pes.i_pes_size)

/-- The packet loop (lines 464-525) over the packets still in the fifo: each
packet is extracted, read and deleted, and the loop goes on while the frame
size is not positive.  The result carries `some i_frame_size` when a packet
was appended and `none` when the fifo ran out, in which case the error flag is
set. -/
def fetchLoop (env : Env) : List pes_packet_t → vdec_thread_t →
    vdec_thread_t × List Event × Option Int
  | [], s => ({ s with fifo := [], b_error := true }, [Event.extractPES none], none)
  | p_pes :: rest, s =>
    if (readPES env s p_pes).2 ≤ 0 then
      let t := fetchLoop env rest (readPES env s p_pes).1
      (t.1, Event.extractPES (some p_pes) :: Event.deletePES p_pes :: t.2.1, t.2.2)
    else
      ({ (readPES env s p_pes).1 with fifo := rest },
       [Event.extractPES (some p_pes), Event.deletePES p_pes], some (readPES env s p_pes).2)

/-- The forced resynchronisation loop (lines 445-456) over the packets still
in the fifo: each packet is extracted and deleted, and the loop goes on while
its timestamp is not positive or is earlier than the clock, which is read only
for a positive timestamp.  The flag of the result is false when the fifo ran
out, in which case the error flag is set. -/
def resyncLoop (env : Env) : List pes_packet_t → vdec_thread_t →
    vdec_thread_t × List Event × Bool
  | [], s => ({ s with fifo := [], b_error := true }, [Event.extractPES none], false)
  | p_pes :: rest, s =>
    if p_pes.i_pts ≤ 0 then
      let t := resyncLoop env rest s
      (t.1, Event.extractPES (some p_pes) :: Event.deletePES p_pes :: t.2.1, t.2.2)
    else
      let now := env.mdate s.n_mdate
      let s1 := { s with n_mdate := s.n_mdate + 1 }
      if p_pes.i_pts < now then
        let t := resyncLoop env rest s1
        (t.1, Event.extractPES (some p_pes) :: Event.deletePES p_pes :: t.2.1, t.2.2)
      else
        ({ s1 with fifo := rest }, [Event.extractPES (some p_pes), Event.deletePES p_pes], true)

/-- The update of the late counter (lines 570-582): the anchor `pts` is
compared with the clock; a late frame increments the counter and, when the
counter becomes one, records the start of the late episode with a second
reading of the clock; otherwise the counter is reset. -/
def updateFrameLate (env : Env) (s : vdec_thread_t) : vdec_thread_t × Event :=
  let now := env.mdate s.n_mdate
  let s1 := { s with n_mdate := s.n_mdate + 1 }
  if s.pts ≤ now then
    let s2 := { s1 with i_frame_late := s.i_frame_late + 1 }
    let s3 :=
      if s2.i_frame_late = 1 then
        { s2 with i_frame_late_start := env.mdate s2.n_mdate, n_mdate := s2.n_mdate + 1 }
      else s2
    (s3, Event.lateUpdate s.pts now s.i_frame_late (s.i_frame_late + 1))
  else
    ({ s1 with i_frame_late := 0 }, Event.lateUpdate s.pts now s.i_frame_late 0)

/-- The picture to display (lines 589-633).  Without direct rendering the
output is created, a picture is waited for, the frame is copied into it and,
in a build without libavcodec post-processing, the old post-processing is
applied on an I420 or YV12 output; with direct rendering the picture is the
one the frame points to (a frame whose user field is null has no picture to
display).  The inner `none` is a return without a picture, the outer `none` a
wait loop that has not ended within `fuel` attempts. -/
def getPicture (env : Env) (fuel : Nat) (s : vdec_thread_t) :
    Option (vdec_thread_t × Option picture_t) :=
  if s.b_direct_rendering = false then
    let c := ffmpeg_CreateVout env s
    match c.2 with
    | none => some ({ c.1 with p_vout := none, b_error := true }, none)
    | some vout =>
      match waitPicture env fuel { c.1 with p_vout := some vout } with
      | none => none
      | some (s1, none) => some (s1, none)
      | some (s1, some p_pic) =>
        let r := ffmpeg_CopyPicture env p_pic s1.p_ff_pic s1
        let p_out :=
          if env.LIBAVCODEC_PP = false ∧ r.1.i_pp_mode ≠ 0 ∧
              (vout.render_i_chroma = VLC_FOURCC 'I' '4' '2' '0' ∨
               vout.render_i_chroma = VLC_FOURCC 'Y' 'V' '1' '2') then
            env.pf_postprocess r.2 r.1.p_ff_pic r.1.i_pp_mode
          else r.2
        some (r.1, some p_out)
  else
    some (s, s.p_ff_pic.opaque_pic)

/-- The frame rate base the date extrapolation divides by (lines 642-652):
`DEFAULT_FRAME_RATE_BASE` from build 4662 of libavcodec on, `FRAME_RATE_BASE`
before. -/
def frameRateBase (env : Env) : Nat :=
  if env.LIBAVCODEC_BUILD ≥ 4662 then env.DEFAULT_FRAME_RATE_BASE else env.FRAME_RATE_BASE

/-- The date of a frame (lines 635-658) from the anchor `pts`, the frame
counter, the frame rate and a reading `now` of the clock.  The extrapolation
is computed in `uint64_t`: one million times the counter minus one, divided by
the frame rate base of the build and then by the frame rate, both divisions
truncating. -/
def framePts (env : Env) (pts i_frame_count frame_rate now : Int) : Int :=
  if pts > 0 then
    if frame_rate > 0 then
      toInt64 (toUInt64 pts +
        (1000000 * toUInt64 (i_frame_count - 1)) % 2 ^ 64 / frameRateBase env /
          toUInt64 frame_rate)
    else pts
  else now + env.DEFAULT_PTS_DELAY

/-- The date computation as it runs in the thread: the clock is read only
when there is no anchor. -/
def datePicture (env : Env) (s : vdec_thread_t) : vdec_thread_t × Int :=
  let i_pts :=
    framePts env s.pts s.i_frame_count s.p_context.frame_rate (env.mdate s.n_mdate)
  if s.pts > 0 then (s, i_pts) else ({ s with n_mdate := s.n_mdate + 1 }, i_pts)

/-- The consume step (lines 549-560) after a codec call that used `i_used` of
`i_frame_size` buffered bytes: when bytes are left, the buffer is moved down by
`i_used`, `i_buffer_size - i_used` bytes of it, and the bytes left are kept;
otherwise nothing is kept. -/
def consume (s : vdec_thread_t) (i_frame_size i_used : Int) : vdec_thread_t :=
  if i_used < i_frame_size then
    { s with
      p_buffer := memcpy s.p_buffer 0 s.p_buffer i_used (s.i_buffer_size - i_used)
      i_buffer := i_frame_size - i_used }
  else { s with i_buffer := 0 }

/-- The frame counter (lines 562-565) counts every picture the codec returns. -/
def countPicture (s : vdec_thread_t) (b_gotpicture : Bool) : vdec_thread_t :=
  if b_gotpicture = true then { s with i_frame_count := s.i_frame_count + 1 } else s

/-- The thread after `avcodec_decode_video` returned `r`: the frame and the
stream parameters are the ones the codec left. -/
def afterDecode (s : vdec_thread_t) (r : DecodeResult) : vdec_thread_t :=
  { s with
    n_decode := s.n_decode + 1
    p_ff_pic := r.frame
    p_context :=
      { s.p_context with
        width := r.width, height := r.height, pix_fmt := r.pix_fmt, frame_rate := r.frame_rate } }

/-- One pass from the label `usenextdata` (lines 529-670) with `i_frame_size`
buffered bytes: the codec is called; a negative return counts an error, drops
the buffer and returns; otherwise the consumed bytes are removed, the frame
counter and the late counter are updated, and a picture that was produced,
is not empty and may be drawn is dated and displayed.  The last component is
`some n` when the pass ends in `goto usenextdata` with `n` bytes left. -/
def decodeOnce (env : Env) (b_drawpicture : Bool) (fuel : Nat) (s : vdec_thread_t)
    (i_frame_size : Int) : Option (vdec_thread_t × List Event × Option Int) :=
  let r := env.avcodec_decode_video s.n_decode s.p_context s.p_buffer i_frame_size
  let ev := Event.decode i_frame_size s.p_context.hurry_up r.i_used r.b_gotpicture
  let s0 := afterDecode s r
  if r.i_used < 0 then
    some ({ s0 with i_frame_error := s0.i_frame_error + 1, i_buffer := 0 }, [ev], none)
  else
    let s2 := countPicture (consume s0 i_frame_size r.i_used) r.b_gotpicture
    let i_left := i_frame_size - r.i_used
    let l := updateFrameLate env s2
    if r.b_gotpicture = false ∨ l.1.p_ff_pic.linesize 0 = 0 ∨ b_drawpicture = false then
      some (l.1, [ev, l.2], none)
    else
      match getPicture env fuel l.1 with
      | none => none
      | some (s3, none) => some (s3, [ev, l.2], none)
      | some (s3, some p_pic) =>
        let d := datePicture env s3
        some (d.1, [ev, l.2, Event.display p_pic d.2], if i_left > 0 then some i_left else none)

/-- The drain loop `usenextdata` (lines 529-670): passes are repeated while
a pass ends in the `goto`.  `none` is a loop that has not ended within `fuel`
passes. -/
def usenextdata (env : Env) (b_drawpicture : Bool) : Nat → vdec_thread_t → Int →
    Option (vdec_thread_t × List Event)
  | 0, _, _ => none
  | fuel + 1, s, i_frame_size =>
    match decodeOnce env b_drawpicture (fuel + 1) s i_frame_size with
    | none => none
    | some (s1, ev, none) => some (s1, ev)
    | some (s1, ev, some i_left) =>
      match usenextdata env b_drawpicture fuel s1 i_left with
      | none => none
      | some (s2, ev2) => some (s2, ev ++ ev2)

/-- Lines 459-670: the skip hint for a stream without a display size, the
packet loop, and the drain loop on the bytes kept from the last call plus the
bytes appended. -/
def decodePacket (env : Env) (b_drawpicture : Bool) (fuel : Nat) (s : vdec_thread_t) :
    Option (vdec_thread_t × List Event) :=
  let s1 :=
    if s.p_context.width = 0 ∨ s.p_context.height = 0 then
      { s with p_context := { s.p_context with hurry_up := 5 } }
    else s
  match fetchLoop env s1.fifo s1 with
  | (s2, ev, none) => some (s2, ev)
  | (s2, ev, some i_frame_size) =>
    match usenextdata env b_drawpicture fuel s2 (i_frame_size + s2.i_buffer) with
    | none => none
    | some (s3, ev2) => some (s3, ev ++ ev2)

/-- Lines 442-670: when the late counter is positive and the late episode is
more than five seconds old, packets are dropped by the resynchronisation loop
first; the call returns when that loop finds the fifo empty. -/
def resyncThenDecode (env : Env) (b_drawpicture : Bool) (fuel : Nat) (s : vdec_thread_t) :
    Option (vdec_thread_t × List Event) :=
  if s.i_frame_late > 0 then
    let now := env.mdate s.n_mdate
    let s1 := { s with n_mdate := s.n_mdate + 1 }
    if now - s.i_frame_late_start > 5000000 then
      match resyncLoop env s1.fifo s1 with
      | (s2, ev, false) => some (s2, ev)
      | (s2, ev, true) =>
        match decodePacket env b_drawpicture fuel s2 with
        | none => none
        | some (s3, ev2) => some (s3, ev ++ ev2)
    else decodePacket env b_drawpicture fuel s1
  else decodePacket env b_drawpicture fuel s

/-- `E_( DecodeThread_Video )` (lines 407-671).  With hurry-up and more than
four late frames nothing is drawn; from eight late frames on the call
decrements the counter, drops one packet and returns.  `fuel` bounds the
passes of the drain loop and the attempts of the picture wait loop. -/
def DecodeThread_Video (env : Env) (fuel : Nat) (s : vdec_thread_t) :
    Option (vdec_thread_t × List Event) :=
  if s.b_hurry_up = true ∧ s.i_frame_late > 4 then
    if s.i_frame_late < 8 then
      resyncThenDecode env false fuel { s with p_context := { s.p_context with hurry_up := 2 } }
    else
      some ({ s with i_frame_late := s.i_frame_late - 1, fifo := s.fifo.tail },
            [Event.lateDrop s.i_frame_late (s.i_frame_late - 1), Event.skipPES])
  else
    resyncThenDecode env true fuel { s with p_context := { s.p_context with hurry_up := 0 } }

/-! ## Reading a trace -/

/-- The dates of the pictures displayed, in order. -/
def published : List Event → List Int
  | [] => []
  | Event.display _ i_pts :: ev => i_pts :: published ev
  | _ :: ev => published ev

/-- The number of codec calls. -/
def decodeCalls : List Event → Nat
  | [] => 0
  | Event.decode _ _ _ _ :: ev => decodeCalls ev + 1
  | _ :: ev => decodeCalls ev

/-- The packets deleted, in order. -/
def deleted : List Event → List pes_packet_t
  | [] => []
  | Event.deletePES p_pes :: ev => p_pes :: deleted ev
  | _ :: ev => deleted ev


/-! ## The date the specification gives -/

/-- The quotient `n / d` rounded to the nearest integer, halves up. -/
def roundDiv (n d : Nat) : Nat := (2 * n + d) / (2 * d)

/-- The date of the specification for the `k`-th frame after an anchor `T` at
frame rate `F`: `T + round((k - 1) * 1 000 000 / F)`. -/
def specPts (T k F : Int) : Int := T + roundDiv ((k - 1).toNat * 1000000) F.toNat

/-! ## Concrete streams -/

/-- A region of zero bytes. -/
def zeroMem : Mem := fun _ => 0

/-- A plane of two rows of four bytes. -/
def plane0 : plane_t := { p_pixels := zeroMem, i_pitch := 4, i_lines := 2 }

/-- The output picture number `n`, three planes. -/
def picture0 (n : Nat) : picture_t := { id := n, p := fun _ => plane0, i_planes := 3 }

/-- A decoded frame with rows of four bytes, no picture attached. -/
def frame0 : AVFrame :=
  { data := fun _ => some zeroMem, linesize := fun _ => 4, opaque_pic := none,
    reference := 0, user_type := false, age := 0 }

/-- A codec that uses `step` bytes of every call (all of them when fewer are
buffered), returns a picture every time and reports a 16 by 16 planar 4:2:0
stream at frame rate `rate`. -/
def codec0 (step rate : Int) : Nat → AVCodecContext → Mem → Int → DecodeResult :=
  fun _ _ _ n =>
    { i_used := min step n, b_gotpicture := true, frame := frame0,
      width := 16, height := 16, pix_fmt := PixFmt.YUV420P, frame_rate := rate }

/-- An environment with libavcodec build 4663, the given frame rate base, a
default delay of 200 000, the given clock and codec, and a video output that
always has a picture. -/
def env0 (base : Nat) (clock : Nat → Int)
    (codec : Nat → AVCodecContext → Mem → Int → DecodeResult) : Env :=
  { LIBAVCODEC_PP := true
    LIBAVCODEC_BUILD := 4663
    DEFAULT_FRAME_RATE_BASE := base
    FRAME_RATE_BASE := 10000
    DEFAULT_PTS_DELAY := 200000
    mdate := clock
    malloc := fun _ => zeroMem
    avcodec_decode_video := codec
    vout_Request := fun _ _ _ c => some { render_i_chroma := c, b_allow_modify_pics := true }
    vout_CreatePicture := fun n => some (picture0 n)
    b_die := fun _ => false
    pp_get_context := fun _ => true
    pp_postprocess := fun _ p _ _ => p
    img_convert := fun p _ _ _ _ => p
    pf_postprocess := fun p _ _ => p }

/-- A thread as it is after initialisation: no buffer, all counters zero, copy
mode, the given hurry-up option and the given packets waiting in the fifo. -/
def thread0 (b_hurry_up : Bool) (fifo : List pes_packet_t) : vdec_thread_t :=
  { p_context :=
      { width := 16, height := 16, pix_fmt := PixFmt.YUV420P, frame_rate := 0, hurry_up := 0,
        draw_horiz_band := false }
    p_ff_pic := frame0
    b_hurry_up := b_hurry_up
    i_frame_late := 0
    i_frame_late_start := 0
    i_frame_error := 0
    i_frame_count := 0
    pts := 0
    p_buffer := zeroMem
    i_buffer := 0
    i_buffer_size := 0
    b_direct_rendering := false
    p_vout := none
    pp_mode := false
    pp_context := false
    i_pp_mode := 0
    b_error := false
    fifo := fifo
    i_refcount := fun _ => 0
    n_mdate := 0
    n_decode := 0
    n_vout := 0
    n_pic := 0 }

/-- A packet of three bytes stamped 1000. -/
def packet1000 : pes_packet_t := { i_pts := 1000, i_pes_size := 3, payload := [7, 8, 9] }

/-- A thread in the middle of a stream: anchor 1000, two frames counted since
the anchor, nothing waiting in the fifo. -/
def threadAnchored : vdec_thread_t :=
  { thread0 false [] with pts := 1000, i_frame_count := 2 }

/-- The late-counter writes of a trace replayed from the count `c`, checking
each against the rule of the counter: an update after a codec call increments
the count when the anchor is not later than the clock and resets it to zero
when it is; a drop decrements the count by one, and only with hurry-up on a
count of eight or more.  The result is the count after the last write, `none`
when a write breaks the rule or does not start from the count before it. -/
def lateReplay (b_hurry_up : Bool) : List Event → Int → Option Int
  | [], c => some c
  | Event.lateDrop old new :: ev, c =>
    if old = c ∧ new = c - 1 ∧ b_hurry_up = true ∧ 8 ≤ c then lateReplay b_hurry_up ev new
    else none
  | Event.lateUpdate pts now old new :: ev, c =>
    if old = c ∧ ((pts ≤ now ∧ new = c + 1) ∨ (now < pts ∧ new = 0)) then
      lateReplay b_hurry_up ev new
    else none
  | Event.extractPES _ :: ev, c => lateReplay b_hurry_up ev c
  | Event.skipPES :: ev, c => lateReplay b_hurry_up ev c
  | Event.deletePES _ :: ev, c => lateReplay b_hurry_up ev c
  | Event.decode _ _ _ _ :: ev, c => lateReplay b_hurry_up ev c
  | Event.display _ _ :: ev, c => lateReplay b_hurry_up ev c

/-- The codec asks for a buffer for a frame and later releases the same
frame: the return value of `get_buffer`, and the link count of the picture the
frame got, after `get_buffer` and after `release_buffer`. -/
def getThenRelease (env : Env) (fuel : Nat) (s : vdec_thread_t) (p_ff_pic : AVFrame) :
    Option (Int × Int × Int) :=
  match ffmpeg_GetFrameBuf env fuel s p_ff_pic with
  | none => none
  | some (s1, frame, ret) =>
    match frame.opaque_pic with
    | none => none
    | some p_pic =>
      some (ret, s1.i_refcount p_pic.id, (ffmpeg_ReleaseFrameBuf s1 frame).1.i_refcount p_pic.id)

/-- A thread whose buffer of capacity 21 holds the five bytes 1, 2, 3, 4, 5. -/
def threadBuffered : vdec_thread_t :=
  { thread0 false [] with
    p_buffer := fun a => if 0 ≤ a ∧ a < 5 then (a + 1).toNat else 0
    i_buffer_size := 21 }

/-- The frame sizes handed to the codec, in order. -/
def decoded : List Event → List Int
  | [] => []
  | Event.decode i_frame_size _ _ _ :: ev => i_frame_size :: decoded ev
  | _ :: ev => decoded ev

/-- A thread whose late episode started at time 0 and that has counted one
late frame; three packets wait: one byte without a timestamp, two bytes
stamped 9 000 000, three bytes stamped 9 000 001. -/
def threadBacklog : vdec_thread_t :=
  { thread0 false
      [{ i_pts := 0, i_pes_size := 1, payload := [1] },
       { i_pts := 9000000, i_pes_size := 2, payload := [1, 2] },
       { i_pts := 9000001, i_pes_size := 3, payload := [1, 2, 3] }] with
    i_frame_late := 1 }

/-- Whether a trace holds fifo operations only: no codec call, no write of the
late counter, no display. -/
def fifoOnly : List Event → Bool
  | [] => true
  | Event.extractPES _ :: ev => fifoOnly ev
  | Event.deletePES _ :: ev => fifoOnly ev
  | _ :: _ => false

/-- A thread with hurry-up enabled that has counted `c` late frames in an
episode that started at time 0, with one packet waiting. -/
def threadLate (c : Int) : vdec_thread_t :=
  { thread0 true [packet1000] with i_frame_late := c }

/-- A trace in which a packet is pulled and the codec is called once on it
before any write of the late counter: fifo operations with at least one packet
deleted, then the codec call, then at most the update of the late counter,
which starts from the count `c`. -/
def decodedUndrawn (c : Int) (ev : List Event) : Prop :=
  ∃ pre n h u g post, ev = pre ++ Event.decode n h u g :: post ∧ fifoOnly pre = true ∧
    deleted pre ≠ [] ∧ (post = [] ∨ ∃ pts now new, post = [Event.lateUpdate pts now c new])

/-- A stream in which every frame is late and drawable: the codec uses all
the bytes it is given and returns a picture that is not empty, with a display
size and a picture attached; the video output always has a picture; the clock
never reads before `T0` and no two readings are more than five seconds
apart. -/
def lateStream (env : Env) (T0 : Int) : Prop :=
  (∀ n ctx buf sz,
    (env.avcodec_decode_video n ctx buf sz).i_used = sz ∧
    (env.avcodec_decode_video n ctx buf sz).b_gotpicture = true ∧
    (env.avcodec_decode_video n ctx buf sz).frame.linesize 0 ≠ 0 ∧
    (env.avcodec_decode_video n ctx buf sz).width ≠ 0 ∧
    (env.avcodec_decode_video n ctx buf sz).height ≠ 0 ∧
    (env.avcodec_decode_video n ctx buf sz).frame.opaque_pic.isSome = true) ∧
  (∀ n w h c, (env.vout_Request n w h c).isSome = true) ∧
  (∀ n, (env.vout_CreatePicture n).isSome = true) ∧
  (∀ n, T0 ≤ env.mdate n) ∧
  (∀ n m, env.mdate n - env.mdate m ≤ 5000000)

/-- The dates published by each of `k` consecutive calls of
`DecodeThread_Video`, one list per call. -/
def runCalls (env : Env) (fuel : Nat) : Nat → vdec_thread_t → Option (List (List Int))
  | 0, _ => some []
  | k + 1, s =>
    match DecodeThread_Video env fuel s with
    | none => none
    | some (s1, ev) => (runCalls env fuel k s1).map (fun l => published ev :: l)

/-- A frame like `frame0` with the picture 0 attached. -/
def frameWithPicture : AVFrame := { frame0 with opaque_pic := some (picture0 0) }

/-- A codec that uses all the bytes it is given and returns a picture with the
picture 0 attached every time, reporting a 16 by 16 planar 4:2:0 stream at
frame rate 25. -/
def codecAll : Nat → AVCodecContext → Mem → Int → DecodeResult :=
  fun _ _ _ n =>
    { i_used := n, b_gotpicture := true, frame := frameWithPicture,
      width := 16, height := 16, pix_fmt := PixFmt.YUV420P, frame_rate := 25 }

/-- A packet of three bytes stamped `t`. -/
def packetAt (t : Int) : pes_packet_t := { i_pts := t, i_pes_size := 3, payload := [1, 2, 3] }

/-- Six packets of three bytes stamped 1000, 1040, 1080, 1120, 1160, 1200. -/
def sixPackets : List pes_packet_t :=
  [packetAt 1000, packetAt 1040, packetAt 1080, packetAt 1120, packetAt 1160, packetAt 1200]

/-- A decoded frame whose planes have rows of six bytes, the byte at offset
`a` being `a` (up to 250). -/
def frameRamp : AVFrame :=
  { frame0 with data := fun _ => some (fun a => (a % 251).toNat), linesize := fun _ => 6 }

/-- A codec that uses exactly `step` bytes of every call, returns a picture
every time and reports a 16 by 16 planar 4:2:0 stream at frame rate `rate`. -/
def codecStep (step rate : Int) : Nat → AVCodecContext → Mem → Int → DecodeResult :=
  fun _ _ _ _ =>
    { i_used := step, b_gotpicture := true, frame := frame0,
      width := 16, height := 16, pix_fmt := PixFmt.YUV420P, frame_rate := rate }

/-- The codec call number `n` uses `used` bytes whatever it is given and
yields a frame that can be drawn: a picture that is not empty, with a display
size and an output picture attached, in a stream at frame rate `rate`. -/
def yieldsFrame (env : Env) (n : Nat) (used rate : Int) : Prop :=
  ∀ ctx buf sz,
    (env.avcodec_decode_video n ctx buf sz).i_used = used ∧
    (env.avcodec_decode_video n ctx buf sz).b_gotpicture = true ∧
    (env.avcodec_decode_video n ctx buf sz).frame.linesize 0 ≠ 0 ∧
    (env.avcodec_decode_video n ctx buf sz).width ≠ 0 ∧
    (env.avcodec_decode_video n ctx buf sz).height ≠ 0 ∧
    (env.avcodec_decode_video n ctx buf sz).frame.opaque_pic.isSome = true ∧
    (env.avcodec_decode_video n ctx buf sz).frame_rate = rate

/-- The codec calls and the displays of a trace, in order: `none` for a codec
call, `some t` for a picture displayed with the date `t`. -/
def codecAndDisplay : List Event → List (Option Int)
  | [] => []
  | Event.decode _ _ _ _ :: ev => none :: codecAndDisplay ev
  | Event.display _ i_pts :: ev => some i_pts :: codecAndDisplay ev
  | _ :: ev => codecAndDisplay ev

/-- A codec that uses one byte of every call and returns a picture with the
picture 0 attached every time, reporting a 16 by 16 planar 4:2:0 stream at
frame rate 25. -/
def codecByte : Nat → AVCodecContext → Mem → Int → DecodeResult :=
  fun _ _ _ _ =>
    { i_used := 1, b_gotpicture := true, frame := frameWithPicture,
      width := 16, height := 16, pix_fmt := PixFmt.YUV420P, frame_rate := 25 }

/-! ## InitThread_Video -/

/-- The integer options `InitThread_Video` reads with `config_GetInt`, one
constructor per option name (`ffmpeg_pp_q` is `"ffmpeg-pp-q"`). -/
inductive ConfigVar where
  | ffmpeg_workaround_bugs
  | ffmpeg_error_resilience
  | grayscale
  | ffmpeg_hurry_up
  | ffmpeg_dr
  | ffmpeg_pp_q
  | ffmpeg_pp_auto
  | ffmpeg_db_yv
  | ffmpeg_db_yh
  | ffmpeg_db_cv
  | ffmpeg_db_ch
  | ffmpeg_dr_y
  | ffmpeg_dr_c
  deriving DecidableEq

/-- The codec identifiers `InitThread_Video` tells apart. -/
inductive CodecID where
  | MSMPEG4V1
  | MSMPEG4V2
  | MSMPEG4V3
  | MPEG4
  | H263
  | H263I
  | other (n : Nat)
  deriving DecidableEq

/-- The bitmap header of the stream: the fields `InitThread_Video` reads and
the bytes that follow the header (`&p_format[1]`). -/
structure BITMAPINFOHEADER where
  biSize : Nat
  biWidth : Int
  biHeight : Int
  extra : Mem

/-- The fields that only `InitThread_Video` writes: of the codec context
(`workaround_bugs`, `error_resilience`, `flags`, the two buffer callbacks and
the user pointer, which are `true` once they are set to `ffmpeg_GetFrameBuf`,
`ffmpeg_ReleaseFrameBuf` and the thread, and the extra data) and of the thread
(`p_pp`, `true` when a post-processing module is loaded). -/
structure AVCodecSetup where
  workaround_bugs : Int
  error_resilience : Int
  flags : Nat
  get_buffer : Bool
  release_buffer : Bool
  opaque_vdec : Bool
  extradata_size : Int
  extradata : Option Mem
  p_pp : Bool

/-- What `InitThread_Video` reads or calls without defining it: the options,
the bitmap header of the fifo, the codec (`capabilities`, `i_codec_id`), the
constants of the ffmpeg and post-processing headers, and the functions of
libavcodec and of the module bank.  `avcodec_open` returns its return value
and the context as it leaves it. -/
structure InitEnv where
  config_GetInt : ConfigVar → Int
  ffmpeg_pp_name : Option (List Nat)
  p_bitmapinfoheader : Option BITMAPINFOHEADER
  sizeof_BITMAPINFOHEADER : Nat
  capabilities : Nat
  i_codec_id : CodecID
  CODEC_CAP_TRUNCATED : Nat
  CODEC_CAP_DR1 : Nat
  CODEC_FLAG_GRAY : Nat
  CODEC_FLAG_TRUNCATED : Nat
  CODEC_FLAG_EMU_EDGE : Nat
  PP_DEBLOCK_Y_V : Nat
  PP_DEBLOCK_Y_H : Nat
  PP_DEBLOCK_C_V : Nat
  PP_DEBLOCK_C_H : Nat
  PP_DERING_Y : Nat
  PP_DERING_C : Nat
  avcodec_alloc_frame : AVFrame
  avcodec_open : AVCodecContext → Int × AVCodecContext
  pp_get_mode_by_name_and_quality : List Nat → Int → Bool
  module_Need : Bool
  pf_getmode : Int → Int → Nat

/-- The value of an unsigned quantity converted to `int`. -/
def toInt32 (n : Nat) : Int :=
  if n % 2 ^ 32 < 2 ^ 31 then ((n % 2 ^ 32 : Nat) : Int) else ((n % 2 ^ 32 : Nat) : Int) - 2 ^ 32

/-- The context handed to `avcodec_open` (lines 202-212): the display size is
taken from the bitmap header when there is one. -/
def initContext (ienv : InitEnv) (s : vdec_thread_t) : AVCodecContext :=
  match ienv.p_bitmapinfoheader with
  | some p_format => { s.p_context with width := p_format.biWidth, height := p_format.biHeight }
  | none => s.p_context

/-- The options copied before the codec is opened (lines 215-239): the two
clamped levels, the gray flag, and the truncated flag from build 4662 on when
the codec has the capability. -/
def initOptions (env : Env) (ienv : InitEnv) (c : AVCodecSetup) : AVCodecSetup :=
  let c1 :=
    { c with
      workaround_bugs := max (min (ienv.config_GetInt ConfigVar.ffmpeg_workaround_bugs) 99) 0
      error_resilience := max (min (ienv.config_GetInt ConfigVar.ffmpeg_error_resilience) 99) (-1) }
  let c2 :=
    if ienv.config_GetInt ConfigVar.grayscale ≠ 0 then
      { c1 with flags := c1.flags ||| ienv.CODEC_FLAG_GRAY }
    else c1
  if env.LIBAVCODEC_BUILD ≥ 4662 ∧ ienv.capabilities &&& ienv.CODEC_CAP_TRUNCATED ≠ 0 then
    { c2 with flags := c2.flags ||| ienv.CODEC_FLAG_TRUNCATED }
  else c2

/-- The choice of direct rendering (lines 253-267): the option is set, the
codec has the capability `CODEC_CAP_DR1` and the pixel format of the context
has a chroma. -/
def initDirect (ienv : InitEnv) (c : AVCodecSetup) (s : vdec_thread_t) :
    vdec_thread_t × AVCodecSetup :=
  if ienv.config_GetInt ConfigVar.ffmpeg_dr ≠ 0 ∧
      ienv.capabilities &&& ienv.CODEC_CAP_DR1 ≠ 0 ∧
      ffmpeg_PixFmtToChroma s.p_context.pix_fmt ≠ 0 then
    ({ s with b_direct_rendering := true },
     { c with flags := c.flags ||| ienv.CODEC_FLAG_EMU_EDGE, get_buffer := true,
              release_buffer := true, opaque_vdec := true })
  else (s, c)

/-- The bytes after the bitmap header (lines 269-291): an MPEG4 codec decodes
them, any other codec gets a copy of them as extra data. -/
def initExtradata (env : Env) (ienv : InitEnv) (c : AVCodecSetup) (s : vdec_thread_t) :
    vdec_thread_t × AVCodecSetup :=
  match ienv.p_bitmapinfoheader with
  | none => (s, c)
  | some p_format =>
    if p_format.biSize > ienv.sizeof_BITMAPINFOHEADER then
      let i_size := toInt32 (p_format.biSize - ienv.sizeof_BITMAPINFOHEADER)
      if ienv.i_codec_id = CodecID.MPEG4 then
        (afterDecode s (env.avcodec_decode_video s.n_decode s.p_context p_format.extra i_size), c)
      else
        (s, { c with extradata_size := i_size,
                     extradata := some (memcpy (env.malloc i_size) 0 p_format.extra 0 i_size) })
    else (s, c)

/-- The name of the post-processing mode (lines 302-313): the option
`ffmpeg-pp-name`, or the string `default` when it is null or empty. -/
def ppName (ienv : InitEnv) : List Nat :=
  match ienv.ffmpeg_pp_name with
  | none => [100, 101, 102, 97, 117, 108, 116]
  | some [] => [100, 101, 102, 97, 117, 108, 116]
  | some psz_name => psz_name

/-- The overriding settings of the old post-processing (lines 335-347), as
they stand in the `uint32_t` field `i_pp_mode`. -/
def ppOverrides (ienv : InitEnv) : Nat :=
  let m0 := 0
  let m1 := if ienv.config_GetInt ConfigVar.ffmpeg_db_yv ≠ 0 then m0 ||| ienv.PP_DEBLOCK_Y_V else m0
  let m2 := if ienv.config_GetInt ConfigVar.ffmpeg_db_yh ≠ 0 then m1 ||| ienv.PP_DEBLOCK_Y_H else m1
  let m3 := if ienv.config_GetInt ConfigVar.ffmpeg_db_cv ≠ 0 then m2 ||| ienv.PP_DEBLOCK_C_V else m2
  let m4 := if ienv.config_GetInt ConfigVar.ffmpeg_db_ch ≠ 0 then m3 ||| ienv.PP_DEBLOCK_C_H else m3
  let m5 := if ienv.config_GetInt ConfigVar.ffmpeg_dr_y ≠ 0 then m4 ||| ienv.PP_DERING_Y else m4
  let m6 := if ienv.config_GetInt ConfigVar.ffmpeg_dr_c ≠ 0 then m5 ||| ienv.PP_DERING_C else m5
  m6 % 2 ^ 32

/-- The old post-processing (lines 334-395), in a build without
`LIBAVCODEC_PP`: when the quality is positive, the automatic level is set or a
setting overrides, a codec of the MPEG4 and H263 family gets the mode of the
module when the module loads, and no mode otherwise; any other codec gets no
mode. -/
def initOldPostproc (ienv : InitEnv) (c : AVCodecSetup) (s : vdec_thread_t) :
    vdec_thread_t × AVCodecSetup :=
  let m := ppOverrides ienv
  if ienv.config_GetInt ConfigVar.ffmpeg_pp_q > 0 ∨
      ienv.config_GetInt ConfigVar.ffmpeg_pp_auto ≠ 0 ∨ m ≠ 0 then
    if ienv.i_codec_id = CodecID.MSMPEG4V1 ∨ ienv.i_codec_id = CodecID.MSMPEG4V2 ∨
        ienv.i_codec_id = CodecID.MSMPEG4V3 ∨ ienv.i_codec_id = CodecID.MPEG4 ∨
        ienv.i_codec_id = CodecID.H263 ∨ ienv.i_codec_id = CodecID.H263I then
      if ienv.module_Need = false then
        ({ s with i_pp_mode := 0 }, { c with p_pp := false })
      else
        ({ s with
           i_pp_mode :=
             (((m ||| ienv.pf_getmode (ienv.config_GetInt ConfigVar.ffmpeg_pp_q)
                 (ienv.config_GetInt ConfigVar.ffmpeg_pp_auto)) % 2 ^ 32 : Nat) : Int) },
         { c with p_pp := true })
    else ({ s with i_pp_mode := 0 }, c)
  else ({ s with i_pp_mode := (m : Int) }, c)

/-- The load of the post-processing (lines 293-396).  With `LIBAVCODEC_PP`
the context and the mode are reset, and a mode is asked for only when the
quality is positive and direct rendering was not chosen. -/
def initPostproc (env : Env) (ienv : InitEnv) (c : AVCodecSetup) (s : vdec_thread_t) :
    vdec_thread_t × AVCodecSetup :=
  if env.LIBAVCODEC_PP = true then
    let s1 := { s with pp_context := false, pp_mode := false }
    if ienv.config_GetInt ConfigVar.ffmpeg_pp_q > 0 ∧ s1.b_direct_rendering = false then
      ({ s1 with
         pp_mode := ienv.pp_get_mode_by_name_and_quality (ppName ienv)
           (ienv.config_GetInt ConfigVar.ffmpeg_pp_q) }, c)
    else (s1, c)
  else initOldPostproc ienv c s

/-- `E_( InitThread_Video )` (lines 197-399).  The first component is `true`
for the return value `VLC_SUCCESS` and `false` for `VLC_EGENERIC`, returned
when the codec cannot be opened. -/
def InitThread_Video (env : Env) (ienv : InitEnv) (c : AVCodecSetup) (s : vdec_thread_t) :
    Bool × vdec_thread_t × AVCodecSetup :=
  let s1 :=
    { s with
      p_ff_pic := ienv.avcodec_alloc_frame
      p_context := initContext ienv s
      b_hurry_up := decide (ienv.config_GetInt ConfigVar.ffmpeg_hurry_up ≠ 0)
      b_direct_rendering := false }
  let c1 := initOptions env ienv c
  let o := ienv.avcodec_open s1.p_context
  let s2 := { s1 with p_context := o.2 }
  if o.1 < 0 then (false, s2, c1)
  else
    let d := initDirect ienv c1 s2
    let x := initExtradata env ienv d.2 d.1
    let r := initPostproc env ienv x.2 x.1
    (true, r.1, r.2)

/-- An initialisation with direct rendering asked for (`ffmpeg-dr` is 1) and
post-processing asked for (`ffmpeg-pp-q` is 6), every other option zero, no
bitmap header, an MPEG4 codec with the capability `CODEC_CAP_DR1`, a codec
that opens and leaves the context as it is, and post-processing that loads. -/
def initEnv0 : InitEnv :=
  { config_GetInt := fun v =>
      match v with
      | ConfigVar.ffmpeg_dr => 1
      | ConfigVar.ffmpeg_pp_q => 6
      | _ => 0
    ffmpeg_pp_name := none
    p_bitmapinfoheader := none
    sizeof_BITMAPINFOHEADER := 40
    capabilities := 2
    i_codec_id := CodecID.MPEG4
    CODEC_CAP_TRUNCATED := 8
    CODEC_CAP_DR1 := 2
    CODEC_FLAG_GRAY := 8192
    CODEC_FLAG_TRUNCATED := 65536
    CODEC_FLAG_EMU_EDGE := 16384
    PP_DEBLOCK_Y_V := 1
    PP_DEBLOCK_Y_H := 2
    PP_DEBLOCK_C_V := 4
    PP_DEBLOCK_C_H := 8
    PP_DERING_Y := 16
    PP_DERING_C := 32
    avcodec_alloc_frame := frame0
    avcodec_open := fun ctx => (0, ctx)
    pp_get_mode_by_name_and_quality := fun _ _ => true
    module_Need := true
    pf_getmode := fun q _ => q.toNat }

/-- The codec setup before initialisation: nothing set. -/
def setup0 : AVCodecSetup :=
  { workaround_bugs := 0, error_resilience := 0, flags := 0, get_buffer := false,
    release_buffer := false, opaque_vdec := false, extradata_size := 0, extradata := none,
    p_pp := false }

/-- The number of packets of `l` that carry a timestamp (a positive
`i_pts`).  The resynchronisation loop reads the clock once for each such
packet (line 456: `i_pts <= 0 || i_pts < mdate()`), so after the packets `l`
the clock has been read `stamped l` more times. -/
def stamped : List pes_packet_t → Nat
  | [] => 0
  | p_pes :: l => if 0 < p_pes.i_pts then stamped l + 1 else stamped l

/-- The frame size the packet loop gets for a packet (lines 496-523): the
announced size when it is not positive, and otherwise the number of payload
bytes copied, at most the announced size.  The loop asks for another packet
while this is not positive. -/
def pesSize (p_pes : pes_packet_t) : Int :=
  if p_pes.i_pes_size > 0 then ((p_pes.payload.take p_pes.i_pes_size.toNat).length : Int)
  else p_pes.i_pes_size

/-- The packets the forced resynchronisation of a call (lines 442-457) leaves
for the packet loop: the whole fifo when it does not fire, what its loop leaves
when it fires and stops on a packet, and `none` when it fires and the fifo
runs out. -/
def afterResync (env : Env) (s : vdec_thread_t) : Option (List pes_packet_t) :=
  if s.i_frame_late > 0 ∧ env.mdate s.n_mdate - s.i_frame_late_start > 5000000 then
    if (resyncLoop env s.fifo { s with n_mdate := s.n_mdate + 1 }).2.2 = true then
      some (resyncLoop env s.fifo { s with n_mdate := s.n_mdate + 1 }).1.fifo
    else none
  else some s.fifo

/-- A codec like `codecByte` that reports the frame rate `rate`. -/
def codecRate (rate : Int) : Nat → AVCodecContext → Mem → Int → DecodeResult :=
  fun _ _ _ _ =>
    { i_used := 1, b_gotpicture := true, frame := frameWithPicture,
      width := 16, height := 16, pix_fmt := PixFmt.YUV420P, frame_rate := rate }

/-! ## Frame lemmas -/

theorem waitPicture_frame (env : Env) (fuel : Nat) (s s1 : vdec_thread_t)
    (r : Option picture_t) (h : waitPicture env fuel s = some (s1, r)) :
    s1 = { s with n_pic := s1.n_pic } := by
  induction fuel generalizing s with
  | zero => simp [waitPicture] at h
  | succ n ih =>
    unfold waitPicture at h
    split at h
    · simp only [Option.some.injEq, Prod.mk.injEq] at h
      rw [← h.1]
    · split at h
      · simp only [Option.some.injEq, Prod.mk.injEq] at h
        rw [← h.1]
      · have := ih _ h
        rw [this]

theorem ffmpeg_CreateVout_frame (env : Env) (s : vdec_thread_t) :
    (ffmpeg_CreateVout env s).1 =
      { s with n_vout := (ffmpeg_CreateVout env s).1.n_vout,
               pp_context := (ffmpeg_CreateVout env s).1.pp_context } := by
  unfold ffmpeg_CreateVout
  simp only
  split
  · rfl
  · split <;> rfl

theorem ffmpeg_CopyPicture_frame (env : Env) (p_pic : picture_t) (f : AVFrame)
    (s : vdec_thread_t) :
    (ffmpeg_CopyPicture env p_pic f s).1 =
      { s with b_error := (ffmpeg_CopyPicture env p_pic f s).1.b_error } := by
  unfold ffmpeg_CopyPicture
  split
  · split <;> rfl
  · split <;> rfl

theorem getPicture_frame (env : Env) (fuel : Nat) (s s1 : vdec_thread_t)
    (r : Option picture_t) (h : getPicture env fuel s = some (s1, r)) :
    s1 = { s with n_vout := s1.n_vout, pp_context := s1.pp_context, p_vout := s1.p_vout,
                  b_error := s1.b_error, n_pic := s1.n_pic } := by
  unfold getPicture at h
  split at h
  · simp only at h
    split at h
    · simp only [Option.some.injEq, Prod.mk.injEq] at h
      rw [← h.1, ffmpeg_CreateVout_frame]
    · split at h
      · simp at h
      · rename_i heq
        simp only [Option.some.injEq, Prod.mk.injEq] at h
        have hw := waitPicture_frame _ _ _ _ _ heq
        rw [← h.1, hw, ffmpeg_CreateVout_frame]
      · rename_i heq
        simp only [Option.some.injEq, Prod.mk.injEq] at h
        have hw := waitPicture_frame _ _ _ _ _ heq
        rw [← h.1, ffmpeg_CopyPicture_frame, hw, ffmpeg_CreateVout_frame]
  · simp only [Option.some.injEq, Prod.mk.injEq] at h
    rw [← h.1]


theorem updateFrameLate_frame (env : Env) (s : vdec_thread_t) :
    (updateFrameLate env s).1 =
      { s with i_frame_late := (updateFrameLate env s).1.i_frame_late,
               i_frame_late_start := (updateFrameLate env s).1.i_frame_late_start,
               n_mdate := (updateFrameLate env s).1.n_mdate } := by
  unfold updateFrameLate
  simp only
  split
  · split <;> rfl
  · rfl

theorem updateFrameLate_event (env : Env) (s : vdec_thread_t) :
    (updateFrameLate env s).2 =
      Event.lateUpdate s.pts (env.mdate s.n_mdate) s.i_frame_late
        (updateFrameLate env s).1.i_frame_late := by
  unfold updateFrameLate
  simp only
  split
  · split <;> rfl
  · rfl

theorem framePts_now (env : Env) (pts k f now now2 : Int) (h : 0 < pts) :
    framePts env pts k f now = framePts env pts k f now2 := by
  unfold framePts
  simp [h]

theorem datePicture_snd (env : Env) (s : vdec_thread_t) :
    (datePicture env s).2 =
      framePts env (datePicture env s).1.pts (datePicture env s).1.i_frame_count
        (datePicture env s).1.p_context.frame_rate
        (env.mdate ((datePicture env s).1.n_mdate - 1)) := by
  unfold datePicture
  simp only
  split
  · rename_i h
    exact framePts_now env _ _ _ _ _ h
  · simp

theorem datePicture_frame (env : Env) (s : vdec_thread_t) :
    (datePicture env s).1 = { s with n_mdate := (datePicture env s).1.n_mdate } := by
  unfold datePicture
  simp only
  split <;> rfl

/-- A pass that displays a picture got one from the codec, was allowed to
draw, counted the picture, and dated it by `framePts` from the anchor, the
counter and the frame rate it ends with. -/
theorem decodeOnce_display (env : Env) (draw : Bool) (fuel : Nat) (s s1 : vdec_thread_t)
    (n : Int) (ev : List Event) (next : Option Int) (p_pic : picture_t) (t : Int)
    (h : decodeOnce env draw fuel s n = some (s1, ev, next))
    (hd : Event.display p_pic t ∈ ev) :
    (env.avcodec_decode_video s.n_decode s.p_context s.p_buffer n).b_gotpicture = true ∧
    draw = true ∧
    s1.pts = s.pts ∧ s1.i_frame_count = s.i_frame_count + 1 ∧
    s1.p_context.frame_rate =
      (env.avcodec_decode_video s.n_decode s.p_context s.p_buffer n).frame_rate ∧
    t = framePts env s1.pts s1.i_frame_count s1.p_context.frame_rate
          (env.mdate (s1.n_mdate - 1)) := by
  unfold decodeOnce at h
  simp only at h
  split at h
  · simp only [Option.some.injEq, Prod.mk.injEq] at h
    rw [← h.2.1] at hd
    simp at hd
  · split at h
    · simp only [Option.some.injEq, Prod.mk.injEq] at h
      rw [← h.2.1] at hd
      simp [updateFrameLate_event] at hd
    · rename_i hc
      simp only [not_or, Bool.not_eq_false] at hc
      obtain ⟨hg, -, hdraw⟩ := hc
      split at h
      · simp at h
      · simp only [Option.some.injEq, Prod.mk.injEq] at h
        rw [← h.2.1] at hd
        simp [updateFrameLate_event] at hd
      · rename_i s3 pic hgp
        simp only [Option.some.injEq, Prod.mk.injEq] at h
        obtain ⟨h1, h2, -⟩ := h
        rw [← h2] at hd
        simp only [List.mem_cons, List.mem_singleton, Event.display.injEq, List.mem_nil_iff,
          or_false, false_or, updateFrameLate_event, reduceCtorEq] at hd
        have hf := getPicture_frame _ _ _ _ _ hgp
        refine ⟨hg, hdraw, ?_, ?_, ?_, ?_⟩
        · rw [← h1, datePicture_frame, hf, updateFrameLate_frame]
          simp only [hg, countPicture, consume, afterDecode, if_true]
          split <;> rfl
        · rw [← h1, datePicture_frame, hf, updateFrameLate_frame]
          simp only [hg, countPicture, consume, afterDecode, if_true]
          split <;> rfl
        · rw [← h1, datePicture_frame, hf, updateFrameLate_frame]
          simp only [hg, countPicture, consume, afterDecode, if_true]
          split <;> rfl
        · rw [hd.2, ← h1]
          exact datePicture_snd env s3


/-! ## Arithmetic of the date -/

theorem toUInt64_of_nat (n : Nat) (h : n < 2 ^ 64) : toUInt64 (n : Int) = n := by
  unfold toUInt64
  have h2 : ((n : Int) % (2 ^ 64 : Int)) = (n : Int) := by
    apply Int.emod_eq_of_lt
    · exact Int.natCast_nonneg n
    · exact_mod_cast h
  rw [h2]
  simp

theorem toInt64_of_small (n : Nat) (h : n < 2 ^ 63) : toInt64 n = (n : Int) := by
  unfold toInt64
  have h2 : n % 2 ^ 64 = n := Nat.mod_eq_of_lt (by omega)
  rw [h2, if_pos h]

/-- Within the ranges of `int` and `mtime_t` the date with an anchor is the
anchor plus one million times the counter minus one, divided by the frame rate
base and then by the frame rate, both divisions rounding down. -/
theorem framePts_anchor (env : Env) (T k F now : Int)
    (hT : 0 < T) (hF : 0 < F) (hF2 : F < 2 ^ 31) (hk : 1 ≤ k) (hk2 : k < 2 ^ 31)
    (hsum : T + 1000000 * (k - 1) / (frameRateBase env : Int) / F < 2 ^ 63) :
    framePts env T k F now = T + 1000000 * (k - 1) / (frameRateBase env : Int) / F := by
  obtain ⟨T', rfl⟩ := Int.eq_ofNat_of_zero_le (le_of_lt hT)
  obtain ⟨F', rfl⟩ := Int.eq_ofNat_of_zero_le (le_of_lt hF)
  obtain ⟨j, hj⟩ := Int.eq_ofNat_of_zero_le (show (0 : Int) ≤ k - 1 by omega)
  rw [hj] at hsum ⊢
  have hj2 : j < 2 ^ 31 := by
    have : (j : Int) < 2 ^ 31 := by omega
    exact_mod_cast this
  have hF3 : F' < 2 ^ 31 := by exact_mod_cast hF2
  have e : ((1000000 * j / frameRateBase env / F' : Nat) : Int) =
      1000000 * (j : Int) / (frameRateBase env : Int) / (F' : Int) := by
    push_cast
    rfl
  have hsum2 : T' + 1000000 * j / frameRateBase env / F' < 2 ^ 63 := by
    have h3 : ((T' + 1000000 * j / frameRateBase env / F' : Nat) : Int) < 2 ^ 63 := by
      rw [Nat.cast_add, e]
      exact hsum
    exact_mod_cast h3
  have hT3 : T' < 2 ^ 63 := lt_of_le_of_lt (Nat.le_add_right _ _) hsum2
  have hT2 : T' < 2 ^ 64 := lt_trans hT3 (by norm_num)
  unfold framePts
  simp only [gt_iff_lt, hT, hF, if_true]
  rw [hj, toUInt64_of_nat T' hT2, toUInt64_of_nat j (by omega), toUInt64_of_nat F' (by omega)]
  have hm : (1000000 * j) % 2 ^ 64 = 1000000 * j := Nat.mod_eq_of_lt (by omega)
  rw [hm, toInt64_of_small _ hsum2, Nat.cast_add, e]


/-! ## C1: the date of a published frame -/

theorem mem_published (ev : List Event) (t : Int) :
    t ∈ published ev ↔ ∃ p_pic, Event.display p_pic t ∈ ev := by
  induction ev with
  | nil => simp [published]
  | cons e ev ih =>
    cases e with
    | display q u =>
      simp only [published, List.mem_cons, ih, Event.display.injEq]
      constructor
      · rintro (h | ⟨q2, h⟩)
        · exact ⟨q, Or.inl ⟨rfl, h⟩⟩
        · exact ⟨q2, Or.inr h⟩
      · rintro ⟨q2, h | h⟩
        · exact Or.inl h.2
        · exact Or.inr ⟨q2, h⟩
    | _ => simp [published, ih]

/-- What lines 643-651 compute: in every pass of `DecodeThread_Video` that displays
a picture while an anchor `T > 0` is set and the frame rate `F` is positive, the
frame counter was incremented to `k` for that picture and the picture is dated
`T + ((k - 1) * 1 000 000 / base) / F`, where `base` is the frame rate base of
the build and both divisions round down, provided the date fits `mtime_t`. -/
theorem frame_date (env : Env) (draw : Bool) (fuel : Nat) (s : vdec_thread_t) (n : Int)
    (r : vdec_thread_t × List Event × Option Int) (t : Int)
    (h : decodeOnce env draw fuel s n = some r)
    (hd : t ∈ published r.2.1)
    (hT : 0 < s.pts)
    (hF : 0 < r.1.p_context.frame_rate) (hF2 : r.1.p_context.frame_rate < 2 ^ 31)
    (hk : 0 ≤ s.i_frame_count) (hk2 : s.i_frame_count + 1 < 2 ^ 31)
    (hsum : s.pts + 1000000 * s.i_frame_count / (frameRateBase env : Int) /
      r.1.p_context.frame_rate < 2 ^ 63) :
    r.1.pts = s.pts ∧ r.1.i_frame_count = s.i_frame_count + 1 ∧
    t = r.1.pts + 1000000 * (r.1.i_frame_count - 1) / (frameRateBase env : Int) /
      r.1.p_context.frame_rate := by
  obtain ⟨s1, ev, next⟩ := r
  obtain ⟨p_pic, hd⟩ := (mem_published _ _).1 hd
  obtain ⟨-, -, hp, hc, -, ht⟩ := decodeOnce_display env draw fuel s s1 n ev next p_pic t h hd
  simp only at hF hF2 hsum ⊢
  refine ⟨hp, hc, ?_⟩
  rw [ht, hp, hc]
  have e : s.i_frame_count + 1 - 1 = s.i_frame_count := by ring
  apply framePts_anchor env s.pts (s.i_frame_count + 1) _ _ hT hF hF2 (by omega) hk2
  rw [e]
  exact hsum

/-- A pass `frame_date` applies to: anchor 1000, third frame since the
anchor, frame rate 3 and frame rate base 1 give the date 667666. -/
theorem frame_date_witness :
    ∃ r, decodeOnce (env0 1 (fun _ => 0) (codec0 1 3)) true 1 threadAnchored 1 = some r ∧
      667666 ∈ published r.2.1 ∧
      (r.1.pts = threadAnchored.pts ∧ r.1.i_frame_count = threadAnchored.i_frame_count + 1 ∧
        (667666 : Int) = r.1.pts + 1000000 * (r.1.i_frame_count - 1) /
          (frameRateBase (env0 1 (fun _ => 0) (codec0 1 3)) : Int) / r.1.p_context.frame_rate) :=
  ⟨_, rfl, by decide,
    frame_date (env0 1 (fun _ => 0) (codec0 1 3)) true 1 threadAnchored 1 _ 667666
      rfl (by decide) (by decide) (by decide) (by decide) (by decide) (by decide) (by decide)⟩

/-- Two runs on a packet stamped 1000 that holds three frames at frame rate 3:
the frames are published with the dates 1000, 334333 and 667666 when the frame
rate base is 1, and with 1000, 1000 and 1000 when it is 1001000, whereas rounding
`(k - 1) * 1 000 000 / 3` to the nearest integer gives 1000, 334333 and
667667. -/
theorem frame_date_counterexample :
    (DecodeThread_Video (env0 1 (fun _ => 0) (codec0 1 3)) 3 (thread0 false [packet1000])).map
        (fun r => published r.2) = some [1000, 334333, 667666] ∧
    (DecodeThread_Video (env0 1001000 (fun _ => 0) (codec0 1 3)) 3
        (thread0 false [packet1000])).map (fun r => published r.2) = some [1000, 1000, 1000] ∧
    [specPts 1000 1 3, specPts 1000 2 3, specPts 1000 3 3] = [1000, 334333, 667667] := by
  decide


/-! ## C2: the writes of the late counter -/

theorem lateReplay_append (b : Bool) (ev1 ev2 : List Event) (c : Int) :
    lateReplay b (ev1 ++ ev2) c = (lateReplay b ev1 c).bind (lateReplay b ev2) := by
  induction ev1 generalizing c with
  | nil => simp [lateReplay]
  | cons e ev1 ih =>
    rw [List.cons_append]
    cases e with
    | lateDrop o n =>
      simp only [lateReplay]
      split
      · exact ih _
      · rfl
    | lateUpdate p t o n =>
      simp only [lateReplay]
      split
      · exact ih _
      · rfl
    | _ =>
      simp only [lateReplay]
      exact ih _

theorem appendPES_frame (env : Env) (s : vdec_thread_t) (p_pes : pes_packet_t) :
    (appendPES env s p_pes).1 =
      { s with p_buffer := (appendPES env s p_pes).1.p_buffer,
               i_buffer_size := (appendPES env s p_pes).1.i_buffer_size } := by
  unfold appendPES
  simp only
  split <;> rfl

theorem readPES_frame (env : Env) (s : vdec_thread_t) (p_pes : pes_packet_t) :
    (readPES env s p_pes).1 =
      { s with pts := (readPES env s p_pes).1.pts,
               i_frame_count := (readPES env s p_pes).1.i_frame_count,
               p_buffer := (readPES env s p_pes).1.p_buffer,
               i_buffer_size := (readPES env s p_pes).1.i_buffer_size } := by
  unfold readPES
  simp only
  split
  · rw [appendPES_frame]
    split <;> rfl
  · split <;> rfl

theorem fetchLoop_frame_ex (env : Env) (l : List pes_packet_t) (s : vdec_thread_t) :
    ∃ a b c d e f, (fetchLoop env l s).1 =
      { s with pts := a, i_frame_count := b, p_buffer := c, i_buffer_size := d, fifo := e,
               b_error := f } := by
  induction l generalizing s with
  | nil => exact ⟨_, _, _, _, _, _, rfl⟩
  | cons p rest ih =>
    unfold fetchLoop
    split
    · obtain ⟨a, b, c, d, e, f, h⟩ := ih (readPES env s p).1
      simp only
      rw [h, readPES_frame]
      exact ⟨_, _, _, _, _, _, rfl⟩
    · simp only
      rw [readPES_frame]
      exact ⟨_, _, _, _, _, _, rfl⟩

theorem fetchLoop_frame (env : Env) (l : List pes_packet_t) (s : vdec_thread_t) :
    (fetchLoop env l s).1 =
      { s with pts := (fetchLoop env l s).1.pts,
               i_frame_count := (fetchLoop env l s).1.i_frame_count,
               p_buffer := (fetchLoop env l s).1.p_buffer,
               i_buffer_size := (fetchLoop env l s).1.i_buffer_size,
               fifo := (fetchLoop env l s).1.fifo,
               b_error := (fetchLoop env l s).1.b_error } := by
  obtain ⟨a, b, c, d, e, f, h⟩ := fetchLoop_frame_ex env l s
  generalize (fetchLoop env l s).1 = x at h
  subst h
  rfl

theorem fetchLoop_lateReplay (env : Env) (b : Bool) (l : List pes_packet_t) (s : vdec_thread_t)
    (c : Int) : lateReplay b (fetchLoop env l s).2.1 c = some c := by
  induction l generalizing s with
  | nil => rfl
  | cons p rest ih =>
    unfold fetchLoop
    split
    · simp only [lateReplay, ih]
    · simp only [lateReplay]

theorem resyncLoop_frame_ex (env : Env) (l : List pes_packet_t) (s : vdec_thread_t) :
    ∃ a b c, (resyncLoop env l s).1 = { s with n_mdate := a, fifo := b, b_error := c } := by
  induction l generalizing s with
  | nil => exact ⟨_, _, _, rfl⟩
  | cons p rest ih =>
    unfold resyncLoop
    simp only
    split
    · exact ih s
    · split
      · obtain ⟨a, b, c, h⟩ := ih { s with n_mdate := s.n_mdate + 1 }
        rw [h]
        exact ⟨_, _, _, rfl⟩
      · exact ⟨_, _, _, rfl⟩

theorem resyncLoop_frame (env : Env) (l : List pes_packet_t) (s : vdec_thread_t) :
    (resyncLoop env l s).1 =
      { s with n_mdate := (resyncLoop env l s).1.n_mdate,
               fifo := (resyncLoop env l s).1.fifo,
               b_error := (resyncLoop env l s).1.b_error } := by
  obtain ⟨a, b, c, h⟩ := resyncLoop_frame_ex env l s
  generalize (resyncLoop env l s).1 = x at h
  subst h
  rfl

theorem resyncLoop_lateReplay (env : Env) (b : Bool) (l : List pes_packet_t) (s : vdec_thread_t)
    (c : Int) : lateReplay b (resyncLoop env l s).2.1 c = some c := by
  induction l generalizing s with
  | nil => rfl
  | cons p rest ih =>
    unfold resyncLoop
    simp only
    split
    · simp only [lateReplay, ih]
    · split
      · simp only [lateReplay, ih]
      · simp only [lateReplay]


theorem consumed_frame (s : vdec_thread_t) (r : DecodeResult) (n : Int) :
    countPicture (consume (afterDecode s r) n r.i_used) r.b_gotpicture =
      { s with
        n_decode := s.n_decode + 1
        p_ff_pic := r.frame
        p_context := (afterDecode s r).p_context
        p_buffer := (countPicture (consume (afterDecode s r) n r.i_used) r.b_gotpicture).p_buffer
        i_buffer := (countPicture (consume (afterDecode s r) n r.i_used) r.b_gotpicture).i_buffer
        i_frame_count :=
          (countPicture (consume (afterDecode s r) n r.i_used) r.b_gotpicture).i_frame_count } := by
  unfold countPicture consume afterDecode
  split <;> split <;> rfl

theorem updateFrameLate_rule (env : Env) (s : vdec_thread_t) :
    (s.pts ≤ env.mdate s.n_mdate ∧
      (updateFrameLate env s).1.i_frame_late = s.i_frame_late + 1) ∨
    (env.mdate s.n_mdate < s.pts ∧ (updateFrameLate env s).1.i_frame_late = 0) := by
  unfold updateFrameLate
  simp only
  split
  · rename_i h
    left
    refine ⟨h, ?_⟩
    split <;> rfl
  · rename_i h
    right
    exact ⟨lt_of_not_le h, rfl⟩

/-- The trace of a pass starts with the codec call; when the call did not
fail, the update of the late counter follows, and then at most a display. -/
theorem decodeOnce_events (env : Env) (draw : Bool) (fuel : Nat) (s s1 : vdec_thread_t)
    (n : Int) (ev : List Event) (next : Option Int)
    (h : decodeOnce env draw fuel s n = some (s1, ev, next)) :
    let r := env.avcodec_decode_video s.n_decode s.p_context s.p_buffer n
    let d := Event.decode n s.p_context.hurry_up r.i_used r.b_gotpicture
    (r.i_used < 0 ∧ ev = [d] ∧ next = none ∧ s1.i_frame_late = s.i_frame_late ∧
      s1.i_frame_error = s.i_frame_error + 1 ∧ s1.i_buffer = 0) ∨
    (0 ≤ r.i_used ∧ s1.i_frame_error = s.i_frame_error ∧
      ((s.pts ≤ env.mdate s.n_mdate ∧ s1.i_frame_late = s.i_frame_late + 1) ∨
       (env.mdate s.n_mdate < s.pts ∧ s1.i_frame_late = 0)) ∧
      ((ev = [d, Event.lateUpdate s.pts (env.mdate s.n_mdate) s.i_frame_late s1.i_frame_late] ∧
          next = none) ∨
       (∃ p_pic t, r.b_gotpicture = true ∧ draw = true ∧
          ev = [d, Event.lateUpdate s.pts (env.mdate s.n_mdate) s.i_frame_late s1.i_frame_late,
                Event.display p_pic t] ∧
          next = if n - r.i_used > 0 then some (n - r.i_used) else none))) := by
  intro r d
  unfold decodeOnce at h
  simp only at h
  have hrule := updateFrameLate_rule env
    (countPicture (consume (afterDecode s r) n r.i_used) r.b_gotpicture)
  have hev := updateFrameLate_event env
    (countPicture (consume (afterDecode s r) n r.i_used) r.b_gotpicture)
  have hfr := updateFrameLate_frame env
    (countPicture (consume (afterDecode s r) n r.i_used) r.b_gotpicture)
  rw [consumed_frame] at hrule hev hfr
  simp only at hrule hev
  split at h
  · rename_i hneg
    simp only [Option.some.injEq, Prod.mk.injEq] at h
    left
    obtain ⟨h1, h2, h3⟩ := h
    refine ⟨hneg, h2.symm, h3.symm, ?_, ?_, ?_⟩ <;> rw [← h1] <;> rfl
  · rename_i hpos
    right
    split at h
    · simp only [Option.some.injEq, Prod.mk.injEq] at h
      obtain ⟨h1, h2, h3⟩ := h
      rw [consumed_frame] at h1 h2
      rw [h1] at hrule hev
      refine ⟨le_of_not_lt hpos, ?_, hrule, Or.inl ⟨?_, h3.symm⟩⟩
      · rw [← h1, hfr]
      · rw [← h2, hev]
    · rename_i hc
      simp only [not_or, Bool.not_eq_false] at hc
      split at h
      · simp at h
      · rename_i s3 hgp
        simp only [Option.some.injEq, Prod.mk.injEq] at h
        obtain ⟨h1, h2, h3⟩ := h
        have hf := getPicture_frame _ _ _ _ _ hgp
        rw [consumed_frame] at hf h2
        have e1 : s1.i_frame_late = (updateFrameLate env
            { s with
              n_decode := s.n_decode + 1
              p_ff_pic := r.frame
              p_context := (afterDecode s r).p_context
              p_buffer :=
                (countPicture (consume (afterDecode s r) n r.i_used) r.b_gotpicture).p_buffer
              i_buffer :=
                (countPicture (consume (afterDecode s r) n r.i_used) r.b_gotpicture).i_buffer
              i_frame_count :=
                (countPicture (consume (afterDecode s r) n r.i_used)
                  r.b_gotpicture).i_frame_count }).1.i_frame_late := by
          rw [← h1, hf]
        rw [← e1] at hrule hev
        refine ⟨le_of_not_lt hpos, ?_, hrule, Or.inl ⟨?_, h3.symm⟩⟩
        · rw [← h1, hf, hfr]
        · rw [← h2, hev]
      · rename_i s3 pic hgp
        simp only [Option.some.injEq, Prod.mk.injEq] at h
        obtain ⟨h1, h2, h3⟩ := h
        have hf := getPicture_frame _ _ _ _ _ hgp
        rw [consumed_frame] at hf h2
        have e1 : s1.i_frame_late = (updateFrameLate env
            { s with
              n_decode := s.n_decode + 1
              p_ff_pic := r.frame
              p_context := (afterDecode s r).p_context
              p_buffer :=
                (countPicture (consume (afterDecode s r) n r.i_used) r.b_gotpicture).p_buffer
              i_buffer :=
                (countPicture (consume (afterDecode s r) n r.i_used) r.b_gotpicture).i_buffer
              i_frame_count :=
                (countPicture (consume (afterDecode s r) n r.i_used)
                  r.b_gotpicture).i_frame_count }).1.i_frame_late := by
          rw [← h1, datePicture_frame, hf]
        rw [← e1] at hrule hev
        refine ⟨le_of_not_lt hpos, ?_, hrule,
          Or.inr ⟨pic, (datePicture env s3).2, hc.1, hc.2.2, ?_, h3.symm⟩⟩
        · rw [← h1, datePicture_frame, hf, hfr]
        · rw [← h2, hev]


theorem decodeOnce_lateReplay (env : Env) (b draw : Bool) (fuel : Nat) (s s1 : vdec_thread_t)
    (n : Int) (ev : List Event) (next : Option Int)
    (h : decodeOnce env draw fuel s n = some (s1, ev, next)) :
    lateReplay b ev s.i_frame_late = some s1.i_frame_late := by
  have he := decodeOnce_events env draw fuel s s1 n ev next h
  simp only at he
  rcases he with ⟨-, hev, -, hl, -, -⟩ | ⟨-, -, hrule, hev⟩
  · rw [hev, hl]
    rfl
  · rcases hev with ⟨hev, -⟩ | ⟨p_pic, t, -, -, hev, -⟩
    · rw [hev]
      simp only [lateReplay, true_and, if_pos hrule]
    · rw [hev]
      simp only [lateReplay, true_and, if_pos hrule]

theorem usenextdata_lateReplay (env : Env) (b draw : Bool) (fuel : Nat) (s s1 : vdec_thread_t)
    (n : Int) (ev : List Event) (h : usenextdata env draw fuel s n = some (s1, ev)) :
    lateReplay b ev s.i_frame_late = some s1.i_frame_late := by
  induction fuel generalizing s s1 n ev with
  | zero => simp [usenextdata] at h
  | succ k ih =>
    unfold usenextdata at h
    split at h
    · simp at h
    · rename_i s2 ev2 hd
      simp only [Option.some.injEq, Prod.mk.injEq] at h
      rw [← h.1, ← h.2]
      exact decodeOnce_lateReplay env b draw _ s s2 n ev2 none hd
    · rename_i s2 ev2 left hd
      split at h
      · simp at h
      · rename_i s3 ev3 hu
        simp only [Option.some.injEq, Prod.mk.injEq] at h
        rw [← h.1, ← h.2, lateReplay_append,
          decodeOnce_lateReplay env b draw _ s s2 n ev2 (some left) hd]
        exact ih s2 s3 left ev3 hu

theorem decodePacket_lateReplay (env : Env) (b draw : Bool) (fuel : Nat) (s s1 : vdec_thread_t)
    (ev : List Event) (c : Int) (hl : s.i_frame_late = c)
    (h : decodePacket env draw fuel s = some (s1, ev)) :
    lateReplay b ev c = some s1.i_frame_late := by
  unfold decodePacket at h
  simp only at h
  split at h
  · rename_i s2 ev2 hf
    simp only [Option.some.injEq, Prod.mk.injEq] at h
    have e1 := congrArg Prod.fst hf
    have e2 := congrArg (fun x => x.2.1) hf
    simp only at e1 e2
    rw [← h.2, ← e2, fetchLoop_lateReplay, ← h.1, ← e1, fetchLoop_frame, ← hl]
    split <;> rfl
  · rename_i s2 ev2 n hf
    split at h
    · simp at h
    · rename_i s3 ev3 hu
      simp only [Option.some.injEq, Prod.mk.injEq] at h
      have e1 := congrArg Prod.fst hf
      have e2 := congrArg (fun x => x.2.1) hf
      simp only at e1 e2
      have hu2 := usenextdata_lateReplay env b draw fuel s2 s3 _ ev3 hu
      rw [← h.2, lateReplay_append, ← e2, fetchLoop_lateReplay, ← h.1]
      simp only [Option.some_bind]
      rw [← hu2, ← e1, fetchLoop_frame, ← hl]
      split <;> rfl

theorem resyncThenDecode_lateReplay (env : Env) (b draw : Bool) (fuel : Nat)
    (s s1 : vdec_thread_t) (ev : List Event) (c : Int) (hl : s.i_frame_late = c)
    (h : resyncThenDecode env draw fuel s = some (s1, ev)) :
    lateReplay b ev c = some s1.i_frame_late := by
  unfold resyncThenDecode at h
  split at h
  · simp only at h
    split at h
    · split at h
      · rename_i s2 ev2 hr
        simp only [Option.some.injEq, Prod.mk.injEq] at h
        have e1 := congrArg Prod.fst hr
        have e2 := congrArg (fun x => x.2.1) hr
        simp only at e1 e2
        rw [← h.2, ← e2, resyncLoop_lateReplay, ← h.1, ← e1, resyncLoop_frame, ← hl]
      · rename_i s2 ev2 hr
        split at h
        · simp at h
        · rename_i s3 ev3 hd
          simp only [Option.some.injEq, Prod.mk.injEq] at h
          have e1 := congrArg Prod.fst hr
          have e2 := congrArg (fun x => x.2.1) hr
          simp only at e1 e2
          have hl2 : s2.i_frame_late = c := by rw [← e1, resyncLoop_frame, ← hl]
          rw [← h.2, lateReplay_append, ← e2, resyncLoop_lateReplay, ← h.1]
          simp only [Option.some_bind]
          exact decodePacket_lateReplay env b draw fuel s2 s3 ev3 c hl2 hd
    · exact decodePacket_lateReplay env b draw fuel _ s1 ev c (by exact hl) h
  · exact decodePacket_lateReplay env b draw fuel _ s1 ev c hl h

/-- C2 (as amended): in every call of `DecodeThread_Video`, from every state,
the writes of the consecutive-late count form a chain from the count before
the call to the count after it in which every write is an increment by one
(anchor not later than the clock), a reset to exactly zero (only when the
anchor is later than the clock), or, with hurry-up enabled and a count of
eight or more at the start of the call, a decrement by exactly one. -/
theorem late_count_writes (env : Env) (fuel : Nat) (s : vdec_thread_t)
    (r : vdec_thread_t × List Event) (h : DecodeThread_Video env fuel s = some r) :
    lateReplay s.b_hurry_up r.2 s.i_frame_late = some r.1.i_frame_late := by
  obtain ⟨s1, ev⟩ := r
  unfold DecodeThread_Video at h
  split at h
  · rename_i hh
    split at h
    · refine resyncThenDecode_lateReplay env _ false fuel _ s1 ev _ ?_ h
      rfl
    · rename_i h8
      simp only [Option.some.injEq, Prod.mk.injEq] at h
      rw [← h.1, ← h.2]
      have hc : s.b_hurry_up = true ∧ 8 ≤ s.i_frame_late := ⟨hh.1, le_of_not_lt h8⟩
      simp only [lateReplay, true_and, if_pos hc]
  · refine resyncThenDecode_lateReplay env _ true fuel _ s1 ev _ ?_ h
    rfl


/-- C2, a call the theorem applies to: three frames decoded from one packet
stamped 1000 while the clock reads 5000 are all late, and the count goes from
zero to three by three increments. -/
theorem late_count_writes_witness :
    ∃ r, DecodeThread_Video (env0 1 (fun _ => 5000) (codec0 1 25)) 3
        (thread0 false [packet1000]) = some r ∧
      lateReplay (thread0 false [packet1000]).b_hurry_up r.2
        (thread0 false [packet1000]).i_frame_late = some r.1.i_frame_late ∧
      r.1.i_frame_late = 3 :=
  ⟨_, rfl,
    late_count_writes (env0 1 (fun _ => 5000) (codec0 1 25)) 3 (thread0 false [packet1000]) _ rfl,
    by decide⟩

/-- C2 as stated fails: with hurry-up enabled and a count of eight, a call
publishes nothing, handles no frame that is on time, and leaves the count at
seven, a decrease to a value that is not zero. -/
theorem late_count_counterexample :
    (threadLate 8).b_hurry_up = true ∧ (threadLate 8).i_frame_late = 8 ∧
    (DecodeThread_Video (env0 1 (fun _ => 5000) (codec0 1 25)) 1 (threadLate 8)).map
      (fun r => (r.1.i_frame_late, published r.2)) = some (7, []) := by
  decide


/-! ## C3: the link count of a picture -/

/-- Whatever the frame, releasing it lowers by one the link count of the
picture it points to. -/
theorem release_unlinks (s : vdec_thread_t) (p_ff_pic : AVFrame) (p_pic : picture_t)
    (h : p_ff_pic.opaque_pic = some p_pic) :
    (ffmpeg_ReleaseFrameBuf s p_ff_pic).1.i_refcount p_pic.id = s.i_refcount p_pic.id - 1 := by
  unfold ffmpeg_ReleaseFrameBuf
  simp [h, vout_UnlinkPicture]

/-- C3 (the code breaks it): a frame that is not a reference frame gets the
picture 0 from `ffmpeg_GetFrameBuf` without a link, so the count stays at
zero, and `ffmpeg_ReleaseFrameBuf` unlinks it all the same, which takes the
count to -1; for a reference frame the same two calls give 1 and then 0. -/
theorem refcount_negative :
    frame0.reference = 0 ∧
    getThenRelease (env0 1 (fun _ => 0) (codec0 1 25)) 1 (thread0 false []) frame0 =
      some (0, 0, -1) ∧
    getThenRelease (env0 1 (fun _ => 0) (codec0 1 25)) 1 (thread0 false [])
      { frame0 with reference := 1 } = some (0, 1, 0) := by
  decide


/-! ## C4 and C5: the accumulation buffer -/

theorem bytes_length (m : Mem) (n : Int) : (bytes m n).length = n.toNat := by
  simp [bytes]

theorem bytes_congr (m m2 : Mem) (n : Int)
    (h : ∀ i : Nat, (i : Int) < n → m i = m2 i) : bytes m n = bytes m2 n := by
  unfold bytes
  apply List.map_congr_left
  intro i hi
  apply h
  rw [List.mem_range] at hi
  omega

theorem bytes_add (m : Mem) (a b : Nat) :
    bytes m ((a : Int) + b) = bytes m a ++ bytes (fun i => m (i + a)) b := by
  unfold bytes
  have e : ((a : Int) + b).toNat = a + b := by omega
  rw [e, List.range_add, List.map_append, List.map_map]
  simp only [Int.toNat_ofNat]
  congr 1
  apply List.map_congr_left
  intro i _
  simp only [Function.comp_apply]
  congr 1
  push_cast
  ring

theorem bytes_drop (m : Mem) (L u : Nat) (h : u ≤ L) :
    (bytes m L).drop u = bytes (fun i => m (i + u)) ((L - u : Nat) : Int) := by
  have e : (L : Int) = (u : Int) + ((L - u : Nat) : Int) := by omega
  rw [e, bytes_add]
  have hl : (bytes m (u : Int)).length = u := by simp [bytes_length]
  rw [List.drop_append_eq_append_drop, hl]
  simp [List.drop_of_length_le (le_of_eq hl)]

theorem bytes_ofList (l : List Nat) (m : Mem)
    (h : ∀ i : Nat, i < l.length → m i = l.getD i 0) : bytes m (l.length : Int) = l := by
  apply List.ext_getElem
  · simp [bytes_length]
  · intro i h1 h2
    simp only [bytes, List.getElem_map, List.getElem_range]
    rw [h i h2]
    simp [List.getD_eq_getElem?_getD, List.getElem?_eq_getElem h2]


theorem appendPES_size (env : Env) (s : vdec_thread_t) (p_pes : pes_packet_t) :
    (appendPES env s p_pes).2 = ((p_pes.payload.take p_pes.i_pes_size.toNat).length : Int) := by
  simp [appendPES, GetPESData]

theorem appendPES_i_buffer (env : Env) (s : vdec_thread_t) (p_pes : pes_packet_t) :
    (appendPES env s p_pes).1.i_buffer = s.i_buffer := by
  rw [appendPES_frame]

theorem appendPES_capacity (env : Env) (s : vdec_thread_t) (p_pes : pes_packet_t) :
    p_pes.i_pes_size + 16 + s.i_buffer ≤ (appendPES env s p_pes).1.i_buffer_size := by
  unfold appendPES
  simp only
  split
  · exact le_refl _
  · rename_i h
    exact le_of_not_lt h

theorem appendPES_padding (env : Env) (s : vdec_thread_t) (p_pes : pes_packet_t) (j : Int)
    (h0 : 0 ≤ j) (h1 : j < 16) :
    (appendPES env s p_pes).1.p_buffer (s.i_buffer + (appendPES env s p_pes).2 + j) = 0 := by
  have hb : ∀ x : vdec_thread_t, x.i_buffer = s.i_buffer →
      memset (GetPESData x.p_buffer x.i_buffer p_pes.i_pes_size p_pes).1
        (x.i_buffer + (GetPESData x.p_buffer x.i_buffer p_pes.i_pes_size p_pes).2) 0 16
        (s.i_buffer + (GetPESData x.p_buffer x.i_buffer p_pes.i_pes_size p_pes).2 + j) = 0 := by
    intro x hx
    unfold memset
    rw [hx]
    rw [if_pos]
    constructor <;> omega
  unfold appendPES
  simp only
  split
  · exact hb _ rfl
  · exact hb _ rfl

theorem appendPES_payload (env : Env) (s : vdec_thread_t) (p_pes : pes_packet_t) (j : Nat)
    (h : (j : Int) < (appendPES env s p_pes).2) :
    (appendPES env s p_pes).1.p_buffer (s.i_buffer + j) =
      (p_pes.payload.take p_pes.i_pes_size.toNat).getD j 0 := by
  rw [appendPES_size] at h
  have hb : ∀ x : vdec_thread_t, x.i_buffer = s.i_buffer →
      memset (GetPESData x.p_buffer x.i_buffer p_pes.i_pes_size p_pes).1
        (x.i_buffer + (GetPESData x.p_buffer x.i_buffer p_pes.i_pes_size p_pes).2) 0 16
        (s.i_buffer + j) = (p_pes.payload.take p_pes.i_pes_size.toNat).getD j 0 := by
    intro x hx
    unfold memset GetPESData
    simp only
    rw [hx, if_neg (by omega), if_pos (by omega)]
    congr 1
    omega
  unfold appendPES
  simp only
  split
  · exact hb _ rfl
  · exact hb _ rfl

theorem appendPES_kept (env : Env) (s : vdec_thread_t) (p_pes : pes_packet_t) (a : Int)
    (h0 : 0 ≤ a) (h1 : a < s.i_buffer) :
    (appendPES env s p_pes).1.p_buffer a = s.p_buffer a := by
  have hb : ∀ m : Mem,
      memset (GetPESData m s.i_buffer p_pes.i_pes_size p_pes).1
        (s.i_buffer + (GetPESData m s.i_buffer p_pes.i_pes_size p_pes).2) 0 16 a = m a := by
    intro m
    unfold memset GetPESData
    simp only
    rw [if_neg (by omega), if_neg (by omega)]
  unfold appendPES
  simp only
  split
  · simp only
    rw [hb, if_pos (by omega)]
    unfold memcpy
    rw [if_pos (by omega)]
    congr 1
    omega
  · exact hb _


theorem readPES_append (env : Env) (s : vdec_thread_t) (p_pes : pes_packet_t)
    (h : 0 < p_pes.i_pes_size) :
    ∃ s1, readPES env s p_pes = appendPES env s1 p_pes ∧ s1.p_buffer = s.p_buffer ∧
      s1.i_buffer = s.i_buffer ∧ s1.i_buffer_size = s.i_buffer_size := by
  unfold readPES
  simp only [gt_iff_lt, h, if_true]
  split
  · exact ⟨_, rfl, rfl, rfl, rfl⟩
  · exact ⟨_, rfl, rfl, rfl, rfl⟩

theorem take_toNat_length (l : List Nat) (n : Int) (h : n = l.length) :
    l.take n.toNat = l := by
  rw [h]
  simp

/-- C5: immediately after every append of a packet with a positive payload
size, for every prior buffer state, the sixteen bytes that follow the logical
end of the accumulation buffer lie inside its capacity and are all zero. -/
theorem padding_after_append (env : Env) (s : vdec_thread_t) (p_pes : pes_packet_t)
    (h : 0 < p_pes.i_pes_size) :
    (readPES env s p_pes).1.i_buffer + (readPES env s p_pes).2 + 16 ≤
      (readPES env s p_pes).1.i_buffer_size ∧
    ∀ j : Int, 0 ≤ j → j < 16 →
      (readPES env s p_pes).1.p_buffer
        ((readPES env s p_pes).1.i_buffer + (readPES env s p_pes).2 + j) = 0 := by
  obtain ⟨s1, hr, -, -, -⟩ := readPES_append env s p_pes h
  rw [hr, appendPES_i_buffer]
  constructor
  · have hc := appendPES_capacity env s1 p_pes
    have hs := appendPES_size env s1 p_pes
    have hl : (p_pes.payload.take p_pes.i_pes_size.toNat).length ≤ p_pes.i_pes_size.toNat := by
      rw [List.length_take]
      exact Nat.min_le_left _ _
    omega
  · intro j h0 h1
    exact appendPES_padding env s1 p_pes j h0 h1

/-- C5, an append the theorem applies to: the three bytes of a packet on an
empty buffer. -/
theorem padding_after_append_witness :
    (readPES (env0 1 (fun _ => 0) (codec0 1 25)) (thread0 false []) packet1000).1.i_buffer +
        (readPES (env0 1 (fun _ => 0) (codec0 1 25)) (thread0 false []) packet1000).2 + 16 ≤
      (readPES (env0 1 (fun _ => 0) (codec0 1 25)) (thread0 false []) packet1000).1.i_buffer_size ∧
    ∀ j : Int, 0 ≤ j → j < 16 →
      (readPES (env0 1 (fun _ => 0) (codec0 1 25)) (thread0 false []) packet1000).1.p_buffer
        ((readPES (env0 1 (fun _ => 0) (codec0 1 25)) (thread0 false []) packet1000).1.i_buffer +
          (readPES (env0 1 (fun _ => 0) (codec0 1 25)) (thread0 false []) packet1000).2 + j) = 0 :=
  padding_after_append (env0 1 (fun _ => 0) (codec0 1 25)) (thread0 false []) packet1000
    (by decide)

/-- C4: for every buffered content `b` of length `L` within the capacity,
every consumed count `0 ≤ u < L` and every non-empty payload, the consume step
followed by the packet loop of the next call on that packet hands the codec
`L - u` plus the payload length bytes, and these bytes are `b` without its
first `u` bytes followed by the payload, whether or not the buffer grows. -/
theorem consume_then_append (env : Env) (s : vdec_thread_t) (L u : Int)
    (p_pes : pes_packet_t) (rest : List pes_packet_t)
    (hu0 : 0 ≤ u) (hu : u < L) (hcap : L ≤ s.i_buffer_size)
    (hp : p_pes.payload ≠ []) (hsz : p_pes.i_pes_size = p_pes.payload.length) :
    (fetchLoop env (p_pes :: rest) (consume s L u)).2.2 = some (p_pes.payload.length : Int) ∧
    (p_pes.payload.length : Int) + (fetchLoop env (p_pes :: rest) (consume s L u)).1.i_buffer =
      L - u + p_pes.payload.length ∧
    bytes (fetchLoop env (p_pes :: rest) (consume s L u)).1.p_buffer
        ((p_pes.payload.length : Int) +
          (fetchLoop env (p_pes :: rest) (consume s L u)).1.i_buffer) =
      (bytes s.p_buffer L).drop u.toNat ++ p_pes.payload := by
  have hlen : 0 < p_pes.payload.length := List.length_pos.2 hp
  have hpos : 0 < p_pes.i_pes_size := by omega
  obtain ⟨s1, hr, hb, hi, -⟩ := readPES_append env (consume s L u) p_pes hpos
  have hc1 : (consume s L u).i_buffer = L - u := by
    unfold consume
    rw [if_pos hu]
  have hc2 : ∀ a : Int, 0 ≤ a → a < L - u → (consume s L u).p_buffer a = s.p_buffer (a + u) := by
    intro a h0 h1
    unfold consume
    rw [if_pos hu]
    simp only [memcpy]
    rw [if_pos (by omega)]
    congr 1
    omega
  have hsize : (readPES env (consume s L u) p_pes).2 = (p_pes.payload.length : Int) := by
    rw [hr, appendPES_size, take_toNat_length _ _ hsz]
  have hnot : ¬ (readPES env (consume s L u) p_pes).2 ≤ 0 := by omega
  unfold fetchLoop
  rw [if_neg hnot]
  simp only
  rw [hsize, hr, appendPES_i_buffer, hi, hc1]
  refine ⟨rfl, by ring, ?_⟩
  obtain ⟨u2, rfl⟩ := Int.eq_ofNat_of_zero_le hu0
  obtain ⟨L2, rfl⟩ := Int.eq_ofNat_of_zero_le (show (0 : Int) ≤ L by omega)
  have hu2 : u2 ≤ L2 := by omega
  have e : (p_pes.payload.length : Int) + ((L2 : Int) - (u2 : Int)) =
      ((L2 - u2 : Nat) : Int) + (p_pes.payload.length : Int) := by omega
  rw [e, bytes_add, Int.toNat_ofNat, bytes_drop _ _ _ hu2]
  congr 1
  · apply bytes_congr
    intro i hi2
    rw [appendPES_kept env s1 p_pes i (by omega) (by omega), hb]
    exact hc2 i (by omega) (by omega)
  · apply bytes_ofList
    intro i hi2
    have hh : (i : Int) < (appendPES env s1 p_pes).2 := by
      rw [← hr, hsize]
      exact_mod_cast hi2
    have := appendPES_payload env s1 p_pes i hh
    rw [take_toNat_length _ _ hsz, hi, hc1] at this
    rw [← this]
    congr 1
    omega


/-- C4, a consume and append the theorem applies to: of the five buffered
bytes 1, 2, 3, 4, 5 the codec uses two, and the packet 7, 8, 9 is appended. -/
theorem consume_then_append_witness :
    (fetchLoop (env0 1 (fun _ => 0) (codec0 1 25)) [packet1000]
        (consume threadBuffered 5 2)).2.2 = some 3 ∧
    (3 : Int) + (fetchLoop (env0 1 (fun _ => 0) (codec0 1 25)) [packet1000]
        (consume threadBuffered 5 2)).1.i_buffer = 6 ∧
    bytes (fetchLoop (env0 1 (fun _ => 0) (codec0 1 25)) [packet1000]
          (consume threadBuffered 5 2)).1.p_buffer
        ((3 : Int) + (fetchLoop (env0 1 (fun _ => 0) (codec0 1 25)) [packet1000]
          (consume threadBuffered 5 2)).1.i_buffer) = [3, 4, 5, 7, 8, 9] :=
  consume_then_append (env0 1 (fun _ => 0) (codec0 1 25)) threadBuffered 5 2 packet1000 []
    (by decide) (by decide) (by decide) (by decide) (by decide)


/-! ## C6: a failed codec call -/

/-- C6: from every state and with every buffered input, when the codec call
at the label `usenextdata` returns a negative count, `DecodeThread_Video`
returns after that one call with the error counter incremented by exactly one
and the buffered length set to zero, and nothing is published after the
call. -/
theorem decode_failure (env : Env) (draw : Bool) (fuel : Nat) (s : vdec_thread_t) (n : Int)
    (h : (env.avcodec_decode_video s.n_decode s.p_context s.p_buffer n).i_used < 0) :
    ∃ s1 ev, usenextdata env draw (fuel + 1) s n = some (s1, ev) ∧
      s1.i_frame_error = s.i_frame_error + 1 ∧ s1.i_buffer = 0 ∧
      published ev = [] ∧ decodeCalls ev = 1 := by
  unfold usenextdata decodeOnce
  simp only [h, if_true]
  exact ⟨_, _, rfl, rfl, rfl, rfl, rfl⟩

/-- C6, a call the theorem applies to: a codec that rejects its input. -/
theorem decode_failure_witness :
    ∃ s1 ev, usenextdata (env0 1 (fun _ => 0) (codec0 (-1) 25)) true (0 + 1)
        threadBuffered 5 = some (s1, ev) ∧
      s1.i_frame_error = threadBuffered.i_frame_error + 1 ∧ s1.i_buffer = 0 ∧
      published ev = [] ∧ decodeCalls ev = 1 :=
  decode_failure (env0 1 (fun _ => 0) (codec0 (-1) 25)) true 0 threadBuffered 5 (by decide)


/-! ## C8: what the late counter compares -/

/-- What the resynchronisation loop does on a fifo `l`: the packets it deletes
are the first packets of `l`, in order, and the others stay; it calls no codec
and displays nothing; when it stops on a packet, that packet is the last one
deleted, its timestamp is positive and not earlier than the last clock
reading, and every packet deleted before it has no positive timestamp or one
earlier than a clock reading; when the fifo runs out, all packets were such
packets and the error flag is set. -/
theorem resyncLoop_spec (env : Env) (l : List pes_packet_t) (s : vdec_thread_t) :
    l = deleted (resyncLoop env l s).2.1 ++ (resyncLoop env l s).1.fifo ∧
    decodeCalls (resyncLoop env l s).2.1 = 0 ∧
    published (resyncLoop env l s).2.1 = [] ∧
    ((resyncLoop env l s).2.2 = true →
      ∃ pre q, deleted (resyncLoop env l s).2.1 = pre ++ [q] ∧ 0 < q.i_pts ∧
        env.mdate ((resyncLoop env l s).1.n_mdate - 1) ≤ q.i_pts ∧
        ∀ x ∈ pre, x.i_pts ≤ 0 ∨ ∃ k, x.i_pts < env.mdate k) ∧
    ((resyncLoop env l s).2.2 = false →
      (resyncLoop env l s).1.b_error = true ∧ (resyncLoop env l s).1.fifo = [] ∧
        ∀ x ∈ l, x.i_pts ≤ 0 ∨ ∃ k, x.i_pts < env.mdate k) := by
  induction l generalizing s with
  | nil =>
    refine ⟨rfl, rfl, rfl, ?_, ?_⟩
    · intro h
      simp [resyncLoop] at h
    · intro _
      exact ⟨rfl, rfl, by simp⟩
  | cons p rest ih =>
    unfold resyncLoop
    split
    · rename_i hp
      obtain ⟨h1, h2, h3, h4, h5⟩ := ih s
      simp only [deleted, decodeCalls, published, List.cons_append]
      refine ⟨by rw [← h1], h2, h3, ?_, ?_⟩
      · intro hf
        obtain ⟨pre, q, e, hq⟩ := h4 hf
        refine ⟨p :: pre, q, by rw [e]; rfl, hq.1, hq.2.1, ?_⟩
        intro x hx
        rcases List.mem_cons.1 hx with rfl | hx
        · exact Or.inl hp
        · exact hq.2.2 x hx
      · intro hf
        obtain ⟨e1, e2, e3⟩ := h5 hf
        refine ⟨e1, e2, ?_⟩
        intro x hx
        rcases List.mem_cons.1 hx with rfl | hx
        · exact Or.inl hp
        · exact e3 x hx
    · rename_i hp
      simp only
      split
      · rename_i hlt
        obtain ⟨h1, h2, h3, h4, h5⟩ := ih { s with n_mdate := s.n_mdate + 1 }
        simp only [deleted, decodeCalls, published, List.cons_append]
        refine ⟨by rw [← h1], h2, h3, ?_, ?_⟩
        · intro hf
          obtain ⟨pre, q, e, hq⟩ := h4 hf
          refine ⟨p :: pre, q, by rw [e]; rfl, hq.1, hq.2.1, ?_⟩
          intro x hx
          rcases List.mem_cons.1 hx with rfl | hx
          · exact Or.inr ⟨_, hlt⟩
          · exact hq.2.2 x hx
        · intro hf
          obtain ⟨e1, e2, e3⟩ := h5 hf
          refine ⟨e1, e2, ?_⟩
          intro x hx
          rcases List.mem_cons.1 hx with rfl | hx
          · exact Or.inr ⟨_, hlt⟩
          · exact e3 x hx
      · rename_i hge
        refine ⟨rfl, rfl, rfl, ?_, ?_⟩
        · intro _
          refine ⟨[], p, rfl, lt_of_not_le hp, ?_, by simp⟩
          simp only [Nat.add_sub_cancel]
          exact le_of_not_lt hge
        · intro hf
          simp at hf


/-- The resynchronisation loop entered with the clock cursor at
`s.n_mdate`, packet by packet: a packet that comes after the packets `a` is
compared with the reading number `s.n_mdate + stamped a` of the clock.  When
the loop stops on a packet, that packet is the last one deleted, it is stamped
and not earlier than the reading made for it, and every packet deleted before
it is unstamped or earlier than the reading made for it; when the fifo runs
out, every packet was unstamped or earlier than the reading made for it. -/
theorem resyncLoop_exact (env : Env) (l : List pes_packet_t) (s : vdec_thread_t) :
    ((resyncLoop env l s).2.2 = true →
      ∃ pre q, deleted (resyncLoop env l s).2.1 = pre ++ [q] ∧ 0 < q.i_pts ∧
        env.mdate (s.n_mdate + stamped pre) ≤ q.i_pts ∧
        ∀ a x b, pre = a ++ x :: b →
          x.i_pts ≤ 0 ∨ x.i_pts < env.mdate (s.n_mdate + stamped a)) ∧
    ((resyncLoop env l s).2.2 = false →
      ∀ a x b, l = a ++ x :: b →
        x.i_pts ≤ 0 ∨ x.i_pts < env.mdate (s.n_mdate + stamped a)) := by
  induction l generalizing s with
  | nil =>
    refine ⟨?_, ?_⟩
    · intro h
      simp [resyncLoop] at h
    · intro _ a x b h
      simp at h
  | cons p rest ih =>
    unfold resyncLoop
    split
    · rename_i hp
      have hst : ∀ a, stamped (p :: a) = stamped a := by
        intro a
        simp only [stamped]
        rw [if_neg (not_lt.2 hp)]
      obtain ⟨h4, h5⟩ := ih s
      simp only [deleted]
      refine ⟨?_, ?_⟩
      · intro hf
        obtain ⟨pre, q, e, hq1, hq2, hq3⟩ := h4 hf
        refine ⟨p :: pre, q, by rw [e]; rfl, hq1, by rw [hst]; exact hq2, ?_⟩
        intro a x b hdec
        cases a with
        | nil =>
          simp only [List.nil_append, List.cons.injEq] at hdec
          rw [← hdec.1]
          exact Or.inl hp
        | cons y a2 =>
          simp only [List.cons_append, List.cons.injEq] at hdec
          rw [← hdec.1, hst]
          exact hq3 a2 x b hdec.2
      · intro hf a x b hdec
        cases a with
        | nil =>
          simp only [List.nil_append, List.cons.injEq] at hdec
          rw [← hdec.1]
          exact Or.inl hp
        | cons y a2 =>
          simp only [List.cons_append, List.cons.injEq] at hdec
          rw [← hdec.1, hst]
          exact h5 hf a2 x b hdec.2
    · rename_i hp
      have hst : ∀ a, stamped (p :: a) = stamped a + 1 := by
        intro a
        simp only [stamped]
        rw [if_pos (lt_of_not_le hp)]
      have hidx : ∀ a, s.n_mdate + (stamped a + 1) = s.n_mdate + 1 + stamped a := by
        intro a
        omega
      simp only
      split
      · rename_i hlt
        obtain ⟨h4, h5⟩ := ih { s with n_mdate := s.n_mdate + 1 }
        simp only [deleted]
        refine ⟨?_, ?_⟩
        · intro hf
          obtain ⟨pre, q, e, hq1, hq2, hq3⟩ := h4 hf
          refine ⟨p :: pre, q, by rw [e]; rfl, hq1, by rw [hst, hidx]; exact hq2, ?_⟩
          intro a x b hdec
          cases a with
          | nil =>
            simp only [List.nil_append, List.cons.injEq] at hdec
            rw [← hdec.1]
            exact Or.inr hlt
          | cons y a2 =>
            simp only [List.cons_append, List.cons.injEq] at hdec
            rw [← hdec.1, hst, hidx]
            exact hq3 a2 x b hdec.2
        · intro hf a x b hdec
          cases a with
          | nil =>
            simp only [List.nil_append, List.cons.injEq] at hdec
            rw [← hdec.1]
            exact Or.inr hlt
          | cons y a2 =>
            simp only [List.cons_append, List.cons.injEq] at hdec
            rw [← hdec.1, hst, hidx]
            exact h5 hf a2 x b hdec.2
      · rename_i hge
        refine ⟨?_, ?_⟩
        · intro _
          refine ⟨[], p, rfl, lt_of_not_le hp, le_of_not_lt hge, ?_⟩
          intro a x b hdec
          simp at hdec
        · intro hf
          simp at hf

theorem resyncThenDecode_fires (env : Env) (draw : Bool) (fuel : Nat) (s : vdec_thread_t)
    (hlate : 0 < s.i_frame_late)
    (hold : 5000000 < env.mdate s.n_mdate - s.i_frame_late_start) :
    ((resyncLoop env s.fifo { s with n_mdate := s.n_mdate + 1 }).2.2 = true →
      resyncThenDecode env draw fuel s =
        (decodePacket env draw fuel
          (resyncLoop env s.fifo { s with n_mdate := s.n_mdate + 1 }).1).map
          (fun r => (r.1, (resyncLoop env s.fifo { s with n_mdate := s.n_mdate + 1 }).2.1 ++ r.2))) ∧
    ((resyncLoop env s.fifo { s with n_mdate := s.n_mdate + 1 }).2.2 = false →
      resyncThenDecode env draw fuel s =
        some ((resyncLoop env s.fifo { s with n_mdate := s.n_mdate + 1 }).1,
              (resyncLoop env s.fifo { s with n_mdate := s.n_mdate + 1 }).2.1)) := by
  unfold resyncThenDecode
  simp only [gt_iff_lt, hlate, hold, if_true]
  rcases hres : resyncLoop env s.fifo { s with n_mdate := s.n_mdate + 1 } with ⟨s2, ev, flag⟩
  cases flag
  · simp
  · simp only [true_implies, Bool.true_eq_false, false_implies, and_true]
    cases decodePacket env draw fuel s2 with
    | none => rfl
    | some r => rfl

/-- C10 (as amended): when the forced resynchronisation of `DecodeThread_Video`
fires (late count positive, more than 5 000 000 microseconds since the late
episode started, and the call not in the drop branch of hurry-up), the loop
deletes the packets of the fifo one at a time and in order, without calling
the codec.  The clock is read once for the test that fires the loop and then
once for each stamped packet, so the packet that follows the packets `a` is
compared with the reading number `n_mdate + 1 + stamped a`.  The loop stops
after deleting the first packet whose timestamp is positive and not earlier
than the reading made for it: every packet deleted before that one has no
positive timestamp (a packet without a timestamp included) or one earlier
than the reading made for it; the call then goes on with the packet loop on
the packets that are left.  If the fifo runs out, every packet was such a
packet, the stream error flag is set and the call returns without decoding. -/
theorem forced_resync (env : Env) (fuel : Nat) (s : vdec_thread_t)
    (hlate : 0 < s.i_frame_late)
    (hold : 5000000 < env.mdate s.n_mdate - s.i_frame_late_start)
    (hgate : ¬ (s.b_hurry_up = true ∧ 8 ≤ s.i_frame_late)) :
    ∃ s0 draw t, s0.fifo = s.fifo ∧ s0.n_mdate = s.n_mdate + 1 ∧
      (draw = false ↔ (s.b_hurry_up = true ∧ 4 < s.i_frame_late)) ∧
      t = resyncLoop env s.fifo s0 ∧
      s.fifo = deleted t.2.1 ++ t.1.fifo ∧ decodeCalls t.2.1 = 0 ∧ published t.2.1 = [] ∧
      (t.2.2 = true →
        (∃ pre q, deleted t.2.1 = pre ++ [q] ∧ 0 < q.i_pts ∧
          env.mdate (s.n_mdate + 1 + stamped pre) ≤ q.i_pts ∧
          ∀ a x b, pre = a ++ x :: b →
            x.i_pts ≤ 0 ∨ x.i_pts < env.mdate (s.n_mdate + 1 + stamped a)) ∧
        DecodeThread_Video env fuel s =
          (decodePacket env draw fuel t.1).map (fun r => (r.1, t.2.1 ++ r.2))) ∧
      (t.2.2 = false →
        (∀ a x b, s.fifo = a ++ x :: b →
          x.i_pts ≤ 0 ∨ x.i_pts < env.mdate (s.n_mdate + 1 + stamped a)) ∧
        t.1.b_error = true ∧ t.1.fifo = [] ∧
        DecodeThread_Video env fuel s = some (t.1, t.2.1)) := by
  have key : ∀ (draw : Bool) (s0 : vdec_thread_t), s0.fifo = s.fifo →
      s0.n_mdate = s.n_mdate → 0 < s0.i_frame_late →
      5000000 < env.mdate s0.n_mdate - s0.i_frame_late_start →
      (draw = false ↔ (s.b_hurry_up = true ∧ 4 < s.i_frame_late)) →
      DecodeThread_Video env fuel s = resyncThenDecode env draw fuel s0 →
      ∃ s0 draw t, s0.fifo = s.fifo ∧ s0.n_mdate = s.n_mdate + 1 ∧
        (draw = false ↔ (s.b_hurry_up = true ∧ 4 < s.i_frame_late)) ∧
        t = resyncLoop env s.fifo s0 ∧
        s.fifo = deleted t.2.1 ++ t.1.fifo ∧ decodeCalls t.2.1 = 0 ∧ published t.2.1 = [] ∧
        (t.2.2 = true →
          (∃ pre q, deleted t.2.1 = pre ++ [q] ∧ 0 < q.i_pts ∧
            env.mdate (s.n_mdate + 1 + stamped pre) ≤ q.i_pts ∧
            ∀ a x b, pre = a ++ x :: b →
              x.i_pts ≤ 0 ∨ x.i_pts < env.mdate (s.n_mdate + 1 + stamped a)) ∧
          DecodeThread_Video env fuel s =
            (decodePacket env draw fuel t.1).map (fun r => (r.1, t.2.1 ++ r.2))) ∧
        (t.2.2 = false →
          (∀ a x b, s.fifo = a ++ x :: b →
            x.i_pts ≤ 0 ∨ x.i_pts < env.mdate (s.n_mdate + 1 + stamped a)) ∧
          t.1.b_error = true ∧ t.1.fifo = [] ∧
          DecodeThread_Video env fuel s = some (t.1, t.2.1)) := by
    intro draw s0 hf hn hl ho hdraw hcall
    obtain ⟨f1, f2⟩ := resyncThenDecode_fires env draw fuel s0 hl ho
    obtain ⟨h1, h2, h3, -, h5⟩ :=
      resyncLoop_spec env s0.fifo { s0 with n_mdate := s0.n_mdate + 1 }
    obtain ⟨x4, x5⟩ := resyncLoop_exact env s0.fifo { s0 with n_mdate := s0.n_mdate + 1 }
    have hidx : ({ s0 with n_mdate := s0.n_mdate + 1 } : vdec_thread_t).n_mdate =
        s.n_mdate + 1 := by
      rw [← hn]
    rw [hidx] at x4 x5
    refine ⟨{ s0 with n_mdate := s0.n_mdate + 1 }, draw,
      resyncLoop env s0.fifo { s0 with n_mdate := s0.n_mdate + 1 }, hf, by simp [hn], hdraw,
      by rw [hf], hf.symm.trans h1, h2, h3, ?_, ?_⟩
    · intro ht
      exact ⟨x4 ht, by rw [hcall]; exact f1 ht⟩
    · intro ht
      obtain ⟨e1, e2, -⟩ := h5 ht
      exact ⟨fun a x b hx => x5 ht a x b (by rw [hf]; exact hx), e1, e2,
        by rw [hcall]; exact f2 ht⟩
  by_cases hh : s.b_hurry_up = true ∧ s.i_frame_late > 4
  · have h8 : s.i_frame_late < 8 := by
      by_contra hc
      exact hgate ⟨hh.1, le_of_not_lt hc⟩
    refine key false { s with p_context := { s.p_context with hurry_up := 2 } } rfl rfl hlate hold
      ⟨fun _ => hh, fun _ => rfl⟩ ?_
    unfold DecodeThread_Video
    rw [if_pos hh, if_pos h8]
  · refine key true { s with p_context := { s.p_context with hurry_up := 0 } } rfl rfl hlate hold
      ⟨fun h => absurd h (by decide), fun h => absurd h hh⟩ ?_
    unfold DecodeThread_Video
    rw [if_neg hh]

/-- C10, a call the theorem applies to: the late episode started at 0, the
clock reads 6 000 000 and three packets wait. -/
theorem forced_resync_witness :
    ∃ s0 draw t, s0.fifo = threadBacklog.fifo ∧ s0.n_mdate = threadBacklog.n_mdate + 1 ∧
      (draw = false ↔ (threadBacklog.b_hurry_up = true ∧ 4 < threadBacklog.i_frame_late)) ∧
      t = resyncLoop (env0 1 (fun _ => 6000000) (codec0 3 25)) threadBacklog.fifo s0 ∧
      threadBacklog.fifo = deleted t.2.1 ++ t.1.fifo ∧ decodeCalls t.2.1 = 0 ∧ published t.2.1 = [] ∧
      (t.2.2 = true →
        (∃ pre q, deleted t.2.1 = pre ++ [q] ∧ 0 < q.i_pts ∧
          (env0 1 (fun _ => 6000000) (codec0 3 25)).mdate (threadBacklog.n_mdate + 1 + stamped pre) ≤ q.i_pts ∧
          ∀ a x b, pre = a ++ x :: b →
            x.i_pts ≤ 0 ∨ x.i_pts < (env0 1 (fun _ => 6000000) (codec0 3 25)).mdate (threadBacklog.n_mdate + 1 + stamped a)) ∧
        DecodeThread_Video (env0 1 (fun _ => 6000000) (codec0 3 25)) 1 threadBacklog =
          (decodePacket (env0 1 (fun _ => 6000000) (codec0 3 25)) draw 1 t.1).map (fun r => (r.1, t.2.1 ++ r.2))) ∧
      (t.2.2 = false →
        (∀ a x b, threadBacklog.fifo = a ++ x :: b →
          x.i_pts ≤ 0 ∨ x.i_pts < (env0 1 (fun _ => 6000000) (codec0 3 25)).mdate (threadBacklog.n_mdate + 1 + stamped a)) ∧
        t.1.b_error = true ∧ t.1.fifo = [] ∧
        DecodeThread_Video (env0 1 (fun _ => 6000000) (codec0 3 25)) 1 threadBacklog = some (t.1, t.2.1)) :=
  forced_resync (env0 1 (fun _ => 6000000) (codec0 3 25)) 1 threadBacklog
    (by decide) (by decide) (by decide)

/-- C10 as stated fails: the first packet waiting has no timestamp, yet the
loop does not stop on it; it deletes that packet (one byte) and the next one
(two bytes, stamped in the future), and the packet decoded is the third one
(three bytes). -/
theorem forced_resync_counterexample :
    (threadBacklog.fifo.map (fun p => (p.i_pts, p.i_pes_size)) =
      [(0, 1), (9000000, 2), (9000001, 3)]) ∧
    (DecodeThread_Video (env0 1 (fun _ => 6000000) (codec0 3 25)) 1 threadBacklog).map
      (fun r => ((deleted r.2).map (fun p => p.i_pes_size), decoded r.2)) =
      some ([1, 2, 3], [3]) := by
  decide


/-! ## C9: hurry-up between five and seven late frames -/

theorem published_append (ev1 ev2 : List Event) :
    published (ev1 ++ ev2) = published ev1 ++ published ev2 := by
  induction ev1 with
  | nil => rfl
  | cons e ev1 ih =>
    rw [List.cons_append]
    cases e <;> simp [published, ih]

theorem decodeCalls_append (ev1 ev2 : List Event) :
    decodeCalls (ev1 ++ ev2) = decodeCalls ev1 + decodeCalls ev2 := by
  induction ev1 with
  | nil => simp [decodeCalls]
  | cons e ev1 ih =>
    rw [List.cons_append]
    cases e <;> simp only [decodeCalls, ih]
    omega

theorem fifoOnly_append (ev1 ev2 : List Event) (h1 : fifoOnly ev1 = true)
    (h2 : fifoOnly ev2 = true) : fifoOnly (ev1 ++ ev2) = true := by
  induction ev1 with
  | nil => exact h2
  | cons e ev1 ih =>
    rw [List.cons_append]
    cases e with
    | extractPES _ => exact ih h1
    | deletePES _ => exact ih h1
    | _ => simp [fifoOnly] at h1

theorem fifoOnly_silent (ev : List Event) (h : fifoOnly ev = true) :
    published ev = [] ∧ decodeCalls ev = 0 := by
  induction ev with
  | nil => exact ⟨rfl, rfl⟩
  | cons e ev ih =>
    cases e with
    | extractPES _ => exact ih h
    | deletePES _ => exact ih h
    | _ => simp [fifoOnly] at h

theorem deleted_append (ev1 ev2 : List Event) :
    deleted (ev1 ++ ev2) = deleted ev1 ++ deleted ev2 := by
  induction ev1 with
  | nil => rfl
  | cons e ev1 ih =>
    rw [List.cons_append]
    cases e <;> simp [deleted, ih]

theorem resyncLoop_fifoOnly (env : Env) (l : List pes_packet_t) (s : vdec_thread_t) :
    fifoOnly (resyncLoop env l s).2.1 = true := by
  induction l generalizing s with
  | nil => rfl
  | cons p rest ih =>
    unfold resyncLoop
    split
    · simp only [fifoOnly, ih]
    · simp only
      split
      · simp only [fifoOnly, ih]
      · rfl

/-- The packet loop does fifo operations only; when it ends with a frame size
it has deleted a packet, and when the fifo ran out the error flag is set. -/
theorem fetchLoop_spec (env : Env) (l : List pes_packet_t) (s : vdec_thread_t) :
    fifoOnly (fetchLoop env l s).2.1 = true ∧
    ((fetchLoop env l s).2.2 = none → (fetchLoop env l s).1.b_error = true) ∧
    (∀ n, (fetchLoop env l s).2.2 = some n → deleted (fetchLoop env l s).2.1 ≠ [] ∧ 0 < n) := by
  induction l generalizing s with
  | nil =>
    refine ⟨rfl, fun _ => rfl, ?_⟩
    intro n h
    simp [fetchLoop] at h
  | cons p rest ih =>
    unfold fetchLoop
    split
    · obtain ⟨h1, h2, h3⟩ := ih (readPES env s p).1
      refine ⟨by simp only [fifoOnly, h1], h2, ?_⟩
      intro n hn
      exact ⟨by simp [deleted], (h3 n hn).2⟩
    · rename_i hpos
      refine ⟨rfl, ?_, ?_⟩
      · intro h
        simp at h
      · intro n hn
        simp only [Option.some.injEq] at hn
        exact ⟨by simp [deleted], by omega⟩

theorem decodeOnce_nodraw (env : Env) (fuel : Nat) (s : vdec_thread_t) (n : Int) :
    ∃ s1 u g post, decodeOnce env false fuel s n =
        some (s1, Event.decode n s.p_context.hurry_up u g :: post, none) ∧
      (post = [] ∨
        ∃ now, post = [Event.lateUpdate s.pts now s.i_frame_late s1.i_frame_late]) := by
  unfold decodeOnce
  simp only
  by_cases h : (env.avcodec_decode_video s.n_decode s.p_context s.p_buffer n).i_used < 0
  · rw [if_pos h]
    exact ⟨_, _, _, _, rfl, Or.inl rfl⟩
  · rw [if_neg h, if_pos (Or.inr (Or.inr trivial))]
    refine ⟨_, _, _, _, rfl, Or.inr ⟨env.mdate s.n_mdate, ?_⟩⟩
    rw [updateFrameLate_event, consumed_frame]

/-- The drain loop without drawing returns after one pass: its trace is the
codec call, followed by the update of the late counter when the call did not
fail. -/
theorem usenextdata_nodraw (env : Env) (fuel : Nat) (s : vdec_thread_t) (n : Int) :
    ∃ s1 u g post, usenextdata env false (fuel + 1) s n =
        some (s1, Event.decode n s.p_context.hurry_up u g :: post) ∧
      (post = [] ∨
        ∃ now, post = [Event.lateUpdate s.pts now s.i_frame_late s1.i_frame_late]) := by
  obtain ⟨s1, u, g, post, hd, hp⟩ := decodeOnce_nodraw env (fuel + 1) s n
  refine ⟨s1, u, g, post, ?_, hp⟩
  unfold usenextdata
  rw [hd]

theorem decodedUndrawn_prepend (c : Int) (ev0 ev : List Event) (h0 : fifoOnly ev0 = true)
    (h : decodedUndrawn c ev) : decodedUndrawn c (ev0 ++ ev) := by
  obtain ⟨pre, n, hh, u, g, post, e, h1, h2, h3⟩ := h
  refine ⟨ev0 ++ pre, n, hh, u, g, post, by rw [e, List.append_assoc],
    fifoOnly_append _ _ h0 h1, ?_, h3⟩
  rw [deleted_append]
  intro hc
  exact h2 (List.append_eq_nil.1 hc).2

theorem decodedUndrawn_silent (c : Int) (ev : List Event) (h : decodedUndrawn c ev) :
    published ev = [] ∧ decodeCalls ev = 1 := by
  obtain ⟨pre, n, hh, u, g, post, e, h1, -, h3⟩ := h
  obtain ⟨p1, p2⟩ := fifoOnly_silent pre h1
  rw [e, published_append, decodeCalls_append, p1, p2]
  rcases h3 with rfl | ⟨pts, now, new, rfl⟩
  · exact ⟨rfl, rfl⟩
  · exact ⟨rfl, rfl⟩

theorem decodePacket_nodraw (env : Env) (fuel : Nat) (s : vdec_thread_t) :
    ∃ s1 ev, decodePacket env false (fuel + 1) s = some (s1, ev) ∧
      ((fifoOnly ev = true ∧ s1.b_error = true) ∨ decodedUndrawn s.i_frame_late ev) := by
  unfold decodePacket
  simp only
  generalize hs0 : (if s.p_context.width = 0 ∨ s.p_context.height = 0 then
      { s with p_context := { s.p_context with hurry_up := 5 } } else s) = s0
  have hl0 : s0.i_frame_late = s.i_frame_late := by
    rw [← hs0]
    split <;> rfl
  obtain ⟨f1, f2, f3⟩ := fetchLoop_spec env s0.fifo s0
  have hfr := fetchLoop_frame env s0.fifo s0
  rcases hres : fetchLoop env s0.fifo s0 with ⟨s2, ev, r⟩
  rw [hres] at f1 f2 f3 hfr
  simp only at f1 f2 f3 hfr
  cases r with
  | none => exact ⟨_, _, rfl, Or.inl ⟨f1, f2 rfl⟩⟩
  | some n =>
    obtain ⟨s3, u, g, post, hu, hp⟩ := usenextdata_nodraw env fuel s2 (n + s2.i_buffer)
    simp only [hu]
    refine ⟨_, _, rfl, Or.inr ⟨ev, _, _, u, g, post, rfl, f1, (f3 n rfl).1, ?_⟩⟩
    have hl2 : s2.i_frame_late = s.i_frame_late := by rw [hfr, ← hl0]
    rcases hp with hp | ⟨now, hp⟩
    · exact Or.inl hp
    · exact Or.inr ⟨_, now, _, by rw [hp, hl2]⟩

theorem resyncThenDecode_nodraw (env : Env) (fuel : Nat) (s : vdec_thread_t) :
    ∃ s1 ev, resyncThenDecode env false (fuel + 1) s = some (s1, ev) ∧
      ((fifoOnly ev = true ∧ s1.b_error = true) ∨ decodedUndrawn s.i_frame_late ev) := by
  unfold resyncThenDecode
  split
  · simp only
    split
    · have hfo := resyncLoop_fifoOnly env s.fifo { s with n_mdate := s.n_mdate + 1 }
      obtain ⟨-, -, -, -, h5⟩ := resyncLoop_spec env s.fifo { s with n_mdate := s.n_mdate + 1 }
      have hfr := resyncLoop_frame env s.fifo { s with n_mdate := s.n_mdate + 1 }
      rcases hres : resyncLoop env s.fifo { s with n_mdate := s.n_mdate + 1 } with ⟨s2, ev, flag⟩
      rw [hres] at hfo h5 hfr
      simp only at hfo h5 hfr
      cases flag with
      | false => exact ⟨_, _, rfl, Or.inl ⟨hfo, (h5 rfl).1⟩⟩
      | true =>
        obtain ⟨s3, ev3, hd, hc⟩ := decodePacket_nodraw env fuel s2
        simp only [hd]
        refine ⟨_, _, rfl, ?_⟩
        have hl2 : s2.i_frame_late = s.i_frame_late := by rw [hfr]
        rcases hc with ⟨c1, c2⟩ | hc
        · exact Or.inl ⟨fifoOnly_append _ _ hfo c1, c2⟩
        · rw [hl2] at hc
          exact Or.inr (decodedUndrawn_prepend _ _ _ hfo hc)
    · exact decodePacket_nodraw env fuel _
  · exact decodePacket_nodraw env fuel s

/-- C9 as stated fails at the count eight: the call makes no codec call
although a packet is waiting and no error is raised, the packet is dropped
from the fifo, and the count is modified, to seven. -/
theorem hurry_up_counterexample :
    (threadLate 8).b_hurry_up = true ∧ (threadLate 8).i_frame_late = 8 ∧
    (threadLate 8).fifo.length = 1 ∧
    (DecodeThread_Video (env0 1 (fun _ => 5000) (codec0 3 25)) 1 (threadLate 8)).map
      (fun r => (decodeCalls r.2, r.1.fifo.length, r.1.b_error, r.1.i_frame_late)) =
      some (0, 0, false, 7) := by
  decide


/-! ## C7: six late frames with hurry-up -/

theorem getPicture_some (env : Env) (fuel : Nat) (s : vdec_thread_t)
    (hv : ∀ n w h c, (env.vout_Request n w h c).isSome = true)
    (hp : ∀ n, (env.vout_CreatePicture n).isSome = true)
    (hw : s.p_context.width ≠ 0) (hh : s.p_context.height ≠ 0)
    (ho : s.p_ff_pic.opaque_pic.isSome = true) :
    ∃ s1 p_pic, getPicture env (fuel + 1) s = some (s1, some p_pic) := by
  unfold getPicture
  split
  · have hc : (ffmpeg_CreateVout env s).2 =
        env.vout_Request s.n_vout s.p_context.width s.p_context.height
          (if ffmpeg_PixFmtToChroma s.p_context.pix_fmt = 0 then VLC_FOURCC 'I' '4' '2' '0'
            else ffmpeg_PixFmtToChroma s.p_context.pix_fmt) := by
      unfold ffmpeg_CreateVout
      simp only [hw, hh, or_self, if_false]
    simp only
    obtain ⟨vout, hvout⟩ := Option.isSome_iff_exists.1
      (hv s.n_vout s.p_context.width s.p_context.height
        (if ffmpeg_PixFmtToChroma s.p_context.pix_fmt = 0 then VLC_FOURCC 'I' '4' '2' '0'
          else ffmpeg_PixFmtToChroma s.p_context.pix_fmt))
    rw [hc, hvout]
    simp only
    obtain ⟨pic, hpic⟩ := Option.isSome_iff_exists.1
      (hp ({ (ffmpeg_CreateVout env s).1 with p_vout := some vout } : vdec_thread_t).n_pic)
    unfold waitPicture
    rw [hpic]
    exact ⟨_, _, rfl⟩
  · obtain ⟨pic, hpic⟩ := Option.isSome_iff_exists.1 ho
    exact ⟨s, pic, by rw [hpic]⟩

/-- What a pass leaves untouched, and what it does to the bytes kept and to
the start of the late episode. -/
theorem decodeOnce_frame (env : Env) (draw : Bool) (fuel : Nat) (s s1 : vdec_thread_t)
    (n : Int) (ev : List Event) (next : Option Int)
    (h : decodeOnce env draw fuel s n = some (s1, ev, next)) :
    s1.b_hurry_up = s.b_hurry_up ∧ s1.fifo = s.fifo ∧ s1.pts = s.pts ∧
    (n ≤ (env.avcodec_decode_video s.n_decode s.p_context s.p_buffer n).i_used →
      s1.i_buffer = 0) ∧
    ((s1.i_frame_late_start = s.i_frame_late_start ∧
        (0 ≤ (env.avcodec_decode_video s.n_decode s.p_context s.p_buffer n).i_used →
          s1.i_frame_late ≠ 1)) ∨
      ∃ k, s1.i_frame_late_start = env.mdate k) := by
  have hstart : ∀ x : vdec_thread_t,
      ((updateFrameLate env x).1.i_frame_late_start = x.i_frame_late_start ∧
        (0 ≤ (env.avcodec_decode_video s.n_decode s.p_context s.p_buffer n).i_used →
          (updateFrameLate env x).1.i_frame_late ≠ 1)) ∨
      ∃ k, (updateFrameLate env x).1.i_frame_late_start = env.mdate k := by
    intro x
    unfold updateFrameLate
    simp only
    split
    · split
      · exact Or.inr ⟨_, rfl⟩
      · rename_i h1
        exact Or.inl ⟨rfl, fun _ => h1⟩
    · exact Or.inl ⟨rfl, fun _ => by simp⟩
  have hbuf : n ≤ (env.avcodec_decode_video s.n_decode s.p_context s.p_buffer n).i_used →
      (countPicture (consume (afterDecode s
        (env.avcodec_decode_video s.n_decode s.p_context s.p_buffer n)) n
        (env.avcodec_decode_video s.n_decode s.p_context s.p_buffer n).i_used)
        (env.avcodec_decode_video s.n_decode s.p_context s.p_buffer n).b_gotpicture).i_buffer
        = 0 := by
    intro hle
    unfold countPicture consume
    rw [if_neg (not_lt.2 hle)]
    split <;> rfl
  have hst := hstart (countPicture (consume (afterDecode s
        (env.avcodec_decode_video s.n_decode s.p_context s.p_buffer n)) n
        (env.avcodec_decode_video s.n_decode s.p_context s.p_buffer n).i_used)
        (env.avcodec_decode_video s.n_decode s.p_context s.p_buffer n).b_gotpicture)
  have hfr := updateFrameLate_frame env (countPicture (consume (afterDecode s
        (env.avcodec_decode_video s.n_decode s.p_context s.p_buffer n)) n
        (env.avcodec_decode_video s.n_decode s.p_context s.p_buffer n).i_used)
        (env.avcodec_decode_video s.n_decode s.p_context s.p_buffer n).b_gotpicture)
  have hcf := consumed_frame s (env.avcodec_decode_video s.n_decode s.p_context s.p_buffer n) n
  have hls : (countPicture (consume (afterDecode s
        (env.avcodec_decode_video s.n_decode s.p_context s.p_buffer n)) n
        (env.avcodec_decode_video s.n_decode s.p_context s.p_buffer n).i_used)
        (env.avcodec_decode_video s.n_decode s.p_context s.p_buffer n).b_gotpicture).i_frame_late_start
        = s.i_frame_late_start := by rw [hcf]
  rw [hls] at hst
  unfold decodeOnce at h
  simp only at h
  generalize (countPicture (consume (afterDecode s
        (env.avcodec_decode_video s.n_decode s.p_context s.p_buffer n)) n
        (env.avcodec_decode_video s.n_decode s.p_context s.p_buffer n).i_used)
        (env.avcodec_decode_video s.n_decode s.p_context s.p_buffer n).b_gotpicture) = c
    at h hbuf hst hfr hcf
  split at h
  · rename_i hneg
    simp only [Option.some.injEq, Prod.mk.injEq] at h
    rw [← h.1]
    exact ⟨rfl, rfl, rfl, fun _ => rfl, Or.inl ⟨rfl, fun hc => absurd hneg (not_lt.2 hc)⟩⟩
  · split at h
    · simp only [Option.some.injEq, Prod.mk.injEq] at h
      rw [← h.1]
      refine ⟨?_, ?_, ?_, ?_, hst⟩
      · rw [hfr, hcf]
      · rw [hfr, hcf]
      · rw [hfr, hcf]
      · intro hle
        rw [hfr]
        exact hbuf hle
    · split at h
      · simp at h
      · rename_i s3 hgp
        simp only [Option.some.injEq, Prod.mk.injEq] at h
        have hf := getPicture_frame _ _ _ _ _ hgp
        rw [← h.1, hf]
        refine ⟨?_, ?_, ?_, ?_, hst⟩
        · rw [hfr, hcf]
        · rw [hfr, hcf]
        · rw [hfr, hcf]
        · intro hle
          rw [hfr]
          exact hbuf hle
      · rename_i s3 pic hgp
        simp only [Option.some.injEq, Prod.mk.injEq] at h
        have hf := getPicture_frame _ _ _ _ _ hgp
        rw [← h.1, datePicture_frame, hf]
        refine ⟨?_, ?_, ?_, ?_, hst⟩
        · rw [hfr, hcf]
        · rw [hfr, hcf]
        · rw [hfr, hcf]
        · intro hle
          rw [hfr]
          exact hbuf hle


/-- In a late and drawable stream a pass on `n ≥ 0` bytes returns without a
`goto`, counts one more late frame, and displays one picture when drawing is
allowed and none when it is not. -/
theorem decodeOnce_late (env : Env) (T0 : Int) (draw : Bool) (fuel : Nat) (s : vdec_thread_t)
    (n : Int) (hL : lateStream env T0) (hpts : s.pts ≤ T0) (hn : 0 ≤ n) :
    ∃ s1 ev, decodeOnce env draw (fuel + 1) s n = some (s1, ev, none) ∧
      s1.i_frame_late = s.i_frame_late + 1 ∧
      (published ev).length = (if draw = true then 1 else 0) := by
  obtain ⟨hdec, hv, hp, hclock, -⟩ := hL
  obtain ⟨r1, r2, r3, r4, r5, r6⟩ := hdec s.n_decode s.p_context s.p_buffer n
  have hcf := consumed_frame s (env.avcodec_decode_video s.n_decode s.p_context s.p_buffer n) n
  have hfr := updateFrameLate_frame env (countPicture (consume (afterDecode s
        (env.avcodec_decode_video s.n_decode s.p_context s.p_buffer n)) n
        (env.avcodec_decode_video s.n_decode s.p_context s.p_buffer n).i_used)
        (env.avcodec_decode_video s.n_decode s.p_context s.p_buffer n).b_gotpicture)
  have hex : ∃ s1 ev, decodeOnce env draw (fuel + 1) s n = some (s1, ev, none) ∧
      (published ev).length = (if draw = true then 1 else 0) := by
    unfold decodeOnce
    simp only
    rw [if_neg (by omega)]
    generalize (countPicture (consume (afterDecode s
        (env.avcodec_decode_video s.n_decode s.p_context s.p_buffer n)) n
        (env.avcodec_decode_video s.n_decode s.p_context s.p_buffer n).i_used)
        (env.avcodec_decode_video s.n_decode s.p_context s.p_buffer n).b_gotpicture) = c
      at hfr hcf
    have e1 : (updateFrameLate env c).1.p_ff_pic =
        (env.avcodec_decode_video s.n_decode s.p_context s.p_buffer n).frame := by
      rw [hfr, hcf]
    have e2 : (updateFrameLate env c).1.p_context.width =
        (env.avcodec_decode_video s.n_decode s.p_context s.p_buffer n).width := by
      rw [hfr, hcf]
      rfl
    have e3 : (updateFrameLate env c).1.p_context.height =
        (env.avcodec_decode_video s.n_decode s.p_context s.p_buffer n).height := by
      rw [hfr, hcf]
      rfl
    cases draw with
    | false =>
      rw [if_pos (Or.inr (Or.inr rfl))]
      refine ⟨_, _, rfl, ?_⟩
      rw [updateFrameLate_event]
      rfl
    | true =>
      have hne : ¬ ((env.avcodec_decode_video s.n_decode s.p_context s.p_buffer n).b_gotpicture
          = false ∨ (updateFrameLate env c).1.p_ff_pic.linesize 0 = 0 ∨ true = false) := by
        rw [e1, r2]
        simp [r3]
      rw [if_neg hne]
      obtain ⟨s3, pic, hgp⟩ := getPicture_some env fuel (updateFrameLate env c).1 hv hp
        (by rw [e2]; exact r4) (by rw [e3]; exact r5) (by rw [e1]; exact r6)
      rw [hgp]
      simp only
      have hz : ¬ n - (env.avcodec_decode_video s.n_decode s.p_context s.p_buffer n).i_used > 0 := by
        omega
      rw [if_neg hz]
      refine ⟨_, _, rfl, ?_⟩
      rw [updateFrameLate_event]
      rfl
  obtain ⟨s1, ev, h, hpub⟩ := hex
  refine ⟨s1, ev, h, ?_, hpub⟩
  have he := decodeOnce_events env draw (fuel + 1) s s1 n ev none h
  simp only at he
  rcases he with ⟨hneg, -⟩ | ⟨-, -, hrule, -⟩
  · omega
  · rcases hrule with ⟨-, h2⟩ | ⟨h1, -⟩
    · exact h2
    · have := hclock s.n_mdate
      omega


theorem readPES_pts (env : Env) (s : vdec_thread_t) (p_pes : pes_packet_t) :
    (readPES env s p_pes).1.pts = if p_pes.i_pts ≠ 0 then p_pes.i_pts else s.pts := by
  unfold readPES
  simp only
  split
  · rw [appendPES_frame]
    split <;> rfl
  · split <;> rfl

theorem readPES_size_pos (env : Env) (s : vdec_thread_t) (p_pes : pes_packet_t)
    (hsz : 0 < p_pes.i_pes_size) (hp : p_pes.payload ≠ []) : 0 < (readPES env s p_pes).2 := by
  obtain ⟨s1, hr, -, -, -⟩ := readPES_append env s p_pes hsz
  rw [hr, appendPES_size, List.length_take]
  have h1 : 0 < p_pes.payload.length := List.length_pos.2 hp
  have h2 : 0 < p_pes.i_pes_size.toNat := by omega
  have h3 : 0 < min p_pes.i_pes_size.toNat p_pes.payload.length := lt_min h2 h1
  exact_mod_cast h3

theorem usenextdata_one_pass (env : Env) (draw : Bool) (fuel : Nat) (s s1 : vdec_thread_t)
    (n : Int) (ev : List Event) (h : decodeOnce env draw (fuel + 1) s n = some (s1, ev, none)) :
    usenextdata env draw (fuel + 1) s n = some (s1, ev) := by
  unfold usenextdata
  rw [h]

/-- In a late and drawable stream, with a packet that has bytes waiting, the
part of a call after the hurry-up gate decodes that packet, counts one more
late frame and displays one picture when drawing is allowed, none when it is
not. -/
theorem resyncThenDecode_late (env : Env) (T0 : Int) (draw : Bool) (fuel : Nat)
    (s : vdec_thread_t) (p : pes_packet_t) (rest : List pes_packet_t)
    (hL : lateStream env T0) (hpts : s.pts ≤ T0) (hbuf : 0 ≤ s.i_buffer)
    (hfifo : s.fifo = p :: rest) (hsz : 0 < p.i_pes_size) (hpl : p.payload ≠ [])
    (hpp : p.i_pts ≤ T0) (hc0 : 0 ≤ s.i_frame_late)
    (hstart : 0 < s.i_frame_late → ∀ n, env.mdate n - s.i_frame_late_start ≤ 5000000) :
    ∃ s1 ev, resyncThenDecode env draw (fuel + 1) s = some (s1, ev) ∧
      s1.b_hurry_up = s.b_hurry_up ∧ s1.i_frame_late = s.i_frame_late + 1 ∧ s1.pts ≤ T0 ∧
      s1.i_buffer = 0 ∧ s1.fifo = rest ∧
      (∀ n, env.mdate n - s1.i_frame_late_start ≤ 5000000) ∧
      (published ev).length = (if draw = true then 1 else 0) := by
  have key : ∀ s0 : vdec_thread_t, s0.pts = s.pts → s0.i_buffer = s.i_buffer →
      s0.fifo = s.fifo → s0.b_hurry_up = s.b_hurry_up → s0.i_frame_late = s.i_frame_late →
      s0.i_frame_late_start = s.i_frame_late_start →
      ∃ s1 ev, decodePacket env draw (fuel + 1) s0 = some (s1, ev) ∧
        s1.b_hurry_up = s.b_hurry_up ∧ s1.i_frame_late = s.i_frame_late + 1 ∧ s1.pts ≤ T0 ∧
        s1.i_buffer = 0 ∧ s1.fifo = rest ∧
        (∀ n, env.mdate n - s1.i_frame_late_start ≤ 5000000) ∧
        (published ev).length = (if draw = true then 1 else 0) := by
    intro s0 k1 k2 k3 k4 k5 k6
    unfold decodePacket
    simp only
    generalize hs9 : (if s0.p_context.width = 0 ∨ s0.p_context.height = 0 then
        { s0 with p_context := { s0.p_context with hurry_up := 5 } } else s0) = s9
    have j1 : s9.pts = s.pts := by
      rw [← hs9, ← k1]
      split <;> rfl
    have j2 : s9.i_buffer = s.i_buffer := by
      rw [← hs9, ← k2]
      split <;> rfl
    have j3 : s9.fifo = p :: rest := by
      rw [← hs9, ← hfifo, ← k3]
      split <;> rfl
    have j4 : s9.b_hurry_up = s.b_hurry_up := by
      rw [← hs9, ← k4]
      split <;> rfl
    have j5 : s9.i_frame_late = s.i_frame_late := by
      rw [← hs9, ← k5]
      split <;> rfl
    have j6 : s9.i_frame_late_start = s.i_frame_late_start := by
      rw [← hs9, ← k6]
      split <;> rfl
    have hpos := readPES_size_pos env s9 p hsz hpl
    have hfetch : fetchLoop env s9.fifo s9 =
        ({ (readPES env s9 p).1 with fifo := rest },
         [Event.extractPES (some p), Event.deletePES p], some (readPES env s9 p).2) := by
      rw [j3]
      unfold fetchLoop
      rw [if_neg (by omega)]
    have hrf := readPES_frame env s9 p
    have hrp := readPES_pts env s9 p
    rcases hres : fetchLoop env s9.fifo s9 with ⟨s2, ev0, r⟩
    rw [hres] at hfetch
    simp only [Prod.mk.injEq] at hfetch
    obtain ⟨hs2, hev0, hr⟩ := hfetch
    subst hr hev0
    simp only
    have m1 : s2.pts ≤ T0 := by
      rw [hs2]
      simp only
      rw [hrp]
      split
      · exact hpp
      · rw [j1]
        exact hpts
    have m2 : s2.i_buffer = s.i_buffer := by rw [hs2, ← j2, hrf]
    have m3 : s2.fifo = rest := by rw [hs2]
    have m4 : s2.b_hurry_up = s.b_hurry_up := by rw [hs2, ← j4, hrf]
    have m5 : s2.i_frame_late = s.i_frame_late := by rw [hs2, ← j5, hrf]
    have m6 : s2.i_frame_late_start = s.i_frame_late_start := by rw [hs2, ← j6, hrf]
    obtain ⟨s3, ev, hd, hl, hpub⟩ := decodeOnce_late env T0 draw fuel s2
      ((readPES env s9 p).2 + s2.i_buffer) hL m1 (by omega)
    rw [usenextdata_one_pass env draw fuel s2 s3 _ ev hd]
    obtain ⟨q1, q2, q3, q4, q5⟩ := decodeOnce_frame env draw (fuel + 1) s2 s3 _ ev none hd
    have hused := (hL.1 s2.n_decode s2.p_context s2.p_buffer
      ((readPES env s9 p).2 + s2.i_buffer)).1
    refine ⟨_, _, rfl, by rw [q1, m4], by rw [hl, m5], by rw [q3]; exact m1, ?_, by rw [q2, m3],
      ?_, ?_⟩
    · apply q4
      rw [hused]
    · intro n
      rcases q5 with ⟨q5, q6⟩ | ⟨k, q5⟩
      · have hne : s3.i_frame_late ≠ 1 := q6 (by rw [hused]; omega)
        rw [q5, m6]
        apply hstart _ n
        rw [hl, m5] at hne
        omega
      · rw [q5]
        exact hL.2.2.2.2 n k
    · simp only [published_append, published, List.nil_append]
      exact hpub
  unfold resyncThenDecode
  split
  · rename_i hlate
    simp only
    have hnot : ¬ env.mdate s.n_mdate - s.i_frame_late_start > 5000000 := by
      have := hstart hlate s.n_mdate
      omega
    rw [if_neg hnot]
    exact key _ rfl rfl rfl rfl rfl rfl
  · exact key s rfl rfl rfl rfl rfl rfl

/-- In a late and drawable stream, with hurry-up enabled, a count `c` with
`0 ≤ c < 8` and a packet that has bytes waiting, a call decodes the packet,
takes the count to `c + 1`, and displays one picture when `c ≤ 4` and none
when `c > 4`. -/
theorem call_late (env : Env) (T0 : Int) (fuel : Nat)
    (s : vdec_thread_t) (p : pes_packet_t) (rest : List pes_packet_t)
    (hL : lateStream env T0) (hh : s.b_hurry_up = true)
    (hc0 : 0 ≤ s.i_frame_late) (hc8 : s.i_frame_late < 8)
    (hpts : s.pts ≤ T0) (hbuf : 0 ≤ s.i_buffer)
    (hfifo : s.fifo = p :: rest)
    (hp : 0 < p.i_pes_size ∧ p.payload ≠ [] ∧ p.i_pts ≤ T0)
    (hstart : 0 < s.i_frame_late → ∀ n, env.mdate n - s.i_frame_late_start ≤ 5000000) :
    ∃ s1 ev, DecodeThread_Video env (fuel + 1) s = some (s1, ev) ∧
      s1.b_hurry_up = true ∧ s1.i_frame_late = s.i_frame_late + 1 ∧ s1.pts ≤ T0 ∧
      0 ≤ s1.i_buffer ∧ s1.fifo = rest ∧
      (0 < s1.i_frame_late → ∀ n, env.mdate n - s1.i_frame_late_start ≤ 5000000) ∧
      (published ev).length = (if s.i_frame_late ≤ 4 then 1 else 0) := by
  unfold DecodeThread_Video
  by_cases h4 : s.i_frame_late > 4
  · rw [if_pos ⟨hh, h4⟩, if_pos hc8]
    obtain ⟨s1, ev, h, a1, a2, a3, a4, a5, a6, a7⟩ := resyncThenDecode_late env T0 false fuel
      { s with p_context := { s.p_context with hurry_up := 2 } } p rest hL hpts hbuf hfifo
      hp.1 hp.2.1 hp.2.2 hc0 hstart
    refine ⟨s1, ev, h, by rw [a1]; exact hh, a2, a3, by rw [a4], a5, fun _ => a6, ?_⟩
    rw [a7, if_neg (not_le.2 h4)]
    rfl
  · rw [if_neg (fun hc => h4 hc.2)]
    obtain ⟨s1, ev, h, a1, a2, a3, a4, a5, a6, a7⟩ := resyncThenDecode_late env T0 true fuel
      { s with p_context := { s.p_context with hurry_up := 0 } } p rest hL hpts hbuf hfifo
      hp.1 hp.2.1 hp.2.2 hc0 hstart
    refine ⟨s1, ev, h, by rw [a1]; exact hh, a2, a3, by rw [a4], a5, fun _ => a6, ?_⟩
    rw [a7, if_pos (le_of_not_lt h4)]
    rfl

theorem runCalls_step (env : Env) (fuel k : Nat) (s s1 : vdec_thread_t) (ev : List Event)
    (l : List (List Int)) (h : DecodeThread_Video env fuel s = some (s1, ev))
    (hr : runCalls env fuel k s1 = some l) :
    runCalls env fuel (k + 1) s = some (published ev :: l) := by
  unfold runCalls
  rw [h]
  simp only
  rw [hr]
  rfl

/-- C7 (as amended): with hurry-up enabled and the consecutive-late count
starting at zero, when six consecutive calls of `DecodeThread_Video` each
decode one late frame, each of the calls 1 to 5 publishes its frame and the
call 6 publishes none. -/
theorem six_late_frames (env : Env) (T0 : Int) (fuel : Nat) (s : vdec_thread_t)
    (p1 p2 p3 p4 p5 p6 : pes_packet_t) (rest : List pes_packet_t)
    (hL : lateStream env T0) (hh : s.b_hurry_up = true) (hl : s.i_frame_late = 0)
    (hpts : s.pts ≤ T0) (hbuf : 0 ≤ s.i_buffer)
    (hfifo : s.fifo = p1 :: p2 :: p3 :: p4 :: p5 :: p6 :: rest)
    (hp : ∀ p ∈ [p1, p2, p3, p4, p5, p6], 0 < p.i_pes_size ∧ p.payload ≠ [] ∧ p.i_pts ≤ T0) :
    ∃ d1 d2 d3 d4 d5,
      runCalls env (fuel + 1) 6 s = some [[d1], [d2], [d3], [d4], [d5], []] := by
  obtain ⟨s1, ev1, r1, a1, b1, c1, e1, f1, g1, k1⟩ := call_late env T0 fuel s p1 _ hL hh
    (by omega) (by omega) hpts hbuf hfifo (hp p1 (by simp)) (fun hc => by omega)
  obtain ⟨s2, ev2, r2, a2, b2, c2, e2, f2, g2, k2⟩ := call_late env T0 fuel s1 p2 _ hL a1
    (by omega) (by omega) c1 e1 f1 (hp p2 (by simp)) g1
  obtain ⟨s3, ev3, r3, a3, b3, c3, e3, f3, g3, k3⟩ := call_late env T0 fuel s2 p3 _ hL a2
    (by omega) (by omega) c2 e2 f2 (hp p3 (by simp)) g2
  obtain ⟨s4, ev4, r4, a4, b4, c4, e4, f4, g4, k4⟩ := call_late env T0 fuel s3 p4 _ hL a3
    (by omega) (by omega) c3 e3 f3 (hp p4 (by simp)) g3
  obtain ⟨s5, ev5, r5, a5, b5, c5, e5, f5, g5, k5⟩ := call_late env T0 fuel s4 p5 _ hL a4
    (by omega) (by omega) c4 e4 f4 (hp p5 (by simp)) g4
  obtain ⟨s6, ev6, r6, a6, b6, c6, e6, f6, g6, k6⟩ := call_late env T0 fuel s5 p6 _ hL a5
    (by omega) (by omega) c5 e5 f5 (hp p6 (by simp)) g5
  rw [if_pos (by omega)] at k1 k2 k3 k4 k5
  rw [if_neg (by omega)] at k6
  obtain ⟨d1, hd1⟩ := List.length_eq_one.1 k1
  obtain ⟨d2, hd2⟩ := List.length_eq_one.1 k2
  obtain ⟨d3, hd3⟩ := List.length_eq_one.1 k3
  obtain ⟨d4, hd4⟩ := List.length_eq_one.1 k4
  obtain ⟨d5, hd5⟩ := List.length_eq_one.1 k5
  have hd6 : published ev6 = [] := List.length_eq_zero.1 k6
  refine ⟨d1, d2, d3, d4, d5, ?_⟩
  have h0 : runCalls env (fuel + 1) 0 s6 = some [] := rfl
  have h6 := runCalls_step env (fuel + 1) 0 s5 s6 ev6 _ r6 h0
  have h5 := runCalls_step env (fuel + 1) 1 s4 s5 ev5 _ r5 h6
  have h4 := runCalls_step env (fuel + 1) 2 s3 s4 ev4 _ r4 h5
  have h3 := runCalls_step env (fuel + 1) 3 s2 s3 ev3 _ r3 h4
  have h2 := runCalls_step env (fuel + 1) 4 s1 s2 ev2 _ r2 h3
  have h1 := runCalls_step env (fuel + 1) 5 s s1 ev1 _ r1 h2
  rw [hd1, hd2, hd3, hd4, hd5, hd6] at h1
  exact h1


theorem lateStream_codecAll : lateStream (env0 1 (fun _ => 5000) codecAll) 5000 :=
  ⟨fun _ _ _ _ =>
      ⟨rfl, rfl, show (4 : Int) ≠ 0 by decide, show (16 : Int) ≠ 0 by decide,
        show (16 : Int) ≠ 0 by decide, rfl⟩,
    fun _ _ _ _ => rfl, fun _ => rfl, fun _ => le_refl _,
    fun _ _ => show (5000 : Int) - 5000 ≤ 5000000 by decide⟩

/-- C7, a run the theorem applies to: six packets stamped 1000 to 1200 while
the clock reads 5000. -/
theorem six_late_frames_witness :
    ∃ d1 d2 d3 d4 d5,
      runCalls (env0 1 (fun _ => 5000) codecAll) (0 + 1) 6 (thread0 true sixPackets) =
        some [[d1], [d2], [d3], [d4], [d5], []] :=
  six_late_frames (env0 1 (fun _ => 5000) codecAll) 5000 0 (thread0 true sixPackets)
    (packetAt 1000) (packetAt 1040) (packetAt 1080) (packetAt 1120) (packetAt 1160)
    (packetAt 1200) [] lateStream_codecAll rfl rfl (by decide) (by decide) rfl
    (by
      intro p hp
      simp only [List.mem_cons, List.mem_singleton, List.mem_nil_iff, or_false] at hp
      rcases hp with rfl | rfl | rfl | rfl | rfl | rfl <;> decide)

/-- C7 as stated fails: with hurry-up enabled and the count starting at zero,
six packets stamped 1000 to 1200 are decoded by six calls while the clock
reads 5000, so all six frames are late; the fifth call still publishes its
frame, dated 1160, and only the sixth call publishes nothing. -/
theorem six_late_frames_counterexample :
    sixPackets.map (fun p => p.i_pts) = [1000, 1040, 1080, 1120, 1160, 1200] ∧
    runCalls (env0 1 (fun _ => 5000) codecAll) 1 6 (thread0 true sixPackets) =
      some [[1000], [1040], [1080], [1120], [1160], []] := by
  decide


/-! ## C13: formats that cannot be copied -/

/-- C13: `ffmpeg_CopyPicture` sets the error flag of the stream for every
pixel format that has neither a native chroma (`ffmpeg_PixFmtToChroma` gives
0) nor a conversion (it is not YUV410P or YUV411P), and leaves the thread,
the error flag included, as it was for every format that has a native chroma
or a conversion. -/
theorem unsupported_format (env : Env) (p_pic : picture_t) (p_ff_pic : AVFrame)
    (s : vdec_thread_t) :
    ((ffmpeg_PixFmtToChroma s.p_context.pix_fmt = 0 ∧ s.p_context.pix_fmt ≠ PixFmt.YUV410P ∧
        s.p_context.pix_fmt ≠ PixFmt.YUV411P) →
      (ffmpeg_CopyPicture env p_pic p_ff_pic s).1.b_error = true) ∧
    ((ffmpeg_PixFmtToChroma s.p_context.pix_fmt ≠ 0 ∨ s.p_context.pix_fmt = PixFmt.YUV410P ∨
        s.p_context.pix_fmt = PixFmt.YUV411P) →
      (ffmpeg_CopyPicture env p_pic p_ff_pic s).1 = s) := by
  constructor
  · rintro ⟨h0, h1, h2⟩
    unfold ffmpeg_CopyPicture
    rw [if_neg (by simp [h0])]
    split
    · rename_i h
      exact absurd h h1
    · rename_i h
      exact absurd h h2
    · rfl
  · intro h
    unfold ffmpeg_CopyPicture
    split
    · split <;> rfl
    · rename_i hz
      split
      · rfl
      · rfl
      · rename_i h1 h2
        rcases h with h | h | h
        · exact absurd h hz
        · exact absurd h h1
        · exact absurd h h2


/-! ## C12: the plain copy of a picture -/

/-- A byte outside every row the loop writes is left as it was. -/
theorem copyLines_outside (i_size ss ds : Int) (p_src : Mem) (n : Nat) (so d0 : Int)
    (p_dst : Mem) (a : Int)
    (h : ∀ r : Nat, r < n → ¬ (d0 + r * ds ≤ a ∧ a < d0 + r * ds + i_size)) :
    copyLines i_size ss ds p_src n so d0 p_dst a = p_dst a := by
  induction n generalizing so d0 p_dst with
  | zero => rfl
  | succ k ih =>
    unfold copyLines
    rw [ih]
    · unfold memcpy
      have h0 := h 0 (Nat.succ_pos k)
      simp only [Nat.cast_zero, zero_mul, add_zero] at h0
      rw [if_neg h0]
    · intro r hr
      have h1 := h (r + 1) (Nat.succ_lt_succ hr)
      push_cast at h1
      intro hc
      apply h1
      constructor
      · linarith [hc.1]
      · linarith [hc.2]

/-- The byte at column `c` of the row `r` the loop writes is the byte at
column `c` of the row `r` of the source, when the copy width is at most the
destination stride. -/
theorem copyLines_row (i_size ss ds : Int) (p_src : Mem) (n : Nat) (so d0 : Int)
    (p_dst : Mem) (r : Nat) (c : Int) (hr : r < n) (hc0 : 0 ≤ c) (hc : c < i_size)
    (hs : i_size ≤ ds) :
    copyLines i_size ss ds p_src n so d0 p_dst (d0 + r * ds + c) = p_src (so + r * ss + c) := by
  induction n generalizing so d0 p_dst r with
  | zero => omega
  | succ k ih =>
    unfold copyLines
    cases r with
    | zero =>
      rw [copyLines_outside]
      · unfold memcpy
        simp only [Nat.cast_zero, zero_mul, add_zero]
        rw [if_pos ⟨by omega, by omega⟩]
        congr 1
        omega
      · intro q _
        simp only [Nat.cast_zero, zero_mul, add_zero]
        have hq : (0 : Int) ≤ (q : Int) * ds := by
          apply mul_nonneg
          · exact Int.natCast_nonneg q
          · omega
        intro hcon
        linarith [hcon.1]
    | succ j =>
      have := ih (so + ss) (d0 + ds) (memcpy p_dst d0 p_src so i_size) j (Nat.lt_of_succ_lt_succ hr)
      have e1 : d0 + ((j + 1 : Nat) : Int) * ds + c = d0 + ds + (j : Int) * ds + c := by
        push_cast
        ring
      have e2 : so + ((j + 1 : Nat) : Int) * ss + c = so + ss + (j : Int) * ss + c := by
        push_cast
        ring
      rw [e1, e2]
      exact this


/-- The bytes of a row from the copy width to the destination stride are left
as they were. -/
theorem copyLines_pad (i_size ss ds : Int) (p_src : Mem) (n : Nat) (so d0 : Int)
    (p_dst : Mem) (r : Nat) (c : Int) (hc0 : 0 ≤ c) (hc : i_size ≤ c) (hd : c < ds) :
    copyLines i_size ss ds p_src n so d0 p_dst (d0 + r * ds + c) = p_dst (d0 + r * ds + c) := by
  apply copyLines_outside
  intro q _ hcon
  obtain ⟨h1, h2⟩ := hcon
  rcases Nat.lt_or_ge r q with hlt | hge
  · obtain ⟨t, rfl⟩ := Nat.exists_eq_add_of_lt hlt
    have ht : (0 : Int) ≤ (t : Int) * ds := mul_nonneg (Int.natCast_nonneg t) (by omega)
    have e : ((r + t + 1 : Nat) : Int) * ds = (r : Int) * ds + (t : Int) * ds + ds := by
      push_cast
      ring
    rw [e] at h1
    linarith
  · obtain ⟨t, rfl⟩ := Nat.exists_eq_add_of_le hge
    have ht : (0 : Int) ≤ (t : Int) * ds := mul_nonneg (Int.natCast_nonneg t) (by omega)
    have e : ((q + t : Nat) : Int) * ds = (q : Int) * ds + (t : Int) * ds := by
      push_cast
      ring
    rw [e] at h2
    linarith

theorem copyPlanes_other (f : AVFrame) (n i0 : Nat) (P : Nat → plane_t) (p : Nat)
    (h : p < i0 ∨ i0 + n ≤ p) : copyPlanes f n i0 P p = P p := by
  induction n generalizing i0 P with
  | zero => rfl
  | succ k ih =>
    unfold copyPlanes
    simp only
    rw [ih]
    · rw [if_neg (by omega)]
    · omega

/-- The plane loop leaves in plane `p` the rows the row loop copied into the
plane as it was before the loop, and keeps its pitch and line count. -/
theorem copyPlanes_at (f : AVFrame) (n i0 : Nat) (P : Nat → plane_t) (p : Nat)
    (h0 : i0 ≤ p) (h1 : p < i0 + n) :
    copyPlanes f n i0 P p =
      { P p with
        p_pixels :=
          match f.data p with
          | some p_src =>
            copyLines (min (f.linesize p) (P p).i_pitch) (f.linesize p) (P p).i_pitch p_src
              (P p).i_lines.toNat 0 0 (P p).p_pixels
          | none => (P p).p_pixels } := by
  induction n generalizing i0 P with
  | zero => omega
  | succ k ih =>
    unfold copyPlanes
    simp only
    rcases Nat.eq_or_lt_of_le h0 with rfl | hlt
    · rw [copyPlanes_other _ _ _ _ _ (Or.inl (Nat.lt_succ_self _))]
      rw [if_pos rfl]
    · rw [ih (i0 + 1) _ hlt (by omega)]
      rw [if_neg (by omega)]

/-- C12: for a decoded frame in a natively supported pixel format with no
post-processing active, `ffmpeg_CopyPicture` copies every plane row by row
with the copy width `min(source stride, destination stride)`: for each plane
`p` below the plane count with a source plane, each row `r` below the line
count of the plane and each column `c ≥ 0`, the destination byte at
`r * dst_stride + c` is the source byte at `r * src_stride + c` when `c` is
below the copy width, and is left unchanged when `c` is at or beyond the copy
width and below the destination stride; pitch and line count are kept. -/
theorem plain_copy (env : Env) (p_pic : picture_t) (p_ff_pic : AVFrame) (s : vdec_thread_t)
    (p r : Nat) (c : Int) (p_src : Mem)
    (hn : ffmpeg_PixFmtToChroma s.p_context.pix_fmt ≠ 0)
    (hpp : ¬ (env.LIBAVCODEC_PP = true ∧ s.pp_mode = true ∧ s.pp_context = true))
    (hp : (p : Int) < p_pic.i_planes) (hsrc : p_ff_pic.data p = some p_src)
    (hr : (r : Int) < (p_pic.p p).i_lines) (hc0 : 0 ≤ c) :
    ((ffmpeg_CopyPicture env p_pic p_ff_pic s).2.p p).i_pitch = (p_pic.p p).i_pitch ∧
    ((ffmpeg_CopyPicture env p_pic p_ff_pic s).2.p p).i_lines = (p_pic.p p).i_lines ∧
    (c < min (p_ff_pic.linesize p) (p_pic.p p).i_pitch →
      ((ffmpeg_CopyPicture env p_pic p_ff_pic s).2.p p).p_pixels (r * (p_pic.p p).i_pitch + c) =
        p_src (r * p_ff_pic.linesize p + c)) ∧
    (min (p_ff_pic.linesize p) (p_pic.p p).i_pitch ≤ c → c < (p_pic.p p).i_pitch →
      ((ffmpeg_CopyPicture env p_pic p_ff_pic s).2.p p).p_pixels (r * (p_pic.p p).i_pitch + c) =
        (p_pic.p p).p_pixels (r * (p_pic.p p).i_pitch + c)) := by
  have hout : (ffmpeg_CopyPicture env p_pic p_ff_pic s).2.p p =
      { p_pic.p p with
        p_pixels :=
          copyLines (min (p_ff_pic.linesize p) (p_pic.p p).i_pitch) (p_ff_pic.linesize p)
            (p_pic.p p).i_pitch p_src (p_pic.p p).i_lines.toNat 0 0 (p_pic.p p).p_pixels } := by
    unfold ffmpeg_CopyPicture
    rw [if_pos hn, if_neg hpp]
    simp only
    rw [copyPlanes_at _ _ _ _ _ (Nat.zero_le p) (by omega), hsrc]
  rw [hout]
  have hr2 : r < (p_pic.p p).i_lines.toNat := by omega
  refine ⟨rfl, rfl, ?_, ?_⟩
  · intro hc
    have := copyLines_row (min (p_ff_pic.linesize p) (p_pic.p p).i_pitch) (p_ff_pic.linesize p)
      (p_pic.p p).i_pitch p_src (p_pic.p p).i_lines.toNat 0 0 (p_pic.p p).p_pixels r c hr2 hc0 hc
      (min_le_right _ _)
    simp only [zero_add] at this
    exact this
  · intro hc hd
    have := copyLines_pad (min (p_ff_pic.linesize p) (p_pic.p p).i_pitch) (p_ff_pic.linesize p)
      (p_pic.p p).i_pitch p_src (p_pic.p p).i_lines.toNat 0 0 (p_pic.p p).p_pixels r c hc0 hc hd
    simp only [zero_add] at this
    exact this


/-- C12, a copy the theorem applies to: a frame with rows of six bytes copied
into a picture with rows of four bytes; in plane 1 the byte at column 2 of
row 1 of the picture, offset 6, is the byte at offset 8 of the frame. -/
theorem plain_copy_witness :
    (((ffmpeg_CopyPicture (env0 1 (fun _ => 0) (codec0 1 25)) (picture0 0) frameRamp
          (thread0 false [])).2.p 1).i_pitch = ((picture0 0).p 1).i_pitch ∧
      ((ffmpeg_CopyPicture (env0 1 (fun _ => 0) (codec0 1 25)) (picture0 0) frameRamp
          (thread0 false [])).2.p 1).i_lines = ((picture0 0).p 1).i_lines ∧
      ((2 : Int) < min (frameRamp.linesize 1) ((picture0 0).p 1).i_pitch →
        ((ffmpeg_CopyPicture (env0 1 (fun _ => 0) (codec0 1 25)) (picture0 0) frameRamp
            (thread0 false [])).2.p 1).p_pixels (((1 : Nat) : Int) * ((picture0 0).p 1).i_pitch + 2) =
          (fun a : Int => (a % 251).toNat) (((1 : Nat) : Int) * frameRamp.linesize 1 + 2)) ∧
      (min (frameRamp.linesize 1) ((picture0 0).p 1).i_pitch ≤ 2 → (2 : Int) < ((picture0 0).p 1).i_pitch →
        ((ffmpeg_CopyPicture (env0 1 (fun _ => 0) (codec0 1 25)) (picture0 0) frameRamp
            (thread0 false [])).2.p 1).p_pixels (((1 : Nat) : Int) * ((picture0 0).p 1).i_pitch + 2) =
          ((picture0 0).p 1).p_pixels (((1 : Nat) : Int) * ((picture0 0).p 1).i_pitch + 2))) ∧
    ((ffmpeg_CopyPicture (env0 1 (fun _ => 0) (codec0 1 25)) (picture0 0) frameRamp
        (thread0 false [])).2.p 1).p_pixels 6 = 8 :=
  ⟨plain_copy (env0 1 (fun _ => 0) (codec0 1 25)) (picture0 0) frameRamp (thread0 false [])
      1 1 2 (fun a : Int => (a % 251).toNat) (by decide) (by decide) (by decide) rfl (by decide)
      (by decide),
    by decide⟩


/-! ## C15: the drain loop ends -/

theorem waitPicture_succ (env : Env) (k : Nat) (s : vdec_thread_t)
    (r : vdec_thread_t × Option picture_t) (h : waitPicture env k s = some r) :
    waitPicture env (k + 1) s = some r := by
  induction k generalizing s with
  | zero => simp [waitPicture] at h
  | succ j ih =>
    unfold waitPicture at h ⊢
    split
    · rename_i pic hp
      rw [hp] at h
      exact h
    · rename_i hp
      rw [hp] at h
      simp only at h
      split
      · rename_i hc
        rw [if_pos hc] at h
        exact h
      · rename_i hc
        rw [if_neg hc] at h
        exact ih _ h

theorem waitPicture_mono (env : Env) (k m : Nat) (s : vdec_thread_t)
    (h : (waitPicture env k s).isSome = true) : (waitPicture env (k + m) s).isSome = true := by
  induction m with
  | zero => exact h
  | succ j ih =>
    obtain ⟨r, hr⟩ := Option.isSome_iff_exists.1 ih
    rw [← Nat.add_assoc, waitPicture_succ env (k + j) s r hr]
    rfl

theorem getPicture_returns (env : Env) (fuel : Nat) (s : vdec_thread_t)
    (h : ∀ x, (waitPicture env fuel x).isSome = true) :
    (getPicture env fuel s).isSome = true := by
  unfold getPicture
  split
  · simp only
    split
    · rfl
    · rename_i vout _
      obtain ⟨r, hr⟩ := Option.isSome_iff_exists.1
        (h { (ffmpeg_CreateVout env s).1 with p_vout := some vout })
      rw [hr]
      obtain ⟨s1, o⟩ := r
      cases o <;> rfl
  · rfl

theorem decodeOnce_returns (env : Env) (draw : Bool) (fuel : Nat) (s : vdec_thread_t) (n : Int)
    (h : ∀ x, (waitPicture env fuel x).isSome = true) :
    (decodeOnce env draw fuel s n).isSome = true := by
  unfold decodeOnce
  simp only
  split
  · rfl
  · split
    · rfl
    · obtain ⟨r, hr⟩ := Option.isSome_iff_exists.1 (getPicture_returns env fuel
        (updateFrameLate env (countPicture (consume (afterDecode s
          (env.avcodec_decode_video s.n_decode s.p_context s.p_buffer n)) n
          (env.avcodec_decode_video s.n_decode s.p_context s.p_buffer n).i_used)
          (env.avcodec_decode_video s.n_decode s.p_context s.p_buffer n).b_gotpicture)).1 h)
      rw [hr]
      obtain ⟨s1, o⟩ := r
      cases o <;> rfl

/-- A pass ends in the `goto` only after a drawn frame, and with the bytes
left: the bytes handed to the codec minus the bytes it used, a positive
number. -/
theorem decodeOnce_goto (env : Env) (draw : Bool) (fuel : Nat) (s s1 : vdec_thread_t)
    (n left : Int) (ev : List Event)
    (h : decodeOnce env draw fuel s n = some (s1, ev, some left)) :
    (env.avcodec_decode_video s.n_decode s.p_context s.p_buffer n).b_gotpicture = true ∧
    (env.avcodec_decode_video s.n_decode s.p_context s.p_buffer n).frame.linesize 0 ≠ 0 ∧
    draw = true ∧
    left = n - (env.avcodec_decode_video s.n_decode s.p_context s.p_buffer n).i_used ∧
    0 < left := by
  have hcf := consumed_frame s (env.avcodec_decode_video s.n_decode s.p_context s.p_buffer n) n
  have hfr := updateFrameLate_frame env (countPicture (consume (afterDecode s
        (env.avcodec_decode_video s.n_decode s.p_context s.p_buffer n)) n
        (env.avcodec_decode_video s.n_decode s.p_context s.p_buffer n).i_used)
        (env.avcodec_decode_video s.n_decode s.p_context s.p_buffer n).b_gotpicture)
  unfold decodeOnce at h
  simp only at h
  generalize (countPicture (consume (afterDecode s
        (env.avcodec_decode_video s.n_decode s.p_context s.p_buffer n)) n
        (env.avcodec_decode_video s.n_decode s.p_context s.p_buffer n).i_used)
        (env.avcodec_decode_video s.n_decode s.p_context s.p_buffer n).b_gotpicture) = c
    at h hfr hcf
  have e1 : (updateFrameLate env c).1.p_ff_pic =
      (env.avcodec_decode_video s.n_decode s.p_context s.p_buffer n).frame := by
    rw [hfr, hcf]
  split at h
  · simp at h
  · split at h
    · simp at h
    · rename_i hc
      simp only [not_or, Bool.not_eq_false] at hc
      rw [e1] at hc
      split at h
      · simp at h
      · simp at h
      · simp only [Option.some.injEq, Prod.mk.injEq] at h
        obtain ⟨-, -, h3⟩ := h
        split at h3
        · rename_i hpos
          simp only [Option.some.injEq] at h3
          exact ⟨hc.1, hc.2.1, hc.2.2, h3.symm, by rw [← h3]; exact hpos⟩
        · simp at h3

theorem decoded_append (ev1 ev2 : List Event) :
    decoded (ev1 ++ ev2) = decoded ev1 ++ decoded ev2 := by
  induction ev1 with
  | nil => rfl
  | cons e ev1 ih =>
    rw [List.cons_append]
    cases e <;> simp [decoded, ih]

/-- The trace of a pass holds one codec call, on the bytes the pass was
entered with. -/
theorem decodeOnce_decoded (env : Env) (draw : Bool) (fuel : Nat) (s s1 : vdec_thread_t)
    (n : Int) (ev : List Event) (next : Option Int)
    (h : decodeOnce env draw fuel s n = some (s1, ev, next)) :
    decoded ev = [n] ∧ decodeCalls ev = 1 := by
  have he := decodeOnce_events env draw fuel s s1 n ev next h
  simp only at he
  rcases he with ⟨-, hev, -⟩ | ⟨-, -, -, ⟨hev, -⟩ | ⟨p_pic, t, -, -, hev, -⟩⟩
  · rw [hev]
    exact ⟨rfl, rfl⟩
  · rw [hev]
    exact ⟨rfl, rfl⟩
  · rw [hev]
    exact ⟨rfl, rfl⟩

/-- A strictly decreasing chain of positive integers below `L` has fewer than
`L` elements. -/
theorem chain_length (L : Int) (rest : List Int) (hL : 1 ≤ L)
    (hc : List.Chain (fun a b => b < a) L rest) (hp : ∀ x ∈ rest, 1 ≤ x) :
    (rest.length : Int) + 1 ≤ L := by
  induction rest generalizing L with
  | nil =>
    simp only [List.length_nil, Nat.cast_zero, zero_add]
    exact hL
  | cons x rest ih =>
    rw [List.chain_cons] at hc
    have h1 := ih x (hp x (List.mem_cons_self _ _)) hc.2
      (fun y hy => hp y (List.mem_cons_of_mem _ hy))
    simp only [List.length_cons, Nat.cast_add, Nat.cast_one]
    omega


/-- With enough fuel the drain loop returns, and the byte counts it hands to
the codec form a strictly decreasing chain of positive numbers that starts
with the count it was entered with. -/
theorem usenextdata_chain (env : Env) (draw : Bool) (W : Nat)
    (hused : ∀ n ctx buf sz, draw = true →
      (env.avcodec_decode_video n ctx buf sz).b_gotpicture = true →
      (env.avcodec_decode_video n ctx buf sz).frame.linesize 0 ≠ 0 →
      1 ≤ (env.avcodec_decode_video n ctx buf sz).i_used)
    (hwait : ∀ x, (waitPicture env W x).isSome = true)
    (fuel : Nat) (s : vdec_thread_t) (L : Int) (hL : 1 ≤ L) (hfuel : L.toNat + W ≤ fuel) :
    ∃ s1 ev rest, usenextdata env draw fuel s L = some (s1, ev) ∧
      decoded ev = L :: rest ∧ List.Chain (fun a b => b < a) L rest ∧
      (∀ x ∈ rest, 1 ≤ x) ∧ decodeCalls ev = rest.length + 1 := by
  induction fuel generalizing s L with
  | zero => omega
  | succ k ih =>
    have hw : ∀ x, (waitPicture env (k + 1) x).isSome = true := by
      intro x
      have e : k + 1 = W + (k + 1 - W) := by omega
      rw [e]
      exact waitPicture_mono env W _ x (hwait x)
    obtain ⟨r, hr⟩ := Option.isSome_iff_exists.1 (decodeOnce_returns env draw (k + 1) s L hw)
    obtain ⟨s2, ev, next⟩ := r
    obtain ⟨d1, d2⟩ := decodeOnce_decoded env draw (k + 1) s s2 L ev next hr
    unfold usenextdata
    rw [hr]
    cases next with
    | none =>
      refine ⟨s2, ev, [], rfl, d1, List.Chain.nil, by simp, by rw [d2]; rfl⟩
    | some left =>
      obtain ⟨g1, g2, g3, g4, g5⟩ := decodeOnce_goto env draw (k + 1) s s2 L left ev hr
      have hu := hused s.n_decode s.p_context s.p_buffer L g3 g1 g2
      obtain ⟨s3, ev3, rest3, h3, e3, c3, p3, n3⟩ := ih s2 left (by omega) (by omega)
      simp only [h3]
      refine ⟨s3, ev ++ ev3, left :: rest3, rfl, ?_, ?_, ?_, ?_⟩
      · rw [decoded_append, d1, e3]
        rfl
      · exact List.Chain.cons (by omega) c3
      · intro x hx
        rcases List.mem_cons.1 hx with rfl | hx
        · omega
        · exact p3 x hx
      · rw [decodeCalls_append, d2, n3]
        simp only [List.length_cons]
        omega

/-- C15: in one call of `DecodeThread_Video`, provided every codec call that
yields a drawn frame uses at least one byte and every wait for a picture
returns (within `W` attempts), the drain loop entered with `L ≥ 1` buffered
bytes returns after at most `L` codec calls: the byte counts handed to the
codec are positive and strictly decrease from one pass to the next. -/
theorem drain_loop_terminates (env : Env) (draw : Bool) (W fuel : Nat) (s : vdec_thread_t)
    (L : Int) (hL : 1 ≤ L)
    (hused : ∀ n ctx buf sz, draw = true →
      (env.avcodec_decode_video n ctx buf sz).b_gotpicture = true →
      (env.avcodec_decode_video n ctx buf sz).frame.linesize 0 ≠ 0 →
      1 ≤ (env.avcodec_decode_video n ctx buf sz).i_used)
    (hwait : ∀ x, (waitPicture env W x).isSome = true)
    (hfuel : L.toNat + W ≤ fuel) :
    ∃ s1 ev rest, usenextdata env draw fuel s L = some (s1, ev) ∧
      decoded ev = L :: rest ∧ List.Chain (fun a b => b < a) L rest ∧
      (∀ x ∈ rest, 1 ≤ x) ∧
      1 ≤ decodeCalls ev ∧ (decodeCalls ev : Int) ≤ L := by
  obtain ⟨s1, ev, rest, h, e, c, p, n⟩ :=
    usenextdata_chain env draw W hused hwait fuel s L hL hfuel
  refine ⟨s1, ev, rest, h, e, c, p, by omega, ?_⟩
  have := chain_length L rest hL c p
  rw [n]
  push_cast
  exact this


theorem fifoOnly_decoded (ev : List Event) (h : fifoOnly ev = true) : decoded ev = [] := by
  induction ev with
  | nil => rfl
  | cons e ev ih =>
    cases e with
    | extractPES _ => exact ih h
    | deletePES _ => exact ih h
    | _ => simp [fifoOnly] at h

theorem decodePacket_returns (env : Env) (draw : Bool) (W : Nat)
    (hused : ∀ n ctx buf sz, draw = true →
      (env.avcodec_decode_video n ctx buf sz).b_gotpicture = true →
      (env.avcodec_decode_video n ctx buf sz).frame.linesize 0 ≠ 0 →
      1 ≤ (env.avcodec_decode_video n ctx buf sz).i_used)
    (hwait : ∀ x, (waitPicture env W x).isSome = true)
    (s : vdec_thread_t) (hb : 0 ≤ s.i_buffer) :
    ∃ fuel0, ∀ fuel, fuel0 ≤ fuel → ∃ s1 ev, decodePacket env draw fuel s = some (s1, ev) ∧
      (decodeCalls ev = 0 ∨
        ∃ L rest, decoded ev = L :: rest ∧ 1 ≤ L ∧ (decodeCalls ev : Int) ≤ L) := by
  unfold decodePacket
  simp only
  generalize hs0 : (if s.p_context.width = 0 ∨ s.p_context.height = 0 then
      { s with p_context := { s.p_context with hurry_up := 5 } } else s) = s0
  have hb0 : s0.i_buffer = s.i_buffer := by
    rw [← hs0]
    split <;> rfl
  obtain ⟨f1, -, f3⟩ := fetchLoop_spec env s0.fifo s0
  have hfr := fetchLoop_frame env s0.fifo s0
  rcases hres : fetchLoop env s0.fifo s0 with ⟨s2, ev, r⟩
  rw [hres] at f1 f3 hfr
  simp only at f1 f3 hfr
  cases r with
  | none =>
    exact ⟨0, fun fuel _ => ⟨_, _, rfl, Or.inl (fifoOnly_silent ev f1).2⟩⟩
  | some n =>
    have hn := (f3 n rfl).2
    have hb2 : s2.i_buffer = s.i_buffer := by rw [hfr, hb0]
    refine ⟨(n + s2.i_buffer).toNat + W, fun fuel hf => ?_⟩
    obtain ⟨s3, ev3, rest, h3, e3, c3, p3, n3⟩ := usenextdata_chain env draw W hused hwait fuel s2
      (n + s2.i_buffer) (by omega) hf
    simp only [h3]
    refine ⟨_, _, rfl, Or.inr ⟨n + s2.i_buffer, rest, ?_, by omega, ?_⟩⟩
    · rw [decoded_append, fifoOnly_decoded ev f1, e3]
      rfl
    · rw [decodeCalls_append, (fifoOnly_silent ev f1).2, n3]
      have := chain_length (n + s2.i_buffer) rest (by omega) c3 p3
      push_cast
      omega

/-- In every call that starts with a non-negative count of kept bytes, the
count handed to the first codec call is at least one, and with enough fuel
the call returns after at most that many codec calls. -/
theorem call_returns (env : Env) (W : Nat)
    (hused : ∀ n ctx buf sz,
      (env.avcodec_decode_video n ctx buf sz).b_gotpicture = true →
      (env.avcodec_decode_video n ctx buf sz).frame.linesize 0 ≠ 0 →
      1 ≤ (env.avcodec_decode_video n ctx buf sz).i_used)
    (hwait : ∀ x, (waitPicture env W x).isSome = true)
    (s : vdec_thread_t) (hb : 0 ≤ s.i_buffer) :
    ∃ fuel0, ∀ fuel, fuel0 ≤ fuel → ∃ s1 ev, DecodeThread_Video env fuel s = some (s1, ev) ∧
      (decodeCalls ev = 0 ∨
        ∃ L rest, decoded ev = L :: rest ∧ 1 ≤ L ∧ (decodeCalls ev : Int) ≤ L) := by
  have key : ∀ (draw : Bool) (s0 : vdec_thread_t), s0.i_buffer = s.i_buffer →
      ∃ fuel0, ∀ fuel, fuel0 ≤ fuel → ∃ s1 ev, resyncThenDecode env draw fuel s0 = some (s1, ev) ∧
        (decodeCalls ev = 0 ∨
          ∃ L rest, decoded ev = L :: rest ∧ 1 ≤ L ∧ (decodeCalls ev : Int) ≤ L) := by
    intro draw s0 h0
    have hu : ∀ n ctx buf sz, draw = true →
        (env.avcodec_decode_video n ctx buf sz).b_gotpicture = true →
        (env.avcodec_decode_video n ctx buf sz).frame.linesize 0 ≠ 0 →
        1 ≤ (env.avcodec_decode_video n ctx buf sz).i_used :=
      fun n ctx buf sz _ => hused n ctx buf sz
    unfold resyncThenDecode
    split
    · simp only
      split
      · have hfo := resyncLoop_fifoOnly env s0.fifo { s0 with n_mdate := s0.n_mdate + 1 }
        have hfr := resyncLoop_frame env s0.fifo { s0 with n_mdate := s0.n_mdate + 1 }
        rcases hres : resyncLoop env s0.fifo { s0 with n_mdate := s0.n_mdate + 1 }
          with ⟨s2, ev, flag⟩
        rw [hres] at hfo hfr
        simp only at hfo hfr
        cases flag with
        | false =>
          exact ⟨0, fun fuel _ => ⟨_, _, rfl, Or.inl (fifoOnly_silent ev hfo).2⟩⟩
        | true =>
          have hb2 : 0 ≤ s2.i_buffer := by
            rw [hfr]
            simp only
            omega
          obtain ⟨fuel0, hf⟩ := decodePacket_returns env draw W hu hwait s2 hb2
          refine ⟨fuel0, fun fuel hfuel => ?_⟩
          obtain ⟨s3, ev3, h3, hc⟩ := hf fuel hfuel
          simp only [h3]
          refine ⟨_, _, rfl, ?_⟩
          rcases hc with hc | ⟨L, rest, e, hL, hn⟩
          · left
            rw [decodeCalls_append, (fifoOnly_silent ev hfo).2, hc]
          · right
            refine ⟨L, rest, ?_, hL, ?_⟩
            · rw [decoded_append, fifoOnly_decoded ev hfo, e]
              rfl
            · rw [decodeCalls_append, (fifoOnly_silent ev hfo).2]
              simpa using hn
      · exact decodePacket_returns env draw W hu hwait _ (by simp only; omega)
    · exact decodePacket_returns env draw W hu hwait s0 (by omega)
  unfold DecodeThread_Video
  split
  · split
    · exact key false _ rfl
    · exact ⟨0, fun fuel _ => ⟨_, _, rfl, Or.inl rfl⟩⟩
  · exact key true _ rfl

/-- C15, a loop the theorem applies to: three buffered bytes and a codec that
uses one byte a call; the codec is called on 3, 2 and 1 bytes. -/
theorem drain_loop_terminates_witness :
    (∃ s1 ev rest, usenextdata (env0 1 (fun _ => 0) (codecStep 1 25)) true (3 + 1)
        threadBuffered 3 = some (s1, ev) ∧
      decoded ev = 3 :: rest ∧ List.Chain (fun a b => b < a) 3 rest ∧
      (∀ x ∈ rest, 1 ≤ x) ∧
      1 ≤ decodeCalls ev ∧ (decodeCalls ev : Int) ≤ 3) ∧
    (usenextdata (env0 1 (fun _ => 0) (codecStep 1 25)) true (3 + 1) threadBuffered 3).map
      (fun r => decoded r.2) = some [3, 2, 1] :=
  ⟨drain_loop_terminates (env0 1 (fun _ => 0) (codecStep 1 25)) true 1 (3 + 1) threadBuffered 3
      (by decide) (fun _ _ _ _ _ _ _ => le_refl (1 : Int)) (fun _ => rfl) (by decide),
    by decide⟩


/-! ## C14: three frames from one packet -/

theorem readPES_count (env : Env) (s : vdec_thread_t) (p_pes : pes_packet_t) :
    (readPES env s p_pes).1.i_frame_count = if p_pes.i_pts ≠ 0 then 0 else s.i_frame_count := by
  unfold readPES
  simp only
  split
  · rw [appendPES_frame]
    split <;> rfl
  · split <;> rfl

/-- A pass that may draw, on a codec call that yields a drawable frame, with
a video output that always has a picture: the pass calls the codec once,
displays one picture dated from the anchor and the counter it incremented, and
ends in the `goto` exactly when bytes are left. -/
theorem decodeOnce_drawn (env : Env) (fuel : Nat) (s : vdec_thread_t) (n used rate : Int)
    (hy : yieldsFrame env s.n_decode used rate) (hu : 0 ≤ used)
    (hv : ∀ n w h c, (env.vout_Request n w h c).isSome = true)
    (hp : ∀ n, (env.vout_CreatePicture n).isSome = true) :
    ∃ s1 ev now, decodeOnce env true (fuel + 1) s n =
        some (s1, ev, if n - used > 0 then some (n - used) else none) ∧
      codecAndDisplay ev = [none, some (framePts env s.pts (s.i_frame_count + 1) rate now)] ∧
      published ev = [framePts env s.pts (s.i_frame_count + 1) rate now] ∧
      s1.pts = s.pts ∧ s1.i_frame_count = s.i_frame_count + 1 ∧
      s1.n_decode = s.n_decode + 1 := by
  obtain ⟨r1, r2, r3, r4, r5, r6, r7⟩ := hy s.p_context s.p_buffer n
  have hcf := consumed_frame s (env.avcodec_decode_video s.n_decode s.p_context s.p_buffer n) n
  have hfr := updateFrameLate_frame env (countPicture (consume (afterDecode s
        (env.avcodec_decode_video s.n_decode s.p_context s.p_buffer n)) n
        (env.avcodec_decode_video s.n_decode s.p_context s.p_buffer n).i_used)
        (env.avcodec_decode_video s.n_decode s.p_context s.p_buffer n).b_gotpicture)
  have hex : ∃ s1 pic t x1 x2 x3 x4 y1 y2 y3 y4, decodeOnce env true (fuel + 1) s n =
        some (s1, [Event.decode x1 x2 x3 x4, Event.lateUpdate y1 y2 y3 y4, Event.display pic t],
          if n - (env.avcodec_decode_video s.n_decode s.p_context s.p_buffer n).i_used > 0
            then some (n - (env.avcodec_decode_video s.n_decode s.p_context s.p_buffer n).i_used)
            else none) ∧
      s1.n_decode = s.n_decode + 1 := by
    unfold decodeOnce
    simp only
    rw [if_neg (by omega)]
    generalize (countPicture (consume (afterDecode s
        (env.avcodec_decode_video s.n_decode s.p_context s.p_buffer n)) n
        (env.avcodec_decode_video s.n_decode s.p_context s.p_buffer n).i_used)
        (env.avcodec_decode_video s.n_decode s.p_context s.p_buffer n).b_gotpicture) = c
      at hfr hcf
    have e1 : (updateFrameLate env c).1.p_ff_pic =
        (env.avcodec_decode_video s.n_decode s.p_context s.p_buffer n).frame := by
      rw [hfr, hcf]
    have e2 : (updateFrameLate env c).1.p_context.width =
        (env.avcodec_decode_video s.n_decode s.p_context s.p_buffer n).width := by
      rw [hfr, hcf]
      rfl
    have e3 : (updateFrameLate env c).1.p_context.height =
        (env.avcodec_decode_video s.n_decode s.p_context s.p_buffer n).height := by
      rw [hfr, hcf]
      rfl
    have e4 : (updateFrameLate env c).1.n_decode = s.n_decode + 1 := by
      rw [hfr, hcf]
    have hne : ¬ ((env.avcodec_decode_video s.n_decode s.p_context s.p_buffer n).b_gotpicture
        = false ∨ (updateFrameLate env c).1.p_ff_pic.linesize 0 = 0 ∨ true = false) := by
      rw [e1, r2]
      simp [r3]
    rw [if_neg hne]
    obtain ⟨s3, pic, hgp⟩ := getPicture_some env fuel (updateFrameLate env c).1 hv hp
      (by rw [e2]; exact r4) (by rw [e3]; exact r5) (by rw [e1]; exact r6)
    rw [hgp]
    simp only
    rw [updateFrameLate_event]
    refine ⟨_, _, _, _, _, _, _, _, _, _, _, rfl, ?_⟩
    rw [datePicture_frame, getPicture_frame _ _ _ _ _ hgp]
    exact e4
  obtain ⟨s1, pic, t, x1, x2, x3, x4, y1, y2, y3, y4, h, hn⟩ := hex
  rw [r1] at h
  obtain ⟨-, -, q1, q2, q3, q4⟩ := decodeOnce_display env true (fuel + 1) s s1 n _ _ pic t h
    (by simp)
  refine ⟨s1, _, env.mdate (s1.n_mdate - 1), h, ?_, ?_, q1, q2, hn⟩
  · rw [q4, q1, q2, q3, r7]
    rfl
  · rw [q4, q1, q2, q3, r7]
    rfl

theorem codecAndDisplay_append (ev1 ev2 : List Event) :
    codecAndDisplay (ev1 ++ ev2) = codecAndDisplay ev1 ++ codecAndDisplay ev2 := by
  induction ev1 with
  | nil => rfl
  | cons e ev1 ih =>
    rw [List.cons_append]
    cases e <;> simp [codecAndDisplay, ih]

/-- With the anchor 1000 and the frame rate `F` the date of the frame number
`k` of three is `1000 + ((k - 1) * 1 000 000 / base) / F`. -/
theorem framePts_1000 (env : Env) (k F now : Int) (hF : 0 < F) (hF2 : F < 2 ^ 31)
    (hk : 1 ≤ k) (hk3 : k ≤ 3) :
    framePts env 1000 k F now = 1000 + 1000000 * (k - 1) / (frameRateBase env : Int) / F := by
  apply framePts_anchor env 1000 k F now (by decide) hF hF2 hk (by omega)
  have hx : (0 : Int) ≤ 1000000 * (k - 1) := by omega
  have h1 : 1000000 * (k - 1) / (frameRateBase env : Int) ≤ 1000000 * (k - 1) :=
    Int.ediv_le_self _ hx
  have h0 : 0 ≤ 1000000 * (k - 1) / (frameRateBase env : Int) :=
    Int.ediv_nonneg hx (Int.natCast_nonneg _)
  have h2 : 1000000 * (k - 1) / (frameRateBase env : Int) / F ≤
      1000000 * (k - 1) / (frameRateBase env : Int) := Int.ediv_le_self _ h0
  have h3 : (1000 : Int) + 1000000 * (3 - 1) < 2 ^ 63 := by decide
  omega

/-- The drain loop on `L` bytes with the anchor 1000 and the counter zero,
when the next three codec calls yield drawable frames at frame rate `F` and
the third is the first to leave no byte: three passes, three pictures. -/
theorem usenextdata_three (env : Env) (fuel : Nat) (s : vdec_thread_t) (L a b c F : Int)
    (hF : 0 < F) (hF2 : F < 2 ^ 31)
    (hpts : s.pts = 1000) (hcount : s.i_frame_count = 0)
    (h1 : yieldsFrame env s.n_decode a F)
    (h2 : yieldsFrame env (s.n_decode + 1) b F)
    (h3 : yieldsFrame env (s.n_decode + 2) c F)
    (ha : 0 ≤ a) (hb : 0 ≤ b) (hab : a + b < L) (habc : L ≤ a + b + c)
    (hv : ∀ n w h c, (env.vout_Request n w h c).isSome = true)
    (hp : ∀ n, (env.vout_CreatePicture n).isSome = true) :
    ∃ s1 ev, usenextdata env true (fuel + 3) s L = some (s1, ev) ∧
      codecAndDisplay ev =
        [none, some 1000,
         none, some (1000 + 1000000 / (frameRateBase env : Int) / F),
         none, some (1000 + 2000000 / (frameRateBase env : Int) / F)] ∧
      published ev =
        [1000, 1000 + 1000000 / (frameRateBase env : Int) / F,
         1000 + 2000000 / (frameRateBase env : Int) / F] := by
  obtain ⟨sA, evA, nowA, dA, cA, pA, qA1, qA2, qA3⟩ :=
    decodeOnce_drawn env (fuel + 2) s L a F h1 ha hv hp
  rw [if_pos (by omega)] at dA
  rw [← qA3] at h2
  obtain ⟨sB, evB, nowB, dB, cB, pB, qB1, qB2, qB3⟩ :=
    decodeOnce_drawn env (fuel + 1) sA (L - a) b F h2 hb hv hp
  rw [if_pos (by omega)] at dB
  have e3 : s.n_decode + 2 = sB.n_decode := by rw [qB3, qA3]
  rw [e3] at h3
  obtain ⟨sC, evC, nowC, dC, cC, pC, -, -, -⟩ :=
    decodeOnce_drawn env fuel sB (L - a - b) c F h3 (by omega) hv hp
  rw [if_neg (by omega)] at dC
  have tA : framePts env s.pts (s.i_frame_count + 1) F nowA = 1000 := by
    rw [hpts, hcount, framePts_1000 env _ F _ hF hF2 (by decide) (by decide)]
    simp
  have tB : framePts env sA.pts (sA.i_frame_count + 1) F nowB =
      1000 + 1000000 / (frameRateBase env : Int) / F := by
    rw [qA1, qA2, hpts, hcount, framePts_1000 env _ F _ hF hF2 (by decide) (by decide)]
    rfl
  have tC : framePts env sB.pts (sB.i_frame_count + 1) F nowC =
      1000 + 2000000 / (frameRateBase env : Int) / F := by
    rw [qB1, qB2, qA1, qA2, hpts, hcount, framePts_1000 env _ F _ hF hF2 (by decide) (by decide)]
    rfl
  rw [tA] at cA pA
  rw [tB] at cB pB
  rw [tC] at cC pC
  have u3 : usenextdata env true (fuel + 1) sB (L - a - b) = some (sC, evC) := by
    unfold usenextdata
    rw [dC]
  have u2 : usenextdata env true (fuel + 2) sA (L - a) = some (sC, evB ++ evC) := by
    unfold usenextdata
    rw [dB]
    simp only [u3]
  have u1 : usenextdata env true (fuel + 3) s L = some (sC, evA ++ (evB ++ evC)) := by
    unfold usenextdata
    rw [dA]
    simp only [u2]
  refine ⟨_, _, u1, ?_, ?_⟩
  · rw [codecAndDisplay_append, codecAndDisplay_append, cA, cB, cC]
    rfl
  · rw [published_append, published_append, pA, pB, pC]
    rfl

/-- What a call of `DecodeThread_Video` publishes from a multi-frame packet: with
no late frame counted and nothing kept in the buffer, on a packet stamped 1000
whose bytes are used up by three codec calls that each yield a drawable frame
at frame rate `F`, it publishes exactly three frames, each right after the
codec call that produced it, with the dates 1000, `1000 + (1 000 000 / base) / F`
and `1000 + (2 000 000 / base) / F`, where `base` is the frame rate base of
the build and the divisions round down. -/
theorem three_frames (env : Env) (fuel : Nat) (s : vdec_thread_t) (p : pes_packet_t)
    (rest : List pes_packet_t) (a b c F : Int)
    (hF : 0 < F) (hF2 : F < 2 ^ 31)
    (hlate : s.i_frame_late = 0) (hbuf : s.i_buffer = 0)
    (hfifo : s.fifo = p :: rest) (hpts : p.i_pts = 1000)
    (hsz : p.i_pes_size = p.payload.length)
    (h1 : yieldsFrame env s.n_decode a F)
    (h2 : yieldsFrame env (s.n_decode + 1) b F)
    (h3 : yieldsFrame env (s.n_decode + 2) c F)
    (ha : 0 ≤ a) (hb : 0 ≤ b) (hab : a + b < p.payload.length)
    (habc : (p.payload.length : Int) ≤ a + b + c)
    (hv : ∀ n w h c, (env.vout_Request n w h c).isSome = true)
    (hp : ∀ n, (env.vout_CreatePicture n).isSome = true) :
    ∃ s1 ev, DecodeThread_Video env (fuel + 3) s = some (s1, ev) ∧
      codecAndDisplay ev =
        [none, some 1000,
         none, some (1000 + 1000000 / (frameRateBase env : Int) / F),
         none, some (1000 + 2000000 / (frameRateBase env : Int) / F)] ∧
      published ev =
        [1000, 1000 + 1000000 / (frameRateBase env : Int) / F,
         1000 + 2000000 / (frameRateBase env : Int) / F] := by
  have hlen : (0 : Int) < p.payload.length := by omega
  have hsz0 : 0 < p.i_pes_size := by omega
  have key : ∀ s0 : vdec_thread_t, s0.i_buffer = 0 → s0.fifo = p :: rest →
      s0.n_decode = s.n_decode →
      ∃ s1 ev, decodePacket env true (fuel + 3) s0 = some (s1, ev) ∧
        codecAndDisplay ev =
          [none, some 1000,
           none, some (1000 + 1000000 / (frameRateBase env : Int) / F),
           none, some (1000 + 2000000 / (frameRateBase env : Int) / F)] ∧
        published ev =
          [1000, 1000 + 1000000 / (frameRateBase env : Int) / F,
           1000 + 2000000 / (frameRateBase env : Int) / F] := by
    intro s0 k1 k2 k3
    unfold decodePacket
    simp only
    generalize hs9 : (if s0.p_context.width = 0 ∨ s0.p_context.height = 0 then
        { s0 with p_context := { s0.p_context with hurry_up := 5 } } else s0) = s9
    have j1 : s9.i_buffer = 0 := by
      rw [← hs9, ← k1]
      split <;> rfl
    have j2 : s9.fifo = p :: rest := by
      rw [← hs9, ← k2]
      split <;> rfl
    have j3 : s9.n_decode = s.n_decode := by
      rw [← hs9, ← k3]
      split <;> rfl
    have hsize : (readPES env s9 p).2 = (p.payload.length : Int) := by
      obtain ⟨sx, hr, -, -, -⟩ := readPES_append env s9 p hsz0
      rw [hr, appendPES_size, take_toNat_length _ _ hsz]
    have hfetch : fetchLoop env s9.fifo s9 =
        ({ (readPES env s9 p).1 with fifo := rest },
         [Event.extractPES (some p), Event.deletePES p], some (readPES env s9 p).2) := by
      rw [j2]
      unfold fetchLoop
      rw [if_neg (by omega)]
    have hrf := readPES_frame env s9 p
    have hrp := readPES_pts env s9 p
    have hrc := readPES_count env s9 p
    rw [if_pos (by rw [hpts]; decide)] at hrp hrc
    rcases hres : fetchLoop env s9.fifo s9 with ⟨s2, ev0, r⟩
    rw [hres] at hfetch
    simp only [Prod.mk.injEq] at hfetch
    obtain ⟨hs2, hev0, hr⟩ := hfetch
    subst hr hev0
    simp only
    have m1 : s2.pts = 1000 := by
      rw [hs2]
      simp only
      rw [hrp, hpts]
    have m2 : s2.i_frame_count = 0 := by
      rw [hs2]
      exact hrc
    have m3 : s2.i_buffer = 0 := by rw [hs2, ← j1, hrf]
    have m4 : s2.n_decode = s.n_decode := by rw [hs2, ← j3, hrf]
    rw [← m4] at h1 h2 h3
    obtain ⟨s3, ev, hu, hc, hpub⟩ := usenextdata_three env fuel s2
      ((readPES env s9 p).2 + s2.i_buffer) a b c F hF hF2 m1 m2 h1 h2 h3 ha hb (by omega) (by omega)
      hv hp
    rw [hu]
    refine ⟨_, _, rfl, ?_, ?_⟩
    · rw [codecAndDisplay_append, hc]
      rfl
    · rw [published_append, hpub]
      rfl
  unfold DecodeThread_Video
  rw [if_neg (by rw [hlate]; simp)]
  unfold resyncThenDecode
  simp only
  rw [if_neg (by rw [hlate]; decide)]
  exact key _ hbuf hfifo rfl

theorem yieldsFrame_codecByte (base : Nat) (clock : Nat → Int) (n : Nat) :
    yieldsFrame (env0 base clock codecByte) n 1 25 :=
  fun _ _ _ => ⟨rfl, rfl, show (4 : Int) ≠ 0 by decide, show (16 : Int) ≠ 0 by decide,
    show (16 : Int) ≠ 0 by decide, rfl, rfl⟩

/-- A call `three_frames` applies to: three bytes stamped 1000, a codec that
uses one byte a call, frame rate 25, frame rate base 1; the dates are 1000,
41000 and 81000. -/
theorem three_frames_witness :
    ∃ r, DecodeThread_Video (env0 1 (fun _ => 0) codecByte) (0 + 3) (thread0 false [packet1000])
        = some r ∧
      published r.2 = [1000, 41000, 81000] ∧
      (∃ s1 ev, DecodeThread_Video (env0 1 (fun _ => 0) codecByte) (0 + 3)
          (thread0 false [packet1000]) = some (s1, ev) ∧
        codecAndDisplay ev =
          [none, some 1000,
           none, some (1000 + 1000000 /
             (frameRateBase (env0 1 (fun _ => 0) codecByte) : Int) / 25),
           none, some (1000 + 2000000 /
             (frameRateBase (env0 1 (fun _ => 0) codecByte) : Int) / 25)] ∧
        published ev =
          [1000, 1000 + 1000000 / (frameRateBase (env0 1 (fun _ => 0) codecByte) : Int) / 25,
           1000 + 2000000 / (frameRateBase (env0 1 (fun _ => 0) codecByte) : Int) / 25]) :=
  ⟨_, rfl, by decide,
    three_frames (env0 1 (fun _ => 0) codecByte) 0 (thread0 false [packet1000]) packet1000 []
      1 1 1 25 (by decide) (by decide) rfl rfl rfl rfl rfl
      (yieldsFrame_codecByte _ _ _) (yieldsFrame_codecByte _ _ _) (yieldsFrame_codecByte _ _ _)
      (by decide) (by decide) (by decide) (by decide) (fun _ _ _ _ => rfl) (fun _ => rfl)⟩

/-- Three runs on a packet stamped 1000 that holds three frames at frame rate
25: the frames are published in decode order, with the dates 1000, 41000 and
81000 when the frame rate base is 1, with 1000, 1000 and 1000 when it is
1001000, and with 1000, 1004 and 1008 in a build before 4662, whose frame rate
base is 10000; none of these is 1000, 1040, 1080. -/
theorem three_frames_counterexample :
    (DecodeThread_Video (env0 1 (fun _ => 0) codecByte) 3 (thread0 false [packet1000])).map
        (fun r => codecAndDisplay r.2) =
      some [none, some 1000, none, some 41000, none, some 81000] ∧
    (DecodeThread_Video (env0 1001000 (fun _ => 0) codecByte) 3
        (thread0 false [packet1000])).map (fun r => published r.2) = some [1000, 1000, 1000] ∧
    (DecodeThread_Video { env0 1 (fun _ => 0) codecByte with LIBAVCODEC_BUILD := 4661 } 3
        (thread0 false [packet1000])).map (fun r => published r.2) = some [1000, 1004, 1008] ∧
    ([1000, 41000, 81000] : List Int) ≠ [1000, 1040, 1080] ∧
    ([1000, 1000, 1000] : List Int) ≠ [1000, 1040, 1080] ∧
    ([1000, 1004, 1008] ≠ ([1000, 1040, 1080] : List Int)) := by
  decide


/-! ## C11: direct rendering and post-processing -/

theorem initExtradata_frame (env : Env) (ienv : InitEnv) (c : AVCodecSetup)
    (s : vdec_thread_t) :
    (initExtradata env ienv c s).1.b_direct_rendering = s.b_direct_rendering ∧
    (initExtradata env ienv c s).1.pp_mode = s.pp_mode := by
  unfold initExtradata
  split
  · exact ⟨rfl, rfl⟩
  · split
    · simp only
      split
      · exact ⟨rfl, rfl⟩
      · exact ⟨rfl, rfl⟩
    · exact ⟨rfl, rfl⟩

theorem initOldPostproc_direct (ienv : InitEnv) (c : AVCodecSetup) (s : vdec_thread_t) :
    (initOldPostproc ienv c s).1.b_direct_rendering = s.b_direct_rendering := by
  unfold initOldPostproc
  simp only
  split
  · split
    · split <;> rfl
    · rfl
  · rfl

theorem initPostproc_direct (env : Env) (ienv : InitEnv) (c : AVCodecSetup)
    (s : vdec_thread_t) :
    (initPostproc env ienv c s).1.b_direct_rendering = s.b_direct_rendering := by
  unfold initPostproc
  split
  · simp only
    split <;> rfl
  · exact initOldPostproc_direct ienv c s

/-- With `LIBAVCODEC_PP` a post-processing mode is set exactly when the
quality is positive, direct rendering was not chosen and the mode loads. -/
theorem initPostproc_mode (env : Env) (ienv : InitEnv) (c : AVCodecSetup)
    (s : vdec_thread_t) (hpp : env.LIBAVCODEC_PP = true) :
    (initPostproc env ienv c s).1.pp_mode = true ↔
      (0 < ienv.config_GetInt ConfigVar.ffmpeg_pp_q ∧ s.b_direct_rendering = false ∧
        ienv.pp_get_mode_by_name_and_quality (ppName ienv)
          (ienv.config_GetInt ConfigVar.ffmpeg_pp_q) = true) := by
  unfold initPostproc
  rw [if_pos hpp]
  simp only
  split
  · rename_i h
    simp only
    constructor
    · intro hm
      exact ⟨h.1, h.2, hm⟩
    · intro hm
      exact hm.2.2
  · rename_i h
    simp only
    constructor
    · intro hm
      exact absurd hm (by decide)
    · intro hm
      exact absurd ⟨hm.1, hm.2.1⟩ h

theorem initDirect_direct (ienv : InitEnv) (c : AVCodecSetup) (s : vdec_thread_t)
    (h0 : s.b_direct_rendering = false) :
    (initDirect ienv c s).1.b_direct_rendering = true ↔
      (ienv.config_GetInt ConfigVar.ffmpeg_dr ≠ 0 ∧
       ienv.capabilities &&& ienv.CODEC_CAP_DR1 ≠ 0 ∧
       ffmpeg_PixFmtToChroma s.p_context.pix_fmt ≠ 0) := by
  unfold initDirect
  split
  · rename_i h
    exact ⟨fun _ => h, fun _ => rfl⟩
  · rename_i h
    constructor
    · intro hd
      rw [h0] at hd
      exact absurd hd (by decide)
    · intro hd
      exact absurd hd h

/-- C11 (as amended): `InitThread_Video` succeeds exactly when the codec
opens.  It chooses direct rendering exactly when the codec opens, the option
`ffmpeg-dr` is set, the codec has the capability `CODEC_CAP_DR1` and the pixel
format has a chroma, whatever the post-processing quality.  With
`LIBAVCODEC_PP` a successful initialisation sets a post-processing mode
exactly when the quality is positive, direct rendering was not chosen and the
mode loads: the two are mutually exclusive and direct rendering wins. -/
theorem direct_rendering_wins (env : Env) (ienv : InitEnv) (c : AVCodecSetup)
    (s : vdec_thread_t) :
    ((InitThread_Video env ienv c s).1 = true ↔
      0 ≤ (ienv.avcodec_open (initContext ienv s)).1) ∧
    ((InitThread_Video env ienv c s).2.1.b_direct_rendering = true ↔
      (0 ≤ (ienv.avcodec_open (initContext ienv s)).1 ∧
       ienv.config_GetInt ConfigVar.ffmpeg_dr ≠ 0 ∧
       ienv.capabilities &&& ienv.CODEC_CAP_DR1 ≠ 0 ∧
       ffmpeg_PixFmtToChroma (ienv.avcodec_open (initContext ienv s)).2.pix_fmt ≠ 0)) ∧
    (env.LIBAVCODEC_PP = true ∧ (InitThread_Video env ienv c s).1 = true →
      ((InitThread_Video env ienv c s).2.1.pp_mode = true ↔
        (0 < ienv.config_GetInt ConfigVar.ffmpeg_pp_q ∧
         (InitThread_Video env ienv c s).2.1.b_direct_rendering = false ∧
         ienv.pp_get_mode_by_name_and_quality (ppName ienv)
           (ienv.config_GetInt ConfigVar.ffmpeg_pp_q) = true))) := by
  unfold InitThread_Video
  simp only
  by_cases ho : (ienv.avcodec_open (initContext ienv s)).1 < 0
  · rw [if_pos ho]
    refine ⟨?_, ?_, ?_⟩
    · simp only [Bool.false_eq_true, false_iff, not_le]
      exact ho
    · simp only [Bool.false_eq_true, false_iff]
      intro h
      omega
    · intro h
      exact absurd h.2 (show ¬ (false = true) by decide)
  · rw [if_neg ho]
    simp only
    have hx := initExtradata_frame env ienv
    have hp := initPostproc_direct env ienv
    have hm := initPostproc_mode env ienv
    have hd := initDirect_direct ienv (initOptions env ienv c)
      { s with
        p_ff_pic := ienv.avcodec_alloc_frame
        p_context := (ienv.avcodec_open (initContext ienv s)).2
        b_hurry_up := decide (ienv.config_GetInt ConfigVar.ffmpeg_hurry_up ≠ 0)
        b_direct_rendering := false } rfl
    refine ⟨?_, ?_, ?_⟩
    · simp only [true_iff]
      omega
    · rw [hp, (hx _ _).1, hd]
      constructor
      · intro h
        exact ⟨by omega, h⟩
      · intro h
        exact h.2
    · intro h
      rw [hm _ _ h.1, hp, (hx _ _).1]

/-- C11 as stated fails: with the post-processing quality 6, the option
`ffmpeg-dr` set, a codec with the capability `CODEC_CAP_DR1` and a planar
4:2:0 stream, `InitThread_Video` succeeds and leaves direct rendering enabled;
with `LIBAVCODEC_PP` it is the post-processing mode that is left unset, and in
a build without it direct rendering is enabled together with the old
post-processing mode 6. -/
theorem direct_rendering_counterexample :
    0 < initEnv0.config_GetInt ConfigVar.ffmpeg_pp_q ∧
    (InitThread_Video (env0 1 (fun _ => 0) codecByte) initEnv0 setup0 (thread0 false [])).1
      = true ∧
    (InitThread_Video (env0 1 (fun _ => 0) codecByte) initEnv0 setup0
      (thread0 false [])).2.1.b_direct_rendering = true ∧
    (InitThread_Video (env0 1 (fun _ => 0) codecByte) initEnv0 setup0
      (thread0 false [])).2.1.pp_mode = false ∧
    (InitThread_Video { env0 1 (fun _ => 0) codecByte with LIBAVCODEC_PP := false } initEnv0 setup0
      (thread0 false [])).2.1.b_direct_rendering = true ∧
    (InitThread_Video { env0 1 (fun _ => 0) codecByte with LIBAVCODEC_PP := false } initEnv0 setup0
      (thread0 false [])).2.1.i_pp_mode = 6 := by
  decide

/-! ## C9: the call between five and seven late frames, in full -/

theorem readPES_size (env : Env) (s : vdec_thread_t) (p_pes : pes_packet_t) :
    (readPES env s p_pes).2 = pesSize p_pes := by
  unfold readPES pesSize
  simp only
  split
  · rw [appendPES_size]
  · rfl

/-- The packet loop on the fifo `l`: either no packet of `l` has bytes, and
then all of them are deleted, the fifo is empty and the error flag is set; or
the loop deletes the packets up to the first packet with bytes, that one
included, and ends with its frame size. -/
theorem fetchLoop_cases (env : Env) (l : List pes_packet_t) (s : vdec_thread_t) :
    ((fetchLoop env l s).2.2 = none ∧ (∀ x ∈ l, pesSize x ≤ 0) ∧
      (fetchLoop env l s).1.fifo = [] ∧ deleted (fetchLoop env l s).2.1 = l ∧
      (fetchLoop env l s).1.b_error = true) ∨
    (∃ pre q, l = pre ++ q :: (fetchLoop env l s).1.fifo ∧ (∀ x ∈ pre, pesSize x ≤ 0) ∧
      0 < pesSize q ∧ (fetchLoop env l s).2.2 = some (pesSize q) ∧
      deleted (fetchLoop env l s).2.1 = pre ++ [q]) := by
  induction l generalizing s with
  | nil =>
    left
    exact ⟨rfl, by simp, rfl, rfl, rfl⟩
  | cons p rest ih =>
    unfold fetchLoop
    split
    · rename_i hp
      rw [readPES_size] at hp
      simp only [deleted]
      rcases ih (readPES env s p).1 with ⟨h1, h2, h3, h4, h5⟩ | ⟨pre, q, h1, h2, h3, h4, h5⟩
      · left
        refine ⟨h1, ?_, h3, by rw [h4], h5⟩
        intro x hx
        rcases List.mem_cons.1 hx with rfl | hx
        · exact hp
        · exact h2 x hx
      · right
        refine ⟨p :: pre, q, ?_, ?_, h3, h4, by rw [h5]; rfl⟩
        · rw [List.cons_append, ← h1]
        · intro x hx
          rcases List.mem_cons.1 hx with rfl | hx
          · exact hp
          · exact h2 x hx
    · rename_i hp
      rw [readPES_size] at hp
      right
      refine ⟨[], p, rfl, by simp, lt_of_not_le hp, by rw [readPES_size], rfl⟩

theorem resyncLoop_congr (env : Env) (l : List pes_packet_t) (s s2 : vdec_thread_t)
    (h : s.n_mdate = s2.n_mdate) :
    (resyncLoop env l s).2 = (resyncLoop env l s2).2 ∧
    (resyncLoop env l s).1.fifo = (resyncLoop env l s2).1.fifo := by
  induction l generalizing s s2 with
  | nil => exact ⟨rfl, rfl⟩
  | cons p rest ih =>
    unfold resyncLoop
    by_cases hp : p.i_pts ≤ 0
    · rw [if_pos hp, if_pos hp]
      obtain ⟨h1, h2⟩ := ih s s2 h
      simp only
      rw [h1, h2]
      exact ⟨rfl, rfl⟩
    · rw [if_neg hp, if_neg hp]
      simp only
      rw [h]
      by_cases hlt : p.i_pts < env.mdate s2.n_mdate
      · rw [if_pos hlt, if_pos hlt]
        obtain ⟨h1, h2⟩ := ih { s with n_mdate := s2.n_mdate + 1 }
          { s2 with n_mdate := s2.n_mdate + 1 } rfl
        simp only
        rw [h1, h2]
        exact ⟨rfl, rfl⟩
      · rw [if_neg hlt, if_neg hlt]
        exact ⟨rfl, rfl⟩

theorem afterResync_congr (env : Env) (s s2 : vdec_thread_t)
    (h1 : s.n_mdate = s2.n_mdate) (h2 : s.fifo = s2.fifo)
    (h3 : s.i_frame_late = s2.i_frame_late)
    (h4 : s.i_frame_late_start = s2.i_frame_late_start) :
    afterResync env s = afterResync env s2 := by
  unfold afterResync
  obtain ⟨c1, c2⟩ := resyncLoop_congr env s.fifo { s with n_mdate := s.n_mdate + 1 }
    { s2 with n_mdate := s2.n_mdate + 1 } (by simp only [h1])
  rw [c1, c2, h1, h2, h3, h4]

/-- The packet loop and the drain loop without drawing: either no packet of
the fifo has bytes, all of them are deleted and the error flag is set, or the
codec is called once, on the bytes kept plus the bytes of the first packet
that has some, and the packets up to that one are deleted. -/
theorem decodePacket_exact (env : Env) (fuel : Nat) (s : vdec_thread_t) :
    ∃ s1 ev, decodePacket env false (fuel + 1) s = some (s1, ev) ∧
      ((fifoOnly ev = true ∧ (∀ x ∈ s.fifo, pesSize x ≤ 0) ∧ s1.fifo = [] ∧
          deleted ev = s.fifo ∧ s1.b_error = true) ∨
       (decodedUndrawn s.i_frame_late ev ∧
          ∃ pre q, s.fifo = pre ++ q :: s1.fifo ∧ (∀ x ∈ pre, pesSize x ≤ 0) ∧
            0 < pesSize q ∧ deleted ev = pre ++ [q] ∧
            decoded ev = [pesSize q + s.i_buffer])) := by
  unfold decodePacket
  simp only
  generalize hs0 : (if s.p_context.width = 0 ∨ s.p_context.height = 0 then
      { s with p_context := { s.p_context with hurry_up := 5 } } else s) = s0
  have hl0 : s0.i_frame_late = s.i_frame_late := by
    rw [← hs0]
    split <;> rfl
  have hf0 : s0.fifo = s.fifo := by
    rw [← hs0]
    split <;> rfl
  have hb0 : s0.i_buffer = s.i_buffer := by
    rw [← hs0]
    split <;> rfl
  obtain ⟨f1, -, -⟩ := fetchLoop_spec env s0.fifo s0
  have hfr := fetchLoop_frame env s0.fifo s0
  have hcases := fetchLoop_cases env s0.fifo s0
  rcases hres : fetchLoop env s0.fifo s0 with ⟨s2, ev, r⟩
  rw [hres] at f1 hfr hcases
  simp only at f1 hfr hcases
  rw [hf0] at hcases
  rcases hcases with ⟨c1, c2, c3, c4, c5⟩ | ⟨pre, q, c1, c2, c3, c4, c5⟩
  · subst c1
    exact ⟨_, _, rfl, Or.inl ⟨f1, c2, c3, c4, c5⟩⟩
  · subst c4
    obtain ⟨s3, u, g, post, hd, hp⟩ := decodeOnce_nodraw env (fuel + 1) s2 (pesSize q + s2.i_buffer)
    obtain ⟨-, q2, -, -, -⟩ := decodeOnce_frame env false (fuel + 1) s2 s3 _ _ none hd
    have hu : usenextdata env false (fuel + 1) s2 (pesSize q + s2.i_buffer) =
        some (s3, Event.decode (pesSize q + s2.i_buffer) s2.p_context.hurry_up u g :: post) := by
      unfold usenextdata
      rw [hd]
    simp only [hu]
    have hl2 : s2.i_frame_late = s.i_frame_late := by rw [hfr, ← hl0]
    have hb2 : s2.i_buffer = s.i_buffer := by rw [hfr, ← hb0]
    have hdu : decodedUndrawn s.i_frame_late
        (ev ++ Event.decode (pesSize q + s2.i_buffer) s2.p_context.hurry_up u g :: post) := by
      refine ⟨ev, _, _, u, g, post, rfl, f1, ?_, ?_⟩
      · rw [c5]
        simp
      · rcases hp with hp | ⟨now, hp⟩
        · exact Or.inl hp
        · exact Or.inr ⟨_, now, _, by rw [hp, hl2]⟩
    refine ⟨_, _, rfl, Or.inr ⟨hdu, pre, q, by rw [q2]; exact c1, c2, c3, ?_, ?_⟩⟩
    · rw [deleted_append, c5]
      rcases hp with hp | ⟨now, hp⟩
      · rw [hp]
        simp [deleted]
      · rw [hp]
        simp [deleted]
    · rw [decoded_append, fifoOnly_decoded ev f1, hb2]
      rcases hp with hp | ⟨now, hp⟩
      · rw [hp]
        rfl
      · rw [hp]
        rfl

/-- The part of a call after the hurry-up gate, without drawing: either the
fifo runs out, in the forced resynchronisation or because none of the packets
it leaves has bytes, and then every packet is deleted and the error flag is
set; or the codec is called once, on the bytes kept plus the bytes of the
first packet with bytes that the resynchronisation leaves. -/
theorem resyncThenDecode_exact (env : Env) (fuel : Nat) (s : vdec_thread_t) :
    ∃ s1 ev, resyncThenDecode env false (fuel + 1) s = some (s1, ev) ∧
      ((fifoOnly ev = true ∧
          (afterResync env s = none ∨
            ∃ l, afterResync env s = some l ∧ ∀ x ∈ l, pesSize x ≤ 0) ∧
          s1.fifo = [] ∧ deleted ev = s.fifo ∧ s1.b_error = true) ∨
       (decodedUndrawn s.i_frame_late ev ∧
          ∃ pre q, afterResync env s = some (pre ++ q :: s1.fifo) ∧
            (∀ x ∈ pre, pesSize x ≤ 0) ∧ 0 < pesSize q ∧
            s.fifo = deleted ev ++ s1.fifo ∧ (∃ d, deleted ev = d ++ [q]) ∧
            decoded ev = [pesSize q + s.i_buffer])) := by
  have plain : ∀ s0 : vdec_thread_t, s0.fifo = s.fifo → s0.i_buffer = s.i_buffer →
      s0.i_frame_late = s.i_frame_late → afterResync env s = some s.fifo →
      ∃ s1 ev, decodePacket env false (fuel + 1) s0 = some (s1, ev) ∧
        ((fifoOnly ev = true ∧
            (afterResync env s = none ∨
              ∃ l, afterResync env s = some l ∧ ∀ x ∈ l, pesSize x ≤ 0) ∧
            s1.fifo = [] ∧ deleted ev = s.fifo ∧ s1.b_error = true) ∨
         (decodedUndrawn s.i_frame_late ev ∧
            ∃ pre q, afterResync env s = some (pre ++ q :: s1.fifo) ∧
              (∀ x ∈ pre, pesSize x ≤ 0) ∧ 0 < pesSize q ∧
              s.fifo = deleted ev ++ s1.fifo ∧ (∃ d, deleted ev = d ++ [q]) ∧
              decoded ev = [pesSize q + s.i_buffer])) := by
    intro s0 k1 k2 k3 ha
    obtain ⟨s1, ev, hd, hc⟩ := decodePacket_exact env fuel s0
    refine ⟨s1, ev, hd, ?_⟩
    rw [k1, k2, k3] at hc
    rcases hc with ⟨c1, c2, c3, c4, c5⟩ | ⟨c0, pre, q, c1, c2, c3, c4, c5⟩
    · exact Or.inl ⟨c1, Or.inr ⟨_, ha, c2⟩, c3, c4, c5⟩
    · refine Or.inr ⟨c0, pre, q, by rw [ha, c1], c2, c3, ?_, ⟨pre, c4⟩, c5⟩
      rw [c4, c1]
      simp
  unfold resyncThenDecode
  by_cases hlate : s.i_frame_late > 0
  · rw [if_pos hlate]
    simp only
    by_cases hold : env.mdate s.n_mdate - s.i_frame_late_start > 5000000
    · rw [if_pos hold]
      have hfo := resyncLoop_fifoOnly env s.fifo { s with n_mdate := s.n_mdate + 1 }
      obtain ⟨h1, -, -, -, h5⟩ := resyncLoop_spec env s.fifo { s with n_mdate := s.n_mdate + 1 }
      have hfr := resyncLoop_frame env s.fifo { s with n_mdate := s.n_mdate + 1 }
      have ha : afterResync env s =
          if (resyncLoop env s.fifo { s with n_mdate := s.n_mdate + 1 }).2.2 = true then
            some (resyncLoop env s.fifo { s with n_mdate := s.n_mdate + 1 }).1.fifo
          else none := by
        unfold afterResync
        rw [if_pos ⟨hlate, hold⟩]
      rcases hres : resyncLoop env s.fifo { s with n_mdate := s.n_mdate + 1 } with ⟨s2, ev, flag⟩
      rw [hres] at hfo h1 h5 hfr ha
      simp only at hfo h1 h5 hfr ha
      cases flag with
      | false =>
        rw [if_neg (by decide)] at ha
        obtain ⟨e1, e2, -⟩ := h5 rfl
        refine ⟨_, _, rfl, Or.inl ⟨hfo, Or.inl ha, e2, ?_, e1⟩⟩
        rw [e2, List.append_nil] at h1
        exact h1.symm
      | true =>
        rw [if_pos rfl] at ha
        obtain ⟨s3, ev3, hd, hc⟩ := decodePacket_exact env fuel s2
        simp only [hd]
        refine ⟨_, _, rfl, ?_⟩
        have hl2 : s2.i_frame_late = s.i_frame_late := by rw [hfr]
        have hb2 : s2.i_buffer = s.i_buffer := by rw [hfr]
        rw [hl2, hb2] at hc
        rcases hc with ⟨c1, c2, c3, c4, c5⟩ | ⟨c0, pre, q, c1, c2, c3, c4, c5⟩
        · refine Or.inl ⟨fifoOnly_append _ _ hfo c1, Or.inr ⟨_, ha, c2⟩, c3, ?_, c5⟩
          rw [deleted_append, c4]
          exact h1.symm
        · refine Or.inr ⟨decodedUndrawn_prepend _ _ _ hfo c0, pre, q, by rw [ha, c1], c2, c3,
            ?_, ⟨deleted ev ++ pre, ?_⟩, ?_⟩
          · rw [deleted_append, c4, h1, c1]
            simp
          · rw [deleted_append, c4, List.append_assoc]
          · rw [decoded_append, fifoOnly_decoded ev hfo, c5]
            rfl
    · rw [if_neg hold]
      refine plain _ rfl rfl rfl ?_
      unfold afterResync
      rw [if_neg (fun h => hold h.2)]
  · rw [if_neg hlate]
    refine plain _ rfl rfl rfl ?_
    unfold afterResync
    rw [if_neg (fun h => hlate h.1)]

/-- C9 (as amended): with hurry-up enabled, for every consecutive-late count
`c` with `4 < c < 8` at the start of a call, `DecodeThread_Video` returns
without publishing a frame.  Unless the fifo runs out, it pulls packets up to
the first one with bytes that the forced resynchronisation leaves and calls
the codec exactly once, on the bytes kept plus the bytes of that packet; the
count is not modified before that call: the only write of the count follows
the call and starts from `c`.  The fifo runs out only when the forced
resynchronisation uses it up or leaves no packet with bytes; every waiting
packet has then been pulled and deleted, the fifo is empty, the error flag is
set and no codec call is made. -/
theorem hurry_up_decodes_undrawn (env : Env) (fuel : Nat) (s : vdec_thread_t)
    (hh : s.b_hurry_up = true) (h4 : 4 < s.i_frame_late) (h8 : s.i_frame_late < 8) :
    ∃ s1 ev, DecodeThread_Video env (fuel + 1) s = some (s1, ev) ∧ published ev = [] ∧
      ((decodeCalls ev = 0 ∧ fifoOnly ev = true ∧
          (afterResync env s = none ∨
            ∃ l, afterResync env s = some l ∧ ∀ x ∈ l, pesSize x ≤ 0) ∧
          s1.fifo = [] ∧ deleted ev = s.fifo ∧ s1.b_error = true) ∨
       (decodeCalls ev = 1 ∧ decodedUndrawn s.i_frame_late ev ∧
          ∃ pre q, afterResync env s = some (pre ++ q :: s1.fifo) ∧
            (∀ x ∈ pre, pesSize x ≤ 0) ∧ 0 < pesSize q ∧
            s.fifo = deleted ev ++ s1.fifo ∧ (∃ d, deleted ev = d ++ [q]) ∧
            decoded ev = [pesSize q + s.i_buffer])) := by
  unfold DecodeThread_Video
  rw [if_pos ⟨hh, h4⟩, if_pos h8]
  obtain ⟨s1, ev, hr, hc⟩ := resyncThenDecode_exact env fuel
    { s with p_context := { s.p_context with hurry_up := 2 } }
  have ha : afterResync env { s with p_context := { s.p_context with hurry_up := 2 } } =
      afterResync env s := afterResync_congr env _ _ rfl rfl rfl rfl
  rw [ha] at hc
  refine ⟨s1, ev, hr, ?_, ?_⟩
  · rcases hc with ⟨c1, -⟩ | ⟨hc, -⟩
    · exact (fifoOnly_silent ev c1).1
    · exact (decodedUndrawn_silent _ ev hc).1
  · rcases hc with ⟨c1, c2⟩ | ⟨hc, c2⟩
    · exact Or.inl ⟨(fifoOnly_silent ev c1).2, c1, c2⟩
    · exact Or.inr ⟨(decodedUndrawn_silent _ ev hc).2, hc, c2⟩

/-- C9, a call the theorem applies to: five late frames counted, one packet
waiting; the codec is called once and the count goes to six. -/
theorem hurry_up_decodes_undrawn_witness :
    (∃ s1 ev, DecodeThread_Video (env0 1 (fun _ => 5000) (codec0 3 25)) (0 + 1) (threadLate 5) =
        some (s1, ev) ∧ published ev = [] ∧
      ((decodeCalls ev = 0 ∧ fifoOnly ev = true ∧
          (afterResync (env0 1 (fun _ => 5000) (codec0 3 25)) (threadLate 5) = none ∨
            ∃ l, afterResync (env0 1 (fun _ => 5000) (codec0 3 25)) (threadLate 5) = some l ∧
              ∀ x ∈ l, pesSize x ≤ 0) ∧
          s1.fifo = [] ∧ deleted ev = (threadLate 5).fifo ∧ s1.b_error = true) ∨
       (decodeCalls ev = 1 ∧ decodedUndrawn (threadLate 5).i_frame_late ev ∧
          ∃ pre q, afterResync (env0 1 (fun _ => 5000) (codec0 3 25)) (threadLate 5) =
              some (pre ++ q :: s1.fifo) ∧
            (∀ x ∈ pre, pesSize x ≤ 0) ∧ 0 < pesSize q ∧
            (threadLate 5).fifo = deleted ev ++ s1.fifo ∧ (∃ d, deleted ev = d ++ [q]) ∧
            decoded ev = [pesSize q + (threadLate 5).i_buffer]))) ∧
    (DecodeThread_Video (env0 1 (fun _ => 5000) (codec0 3 25)) (0 + 1) (threadLate 5)).map
      (fun r => (decodeCalls r.2, decoded r.2, r.1.i_frame_late)) = some (1, [3], 6) :=
  ⟨hurry_up_decodes_undrawn (env0 1 (fun _ => 5000) (codec0 3 25)) 0 (threadLate 5)
    (by decide) (by decide) (by decide), by decide⟩

/-! ## C1 and C14: the extrapolation divides by the frame rate base -/

theorem yieldsFrame_codecRate (base : Nat) (clock : Nat → Int) (rate : Int) (n : Nat) :
    yieldsFrame (env0 base clock (codecRate rate)) n 1 rate :=
  fun _ _ _ => ⟨rfl, rfl, show (4 : Int) ≠ 0 by decide, show (16 : Int) ≠ 0 by decide,
    show (16 : Int) ≠ 0 by decide, rfl, rfl⟩

/-- The extrapolation `x / base / F` of lines 643-651 is zero as long as
`x < base * F`. -/
theorem extrapolation_zero (B : Nat) (x F : Int) (hx : 0 ≤ x) (h : x < (B : Int) * F) :
    x / (B : Int) / F = 0 := by
  rcases Nat.eq_zero_or_pos B with hB | hB
  · subst hB
    simp
  · have hB2 : (0 : Int) < (B : Int) := by exact_mod_cast hB
    have h0 : 0 ≤ x / (B : Int) := Int.ediv_nonneg hx (le_of_lt hB2)
    have h1 : x / (B : Int) < F := Int.ediv_lt_of_lt_mul hB2 (by rw [mul_comm]; exact h)
    exact Int.ediv_eq_zero_of_lt h0 h1

/-- C1: the code divides the extrapolation by the frame rate base instead of
multiplying by it, so the date does not advance with the frame counter.  In
every pass of `DecodeThread_Video` that displays a picture while an anchor
`T > 0` is set and the frame rate `F` is positive, with `k - 1 ≥ 1` frames
counted since the anchor before this one and
`(k - 1) * 1 000 000 < base * F`, the frame counter becomes `k` and the
picture is dated `T`, the anchor itself; for `F ≤ 2 000 000` that is earlier
than `T + round((k - 1) * 1 000 000 / F)`. -/
theorem frame_date_unspaced (env : Env) (draw : Bool) (fuel : Nat) (s : vdec_thread_t) (n : Int)
    (r : vdec_thread_t × List Event × Option Int) (t : Int)
    (h : decodeOnce env draw fuel s n = some r)
    (hd : t ∈ published r.2.1)
    (hT : 0 < s.pts) (hT2 : s.pts < 2 ^ 63)
    (hF : 0 < r.1.p_context.frame_rate) (hF2 : r.1.p_context.frame_rate < 2 ^ 31)
    (hk : 1 ≤ s.i_frame_count) (hk2 : s.i_frame_count + 1 < 2 ^ 31)
    (hsmall : 1000000 * s.i_frame_count < (frameRateBase env : Int) * r.1.p_context.frame_rate) :
    r.1.i_frame_count = s.i_frame_count + 1 ∧ t = s.pts ∧
    (r.1.p_context.frame_rate ≤ 2000000 →
      t < specPts s.pts r.1.i_frame_count r.1.p_context.frame_rate) := by
  obtain ⟨s1, ev, next⟩ := r
  obtain ⟨p_pic, hd⟩ := (mem_published _ _).1 hd
  obtain ⟨-, -, hp, hc, -, ht⟩ := decodeOnce_display env draw fuel s s1 n ev next p_pic t h hd
  simp only at hF hF2 hsmall ⊢
  have e : s.i_frame_count + 1 - 1 = s.i_frame_count := by ring
  have hz := extrapolation_zero (frameRateBase env) (1000000 * s.i_frame_count)
    s1.p_context.frame_rate (by omega) hsmall
  have hdate : t = s.pts := by
    rw [ht, hp, hc, framePts_anchor env s.pts (s.i_frame_count + 1) _ _ hT hF hF2 (by omega) hk2
      (by rw [e, hz]; omega), e, hz]
    omega
  refine ⟨hc, hdate, ?_⟩
  intro hrate
  rw [hdate, hc]
  unfold specPts roundDiv
  rw [e]
  have hd0 : 0 < s1.p_context.frame_rate.toNat := by omega
  have hle : 2 * s1.p_context.frame_rate.toNat ≤
      2 * (s.i_frame_count.toNat * 1000000) + s1.p_context.frame_rate.toNat := by omega
  have hpos : 0 < (2 * (s.i_frame_count.toNat * 1000000) + s1.p_context.frame_rate.toNat) /
      (2 * s1.p_context.frame_rate.toNat) := Nat.div_pos hle (by omega)
  omega

/-- C1, a pass the theorem applies to: anchor 1000, third frame since the
anchor, frame rate 25 and the frame rate base 1001000; the frame is dated 1000
where rounding gives 81000. -/
theorem frame_date_unspaced_witness :
    ∃ r, decodeOnce (env0 1001000 (fun _ => 0) (codec0 1 25)) true 1 threadAnchored 1 = some r ∧
      1000 ∈ published r.2.1 ∧
      specPts threadAnchored.pts r.1.i_frame_count r.1.p_context.frame_rate = 81000 ∧
      (r.1.i_frame_count = threadAnchored.i_frame_count + 1 ∧ (1000 : Int) = threadAnchored.pts ∧
        (r.1.p_context.frame_rate ≤ 2000000 →
          1000 < specPts threadAnchored.pts r.1.i_frame_count r.1.p_context.frame_rate)) :=
  ⟨_, rfl, by decide, by decide,
    frame_date_unspaced (env0 1001000 (fun _ => 0) (codec0 1 25)) true 1 threadAnchored 1 _ 1000
      rfl (by decide) (by decide) (by decide) (by decide) (by decide) (by decide) (by decide)
      (by decide)⟩

/-- C14: the code divides the extrapolation by the frame rate base instead of
multiplying by it, so the three frames of a packet are not spaced.  A call of
`DecodeThread_Video` with no late frame counted and nothing kept in the
buffer, on a packet stamped 1000 whose bytes are used up by three codec calls
that each yield a drawable frame at frame rate `F`, with
`2 000 000 < base * F`, publishes exactly three frames, each right after the
codec call that produced it, and dates all three 1000. -/
theorem three_frames_unspaced (env : Env) (fuel : Nat) (s : vdec_thread_t) (p : pes_packet_t)
    (rest : List pes_packet_t) (a b c F : Int)
    (hF : 0 < F) (hF2 : F < 2 ^ 31)
    (hlate : s.i_frame_late = 0) (hbuf : s.i_buffer = 0)
    (hfifo : s.fifo = p :: rest) (hpts : p.i_pts = 1000)
    (hsz : p.i_pes_size = p.payload.length)
    (h1 : yieldsFrame env s.n_decode a F)
    (h2 : yieldsFrame env (s.n_decode + 1) b F)
    (h3 : yieldsFrame env (s.n_decode + 2) c F)
    (ha : 0 ≤ a) (hb : 0 ≤ b) (hab : a + b < p.payload.length)
    (habc : (p.payload.length : Int) ≤ a + b + c)
    (hv : ∀ n w h c, (env.vout_Request n w h c).isSome = true)
    (hp : ∀ n, (env.vout_CreatePicture n).isSome = true)
    (hsmall : 2000000 < (frameRateBase env : Int) * F) :
    ∃ s1 ev, DecodeThread_Video env (fuel + 3) s = some (s1, ev) ∧
      codecAndDisplay ev = [none, some 1000, none, some 1000, none, some 1000] ∧
      published ev = [1000, 1000, 1000] := by
  obtain ⟨s1, ev, hrun, hc, hpub⟩ := three_frames env fuel s p rest a b c F hF hF2 hlate hbuf
    hfifo hpts hsz h1 h2 h3 ha hb hab habc hv hp
  have z1 := extrapolation_zero (frameRateBase env) 1000000 F (by decide) (by omega)
  have z2 := extrapolation_zero (frameRateBase env) 2000000 F (by decide) hsmall
  rw [z1, z2] at hc hpub
  exact ⟨s1, ev, hrun, hc, hpub⟩

/-- C14, two calls the theorem applies to: three bytes stamped 1000 and a
codec that uses one byte a call, with the frame rate field 25 and the frame
rate base 1001000, and in a build before 4662, whose frame rate base is
10000, with the frame rate field 250000; the three frames are dated 1000,
1000 and 1000. -/
theorem three_frames_unspaced_witness :
    (∃ s1 ev, DecodeThread_Video (env0 1001000 (fun _ => 0) (codecRate 25)) (0 + 3)
        (thread0 false [packet1000]) = some (s1, ev) ∧
      codecAndDisplay ev = [none, some 1000, none, some 1000, none, some 1000] ∧
      published ev = [1000, 1000, 1000]) ∧
    (∃ s1 ev, DecodeThread_Video
        { env0 1 (fun _ => 0) (codecRate 250000) with LIBAVCODEC_BUILD := 4661 } (0 + 3)
        (thread0 false [packet1000]) = some (s1, ev) ∧
      codecAndDisplay ev = [none, some 1000, none, some 1000, none, some 1000] ∧
      published ev = [1000, 1000, 1000]) :=
  ⟨three_frames_unspaced (env0 1001000 (fun _ => 0) (codecRate 25)) 0
      (thread0 false [packet1000]) packet1000 [] 1 1 1 25 (by decide) (by decide)
      rfl rfl rfl rfl rfl
      (yieldsFrame_codecRate _ _ _ _) (yieldsFrame_codecRate _ _ _ _)
      (yieldsFrame_codecRate _ _ _ _)
      (by decide) (by decide) (by decide) (by decide) (fun _ _ _ _ => rfl) (fun _ => rfl)
      (by decide),
   three_frames_unspaced { env0 1 (fun _ => 0) (codecRate 250000) with LIBAVCODEC_BUILD := 4661 } 0
      (thread0 false [packet1000]) packet1000 [] 1 1 1 250000 (by decide) (by decide)
      rfl rfl rfl rfl rfl
      (fun _ _ _ => ⟨rfl, rfl, show (4 : Int) ≠ 0 by decide, show (16 : Int) ≠ 0 by decide,
        show (16 : Int) ≠ 0 by decide, rfl, rfl⟩)
      (fun _ _ _ => ⟨rfl, rfl, show (4 : Int) ≠ 0 by decide, show (16 : Int) ≠ 0 by decide,
        show (16 : Int) ≠ 0 by decide, rfl, rfl⟩)
      (fun _ _ _ => ⟨rfl, rfl, show (4 : Int) ≠ 0 by decide, show (16 : Int) ≠ 0 by decide,
        show (16 : Int) ≠ 0 by decide, rfl, rfl⟩)
      (by decide) (by decide) (by decide) (by decide) (fun _ _ _ _ => rfl) (fun _ => rfl)
      (by decide)⟩

end FfmpegVideo
